import Mathlib

/-!
# Yeti hash tables (`yeti_hash.c`)

A shallow embedding of the string-keyed hash table of Yeti (`h_new`, `h_find`,
`h_remove`, `h_insert`, `rehash`, and the built-in routines that walk the
bucket array), followed by theorems about it.

Conventions of the embedding.

* `h_uint_t` is `unsigned int`: a natural number below `UINT`, and every
  arithmetic operation on it is reduced modulo `UINT`.
* A C string is the list of its bytes, of any length.  Reading at or after the
  end of the list yields the terminating zero byte (and an explicit `0` in the
  list ends the string there, as it does in C).
* A routine that hashes a key returns an `Option`: `none` when it yields no
  result, because the loop of `H_HASH` never ends or because `hash % size`
  divides by zero.
* The outcome of an allocation is a parameter of the routine that performs it:
  a flag telling whether `h_malloc` succeeds and, for the entry that `h_insert`
  creates, the string `junk` that the block allocated holds before anything is
  copied into it.
* A collision chain (`h_entry` nodes linked by `next`) is the list of its
  entries, head first; the bucket array is the list of its chains.
* Calls of the interpreter (`Ref`, `Unref`, `h_error`) and the writes to the
  value slot of an entry are recorded, in program order, as a list of `Effect`.
-/

namespace Yeti

/-- Number of values of `h_uint_t` (a 32-bit `unsigned int`). -/
abbrev UINT : Nat := 4294967296

/-- The symbol kinds (`OpTable *`) that the code distinguishes. -/
inductive OpTable where
  | dataBlockSym
  | referenceSym
  | returnSym
  | intScalar
  | longScalar
  | doubleScalar
  deriving DecidableEq

/-- A Yorick `Symbol`: `value` is the raw contents of the `SymbolValue` union
(the address of the data block when `ops` is `dataBlockSym`). -/
structure Symbol where
  ops : OpTable
  index : Nat
  value : Nat
  deriving DecidableEq

/-- The node `struct h_entry`, without its `next` link. -/
structure h_entry where
  sym_ops : OpTable
  sym_value : Nat
  hash : Nat
  name : List Nat
  deriving DecidableEq

/-- The object `struct h_table` (`ops` always points to `hashOps`). -/
structure h_table where
  references : Int
  eval : Int
  number : Nat
  size : Nat
  new_size : Nat
  bucket : List (List h_entry)
  deriving DecidableEq

/-- Messages passed to `h_error` / `YError`. -/
inductive ErrorMsg where
  | insufficient_memory_for_new_hash_table
  | invalid_nil_key_name
  | insufficient_memory_to_store_new_hash_entry
  | hash_entry_not_found
  | corrupted_hash_table
  deriving DecidableEq

/-- Observable steps of the routines, in program order. -/
inductive Effect where
  | Ref (db : Nat)
  | Unref (db : Nat)
  | set_sym_ops (ops : OpTable)
  | set_sym_value (value : Nat)
  | h_free_entry (name : List Nat)
  | h_error (msg : ErrorMsg)
  deriving DecidableEq

/-- What the interpreter provides to `h_insert`: the global symbol table, the
test `db->ops == &lvalueOps`, and `FetchLValue`. -/
structure Host where
  globTab : Nat → Symbol
  is_lvalue : Nat → Bool
  FetchLValue : Nat → Symbol → Symbol

/-- Result of a routine returning `int`: the value returned, the table as the
routine leaves it, and the effects it performed. -/
structure Outcome where
  result : Int
  table : h_table
  effects : List Effect
  deriving DecidableEq

/-- The decrement `--n` of a `h_uint_t`: zero wraps around to `UINT - 1`. -/
def h_uint_dec (n : Nat) : Nat :=
  if n = 0 then UINT - 1 else n - 1

/-! ## Hashing and matching -/

/-- The loop of `H_HASH`, `for (HASH = LEN = 0; (BYTE = temp[LEN]); ++LEN)
HASH += (HASH<<3) + BYTE;`, from the state `(HASH, LEN)`.  `LEN` is a
`h_uint_t`, so `++LEN` wraps around; `none` when the loop is still running
after `fuel` tests of `BYTE`. -/
def H_HASH_loop (temp : List Nat) : Nat → Nat → Nat → Option (Nat × Nat)
  | 0, _, _ => none
  | fuel + 1, hash, len =>
    if temp.getD len 0 = 0 then some (hash, len)
    else
      H_HASH_loop temp fuel ((hash + (hash <<< 3) % UINT + temp.getD len 0) % UINT)
        ((len + 1) % UINT)

/-- The macro `H_HASH(HASH, LEN, NAME, BYTE)`: the pair `(HASH, LEN)`, or
`none` when the loop never ends.  The loop is run for `length + 1` tests: it
ends within that many tests or not at all. -/
def H_HASH (name : List Nat) : Option (Nat × Nat) :=
  H_HASH_loop name (name.length + 1) 0 0

/-- The C library `strncmp`: compares at most `n` bytes, stopping after a zero
byte; the result is zero, or the difference of the first bytes that differ. -/
def strncmp : List Nat → List Nat → Nat → Int
  | _, _, 0 => 0
  | s1, s2, n + 1 =>
    if s1.headD 0 ≠ s2.headD 0 then (s1.headD 0 : Int) - (s2.headD 0 : Int)
    else if s1.headD 0 = 0 then 0
    else strncmp s1.tail s2.tail n

/-- The macro `H_MATCH(ENTRY, HASH, NAME, LEN)`:
`(ENTRY)->hash == HASH && ! strncmp(NAME, (ENTRY)->name, LEN)`. -/
def H_MATCH (entry : h_entry) (hash : Nat) (name : List Nat) (len : Nat) : Bool :=
  entry.hash == hash && strncmp name entry.name len == 0

/-! ## `rehash` -/

/-- The inner `while (entry != NULL)` loop of `rehash` on the chain of bucket
`i`: an entry with `hash % new_size == i` stays, any other is unlinked and
pushed at the head of bucket `j = hash % new_size`.  Returns the entries left in
chain `i` and the bucket array with the moved entries. -/
def rehash_chain (new_size i : Nat) :
    List h_entry → List (List h_entry) → List h_entry × List (List h_entry)
  | [], bucket => ([], bucket)
  | entry :: rest, bucket =>
    if entry.hash % new_size = i then
      (entry :: (rehash_chain new_size i rest bucket).1,
        (rehash_chain new_size i rest bucket).2)
    else
      rehash_chain new_size i rest
        (bucket.set (entry.hash % new_size)
          (entry :: bucket.getD (entry.hash % new_size) []))

/-- The outer loop `for (i = 0; i < old_size; ++i)` of `rehash`, with `n` the
number of buckets still to visit. -/
def rehash_loop (new_size : Nat) : Nat → Nat → List (List h_entry) → List (List h_entry)
  | 0, _, bucket => bucket
  | n + 1, i, bucket =>
    rehash_loop new_size n (i + 1)
      ((rehash_chain new_size i (bucket.getD i []) bucket).2.set i
        (rehash_chain new_size i (bucket.getD i []) bucket).1)

/-- The routine `rehash`. -/
def rehash (table : h_table) : h_table :=
  if table.new_size > table.size then
    { table with
      bucket := rehash_loop table.new_size table.size 0 table.bucket
      size := table.new_size }
  else table

/-! ## `h_new` -/

/-- The loop `while (size < number) size <<= 1;` of `h_new`; `none` when it is
still running after `fuel` tests. -/
def h_new_loop : Nat → Nat → Nat → Option Nat
  | 0, _, _ => none
  | fuel + 1, size, number =>
    if size < number then h_new_loop fuel ((size <<< 1) % UINT) number
    else some size

/-- The routine `h_new`.  `sizeof_ptr` is `sizeof(h_entry_t *)`, `table_ok` and
`bucket_ok` tell whether the two `h_malloc` calls succeed.  The outer `Option`
is `none` when the loop does not stop within `fuel` tests, the inner one is
`none` for a `NULL` result.  The bucket array has as many (zeroed) slots as fit
in the `nbytes` bytes allocated. -/
def h_new (fuel sizeof_ptr : Nat) (table_ok bucket_ok : Bool) (number : Nat) :
    Option (Option h_table) :=
  match h_new_loop fuel 1 number with
  | none => none
  | some size =>
    if table_ok && bucket_ok then
      some (some
        { references := 0
          eval := -1
          number := 0
          size := (size <<< 1) % UINT
          new_size := (size <<< 1) % UINT
          bucket := List.replicate ((((size <<< 1) % UINT) * sizeof_ptr) % UINT / sizeof_ptr) [] })
    else some none

/-! ## `h_find` -/

/-- The chain walk of `h_find`: the first entry that `H_MATCH` accepts. -/
def find_chain (hash : Nat) (name : List Nat) (len : Nat) : List h_entry → Option h_entry
  | [] => none
  | entry :: rest =>
    if H_MATCH entry hash name len then some entry
    else find_chain hash name len rest

/-- The routine `h_find` from the test of a pending rehash on, for a key with
hash `hash` and length `len`: the entry found (`none` for `NULL`) and the
table, which a pending rehash modifies. -/
def h_find_hashed (table : h_table) (name : List Nat) (hash len : Nat) :
    Option h_entry × h_table :=
  (find_chain hash name len ((rehash table).bucket.getD (hash % (rehash table).size) []),
    rehash table)

/-- The routine `h_find`: the entry found (`none` for `NULL`) and the table;
the outer `none` when `H_HASH` does not return or `hash % table->size` divides
by zero. -/
def h_find (table : h_table) (name : Option (List Nat)) : Option (Option h_entry × h_table) :=
  match name with
  | none => some (none, table)
  | some name =>
    match H_HASH name with
    | none => none
    | some (hash, len) =>
      if (rehash table).size = 0 then none
      else some (h_find_hashed table name hash len)

/-! ## `h_remove` -/

/-- The chain walk of `h_remove`: the first matching entry and the chain with
that entry unlinked. -/
def remove_chain (hash : Nat) (name : List Nat) (len : Nat) :
    List h_entry → Option (h_entry × List h_entry)
  | [] => none
  | entry :: rest =>
    if H_MATCH entry hash name len then some (entry, rest)
    else (remove_chain hash name len rest).map (fun r => (r.1, entry :: r.2))

/-- The routine `h_remove` from the test of a pending rehash on, for a key with
hash `hash` and length `len`. -/
def h_remove_hashed (table : h_table) (name : List Nat) (hash len : Nat) : Outcome :=
  match remove_chain hash name len
      ((rehash table).bucket.getD (hash % (rehash table).size) []) with
  | some (entry, chain) =>
    ⟨1,
      { rehash table with
        bucket := (rehash table).bucket.set (hash % (rehash table).size) chain
        number := h_uint_dec (rehash table).number },
      (if entry.sym_ops = OpTable.dataBlockSym then [Effect.Unref entry.sym_value] else [])
        ++ [Effect.h_free_entry entry.name]⟩
  | none => ⟨0, rehash table, []⟩

/-- The routine `h_remove`; `none` when `H_HASH` does not return or
`hash % table->size` divides by zero. -/
def h_remove (table : h_table) (name : Option (List Nat)) : Option Outcome :=
  match name with
  | none => some ⟨0, table, []⟩
  | some name =>
    match H_HASH name with
    | none => none
    | some (hash, len) =>
      if (rehash table).size = 0 then none
      else some (h_remove_hashed table name hash len)

/-! ## `Y_h_pop` -/

/-- The built-in `Y_h_pop` once the key is hashed (hash `hash`, length `len`):
the symbol pushed on the stack as its `ops` and `value` (`none` for the nil
data block pushed when no entry matches), the table, and the effects.  Unlike
`h_remove` it neither completes a pending rehash nor releases the value of the
entry. -/
def Y_h_pop_hashed (table : h_table) (name : List Nat) (hash len : Nat) :
    Option (OpTable × Nat) × h_table × List Effect :=
  match remove_chain hash name len (table.bucket.getD (hash % table.size) []) with
  | some (entry, chain) =>
    (some (entry.sym_ops, entry.sym_value),
      { table with
        bucket := table.bucket.set (hash % table.size) chain
        number := h_uint_dec table.number },
      [Effect.h_free_entry entry.name])
  | none => (none, table, [])

/-- The built-in `Y_h_pop` (arguments already checked); the outer `none` when
`H_HASH` does not return or `hash % table->size` divides by zero. -/
def Y_h_pop (table : h_table) (name : Option (List Nat)) :
    Option (Option (OpTable × Nat) × h_table × List Effect) :=
  match name with
  | none => some (none, table, [])
  | some name =>
    match H_HASH name with
    | none => none
    | some (hash, len) =>
      if table.size = 0 then none
      else some (Y_h_pop_hashed table name hash len)

/-! ## `h_insert` -/

/-- The preparation of the symbol in `h_insert`: a reference symbol is replaced
by the global symbol it refers to, and an LValue is fetched. -/
def prepare_symbol (host : Host) (sym : Symbol) : Symbol :=
  if (if sym.ops = OpTable.referenceSym then host.globTab sym.index else sym).ops
        = OpTable.dataBlockSym
      ∧ host.is_lvalue
          (if sym.ops = OpTable.referenceSym then host.globTab sym.index else sym).value = true then
    host.FetchLValue
      (if sym.ops = OpTable.referenceSym then host.globTab sym.index else sym).value
      (if sym.ops = OpTable.referenceSym then host.globTab sym.index else sym)
  else (if sym.ops = OpTable.referenceSym then host.globTab sym.index else sym)

/-- The critical section of `h_insert` that replaces the contents of a matching
entry: the effects, in program order. -/
def replace_effects (entry : h_entry) (sym : Symbol) : List Effect :=
  [Effect.set_sym_ops OpTable.intScalar]
    ++ (if entry.sym_ops = OpTable.dataBlockSym then [Effect.Unref entry.sym_value] else [])
    ++ (if sym.ops = OpTable.dataBlockSym then [Effect.Ref sym.value] else [])
    ++ [Effect.set_sym_value sym.value, Effect.set_sym_ops sym.ops]

/-- The first loop of `h_insert`: the chain with the contents of the first
matching entry replaced by `sym`, or `none` when no entry matches. -/
def replace_chain (hash : Nat) (name : List Nat) (len : Nat) (sym : Symbol) :
    List h_entry → Option (List h_entry × List Effect)
  | [] => none
  | entry :: rest =>
    if H_MATCH entry hash name len then
      some ({ entry with sym_ops := sym.ops, sym_value := sym.value } :: rest,
        replace_effects entry sym)
    else (replace_chain hash name len sym rest).map (fun r => (entry :: r.1, r.2))

/-- The block of `h_insert` that grows the bucket array when
`((number + 1)<<1) > size`: `none` when `h_malloc` fails.  The new array holds
the first `size` slots of the old one followed by `size` empty slots (`nbytes`
is a `size_t` here and does not wrap), and `new_size = 2*size` is a `h_uint_t`. -/
def grow (bucket_ok : Bool) (table : h_table) : Option h_table :=
  if (((table.number + 1) % UINT) <<< 1) % UINT > table.size then
    if bucket_ok then
      some (rehash
        { table with
          bucket := table.bucket.take table.size ++ List.replicate table.size []
          new_size := (2 * table.size) % UINT })
    else none
  else some table

/-- The name of the entry that `h_insert` creates, as
`memcpy(entry->name, name, len+1)` leaves it.  The count `len+1` is computed as
a `h_uint_t`: when it is not zero the bytes of the key and its terminator are
copied; when it wraps around to zero nothing is copied, and the name is the
string `junk` that the block returned by `h_malloc` holds. -/
def stored_name (junk name : List Nat) (len : Nat) : List Nat :=
  if (len + 1) % UINT = 0 then junk else name.take len

/-- The routine `h_insert` from the test of a pending rehash on, for a key with
hash `hash` and length `len`; `bucket_ok` and `entry_ok` tell whether the
`h_malloc` of the doubled bucket array and of the new entry succeed, and `junk`
is the string found in the block allocated for the entry. -/
def h_insert_hashed (host : Host) (bucket_ok entry_ok : Bool) (junk : List Nat)
    (table : h_table) (name : List Nat) (hash len : Nat) (sym : Symbol) : Outcome :=
  match replace_chain hash name len (prepare_symbol host sym)
      ((rehash table).bucket.getD (hash % (rehash table).size) []) with
  | some (chain, effects) =>
    ⟨1,
      { rehash table with
        bucket := (rehash table).bucket.set (hash % (rehash table).size) chain },
      effects⟩
  | none =>
    match grow bucket_ok (rehash table) with
    | none =>
      ⟨-1, rehash table,
        [Effect.h_error ErrorMsg.insufficient_memory_to_store_new_hash_entry]⟩
    | some grown =>
      if entry_ok then
        ⟨0,
          { grown with
            bucket := grown.bucket.set (hash % grown.size)
              ({ sym_ops := (prepare_symbol host sym).ops
                 sym_value := (prepare_symbol host sym).value
                 hash := hash
                 name := stored_name junk name len }
                :: grown.bucket.getD (hash % grown.size) [])
            number := (grown.number + 1) % UINT },
          (if (prepare_symbol host sym).ops = OpTable.dataBlockSym then
            [Effect.Ref (prepare_symbol host sym).value] else [])⟩
      else
        ⟨-1, grown,
          [Effect.h_error ErrorMsg.insufficient_memory_to_store_new_hash_entry]⟩

/-- The routine `h_insert`; `none` when `H_HASH` does not return or
`hash % table->size` divides by zero. -/
def h_insert (host : Host) (bucket_ok entry_ok : Bool) (junk : List Nat) (table : h_table)
    (name : Option (List Nat)) (sym : Symbol) : Option Outcome :=
  match name with
  | none => some ⟨-1, table, [Effect.h_error ErrorMsg.invalid_nil_key_name]⟩
  | some name =>
    match H_HASH name with
    | none => none
    | some (hash, len) =>
      if (rehash table).size = 0 then none
      else some (h_insert_hashed host bucket_ok entry_ok junk table name hash len sym)

/-! ## Enumeration: `Y_h_first`, `Y_h_next` -/

/-- The scan `for (j = ...; j < n; ++j) if (bucket[j]) ...`: the name of the
head of the first non-empty bucket among the `k` buckets from index `j` on. -/
def scan_bucket (bucket : List (List h_entry)) : Nat → Nat → Option (List Nat)
  | 0, _ => none
  | k + 1, j =>
    match bucket.getD j [] with
    | entry :: _ => some entry.name
    | [] => scan_bucket bucket k (j + 1)

/-- The built-in `Y_h_first`: the string pushed (`none` for the nil string). -/
def Y_h_first (table : h_table) : Option (List Nat) :=
  scan_bucket table.bucket table.size 0

/-- The chain walk of `Y_h_next`: `none` when no entry matches, otherwise the
entry that follows the first matching one, if any. -/
def next_chain (hash : Nat) (name : List Nat) (len : Nat) :
    List h_entry → Option (Option h_entry)
  | [] => none
  | entry :: rest =>
    if H_MATCH entry hash name len then some rest.head?
    else next_chain hash name len rest

/-- The built-in `Y_h_next` once the key is hashed (hash `hash`, length `len`):
the string left on the stack, or the error raised. -/
def Y_h_next_hashed (table : h_table) (name : List Nat) (hash len : Nat) :
    Except ErrorMsg (Option (List Nat)) :=
  match next_chain hash name len (table.bucket.getD (hash % table.size) []) with
  | none => Except.error ErrorMsg.hash_entry_not_found
  | some (some entry) => Except.ok (some entry.name)
  | some none =>
    Except.ok (scan_bucket table.bucket
      (table.size - (hash % table.size + 1)) (hash % table.size + 1))

/-- The built-in `Y_h_next` (arguments already checked): the string left on the
stack, or the error raised; `none` when `H_HASH` does not return or
`hash % table->size` divides by zero. -/
def Y_h_next (table : h_table) (name : Option (List Nat)) :
    Option (Except ErrorMsg (Option (List Nat))) :=
  match name with
  | none => some (Except.ok none)
  | some name =>
    match H_HASH name with
    | none => none
    | some (hash, len) =>
      if table.size = 0 then none
      else some (Y_h_next_hashed table name hash len)

/-- The iteration `K0 = Y_h_first`, `K(i+1) = Y_h_next(Ki)` until no key is
returned: the keys visited, or `none` when an error was raised, when `Y_h_next`
yields no result, or when the iteration is still running after `fuel` calls of
`Y_h_next`. -/
def enumerate_from (table : h_table) : Nat → Option (List Nat) → Option (List (List Nat))
  | _, none => some []
  | 0, some _ => none
  | fuel + 1, some key =>
    match Y_h_next table (some key) with
    | some (Except.ok next) => (enumerate_from table fuel next).map (fun keys => key :: keys)
    | some (Except.error _) => none
    | none => none

/-- The whole enumeration of a table. -/
def enumerate (table : h_table) (fuel : Nat) : Option (List (List Nat)) :=
  enumerate_from table fuel (Y_h_first table)

/-! ## Well-formed tables -/

/-- Tables on which the routines access memory inside the bucket array and
leave no rehash pending: `size` is non-zero, the bucket array holds at least
`size` slots, and `new_size` does not exceed `size`. -/
def Inv (t : h_table) : Prop :=
  0 < t.size ∧ t.size ≤ t.bucket.length ∧ t.new_size ≤ t.size

/-- The well-formed tables: those returned by a successful `h_new` (with a
non-zero `size` and a bucket array of `size` slots) and then modified by any
sequence of calls of `h_insert`, `h_remove`, `h_find` and `Y_h_pop` that
return. -/
inductive Reachable (host : Host) : h_table → Prop where
  | new (fuel sizeof_ptr number : Nat) (t : h_table) :
      h_new fuel sizeof_ptr true true number = some (some t) →
      0 < t.size → t.size ≤ t.bucket.length → Reachable host t
  | insert (bucket_ok entry_ok : Bool) (junk : List Nat) (t : h_table)
      (name : Option (List Nat)) (sym : Symbol) (o : Outcome) :
      Reachable host t → h_insert host bucket_ok entry_ok junk t name sym = some o →
      Reachable host o.table
  | remove (t : h_table) (name : Option (List Nat)) (o : Outcome) :
      Reachable host t → h_remove t name = some o → Reachable host o.table
  | find (t : h_table) (name : Option (List Nat)) (r : Option h_entry × h_table) :
      Reachable host t → h_find t name = some r → Reachable host r.2
  | pop (t : h_table) (name : Option (List Nat))
      (r : Option (OpTable × Nat) × h_table × List Effect) :
      Reachable host t → Y_h_pop t name = some r → Reachable host r.2.1

/-! ## Concrete inputs -/

/-- A host whose global symbols are all the integer zero and which has no LValue. -/
def host0 : Host :=
  ⟨fun _ => ⟨OpTable.intScalar, 0, 0⟩, fun _ => false, fun _ s => s⟩

/-- The `long` scalar `v` as a stack symbol. -/
def long_sym (v : Nat) : Symbol :=
  ⟨OpTable.longScalar, 0, v⟩

/-- The table returned by `h_new(0)`: two empty buckets. -/
def table0 : h_table :=
  ⟨0, -1, 0, 2, 2, [[], []]⟩

/-- The key `"d"`. -/
def key_d : List Nat := [100]

/-- The key `"dkhbbhegaic"`, which extends `"d"` and has the same 32-bit hash. -/
def key_d_long : List Nat := [100, 107, 104, 98, 98, 104, 101, 103, 97, 105, 99]

/-- The key `"x"`. -/
def key_x : List Nat := [120]

/-- The table after `h_insert(table0, "d", 1)`. -/
def table_d : h_table :=
  ⟨0, -1, 1, 2, 2, [[⟨OpTable.longScalar, 1, 100, key_d⟩], []]⟩

/-- The table after `h_insert(table0, "d", 1)` and then
`h_insert(table, "dkhbbhegaic", 2)`. -/
def table_d_long : h_table :=
  ⟨0, -1, 2, 4, 4,
    [[⟨OpTable.longScalar, 2, 100, key_d_long⟩, ⟨OpTable.longScalar, 1, 100, key_d⟩],
      [], [], []]⟩

/-- The table after `h_insert(table0, "dkhbbhegaic", 7)` alone. -/
def table_long : h_table :=
  ⟨0, -1, 1, 2, 2, [[⟨OpTable.longScalar, 7, 100, key_d_long⟩], []]⟩

/-- A sequence of `h_insert` calls (allocations succeeding, the blocks allocated
holding the empty string), applied from left to right; `none` when one of them
yields no result. -/
def insert_all (host : Host) (table : h_table) : List (List Nat × Symbol) → Option h_table
  | [] => some table
  | call :: rest =>
    match h_insert host true true [] table (some call.1) call.2 with
    | none => none
    | some o => insert_all host o.table rest

/-- The entries of a table: the chains of buckets `0 .. size-1`, in that order. -/
def entries (table : h_table) : List h_entry :=
  (table.bucket.take table.size).foldr (fun chain rest => chain ++ rest) []

/-! ## The hash as the specification words it -/

/-- The left fold `h <- (h + (h << 3) + b) mod 2^32` over the bytes, started at
`0`, as the specification states the hash. -/
def spec_hash_fold (bytes : List Nat) : Nat :=
  bytes.foldl (fun h b => (h + (h <<< 3) + b) % UINT) 0

/-- The sum of `b_i * 9^(n-i)` over the bytes `b_1 .. b_n` (here indexed from
`0`, so the exponent is `n - 1 - i`). -/
def spec_hash_sum (bytes : List Nat) : Nat :=
  ((List.range bytes.length).map (fun i => bytes.getD i 0 * 9 ^ (bytes.length - 1 - i))).sum

/-- The chains of a bucket array laid end to end. -/
def flat (bucket : List (List h_entry)) : List h_entry :=
  bucket.foldr (fun chain rest => chain ++ rest) []

/-- Every entry of bucket `i < size` has a cached hash with `hash % size = i`. -/
def Placed (t : h_table) : Prop :=
  ∀ i, i < t.size → ∀ e ∈ t.bucket.getD i [], e.hash % t.size = i

/-- The recorded entry count agrees with the entries present: `number` is the
number of entries of buckets `0 .. size-1`, as a `h_uint_t`. -/
def Counted (t : h_table) : Prop :=
  t.number = (entries t).length % UINT

/-- The consistency of a table at the boundary of an operation: memory safety
and no pending rehash (`Inv`), every entry in the bucket of its hash
(`Placed`), and a recorded count that agrees with the chains (`Counted`). -/
def Consistent (t : h_table) : Prop :=
  Inv t ∧ Placed t ∧ Counted t

/-! ## `Y_h_new` -/

/-- The size hint that the built-in `Y_h_new` passes to `h_new`: `nargs/2` (or
`0` when there is no argument, or a single nil argument), raised to
`min_size = 16`. -/
def Y_h_new_initial_size (nargs : Nat) (sp_is_nil : Bool) : Nat :=
  if (if nargs = 0 ∨ (nargs = 1 ∧ sp_is_nil = true) then 0 else nargs / 2) < 16 then 16
  else (if nargs = 0 ∨ (nargs = 1 ∧ sp_is_nil = true) then 0 else nargs / 2)

/-- The built-in `Y_h_new` up to `PushDataBlock(obj)`: the table created, before
`set_members` inserts the members given as arguments. -/
def Y_h_new (fuel sizeof_ptr : Nat) (table_ok bucket_ok : Bool) (nargs : Nat)
    (sp_is_nil : Bool) : Option (Option h_table) :=
  h_new fuel sizeof_ptr table_ok bucket_ok (Y_h_new_initial_size nargs sp_is_nil)

/-! ## `Y_h_stat` -/

/-- What the built-in `Y_h_stat` leaves: the histogram array pushed on the
stack, the table, and the error raised, if any. -/
structure StatOutcome where
  result : List Int
  table : h_table
  error : Option ErrorMsg
  deriving DecidableEq

/-- The loop `for (i = 0; i <= number; ++i) result[i] = 0L;` of `Y_h_stat`, with
`i` a `h_uint_t`; `none` when it is still running after `fuel` tests. -/
def stat_init : Nat → Nat → Nat → List Int → Option (List Int)
  | 0, _, _, _ => none
  | fuel + 1, i, number, result =>
    if i ≤ number then stat_init fuel ((i + 1) % UINT) number (result.set i 0)
    else some result

/-- The loop `for (entry = bucket[i]; entry != NULL; entry = entry->next)
++count;` of `Y_h_stat`, with `count` a `h_uint_t`. -/
def stat_count : List h_entry → Nat → Nat
  | [], count => count
  | _ :: rest, count => stat_count rest ((count + 1) % UINT)

/-- The loop `for (i = 0; i < table->size; ++i)` of `Y_h_stat`, with `n` the
number of buckets still to visit, on the state `(result, max_count,
sum_count)`. -/
def stat_loop (number : Nat) :
    Nat → Nat → List (List h_entry) → List Int × Nat × Nat → List Int × Nat × Nat
  | 0, _, _, s => s
  | n + 1, i, bucket, s =>
    stat_loop number n (i + 1) bucket
      (if stat_count (bucket.getD i []) 0 ≤ number then
          s.1.set (stat_count (bucket.getD i []) 0)
            (s.1.getD (stat_count (bucket.getD i []) 0) 0 + 1)
        else s.1,
        if stat_count (bucket.getD i []) 0 > s.2.1 then stat_count (bucket.getD i []) 0
        else s.2.1,
        (s.2.2 + stat_count (bucket.getD i []) 0) % UINT)

/-- The built-in `Y_h_stat` (argument already checked).  The array pushed has
`number + 1` elements, computed as a `h_uint_t`; `none` when the zeroing loop
does not stop within `fuel` tests. -/
def Y_h_stat (fuel : Nat) (table : h_table) : Option StatOutcome :=
  match stat_init fuel 0 table.number (List.replicate ((table.number + 1) % UINT) 0) with
  | none => none
  | some result =>
    if (stat_loop table.number table.size 0 table.bucket (result, 0, 0)).2.2 ≠ table.number then
      some ⟨(stat_loop table.number table.size 0 table.bucket (result, 0, 0)).1,
        { table with
          number := (stat_loop table.number table.size 0 table.bucket (result, 0, 0)).2.2 },
        some ErrorMsg.corrupted_hash_table⟩
    else
      some ⟨(stat_loop table.number table.size 0 table.bucket (result, 0, 0)).1, table, none⟩

/-- The sum of the chain lengths of the `n` buckets from index `i` on. -/
def length_sum : Nat → Nat → List (List h_entry) → Nat
  | 0, _, _ => 0
  | n + 1, i, bucket => (bucket.getD i []).length + length_sum n (i + 1) bucket

/-- The sum of the chain lengths of buckets `0 .. size-1`. -/
def chain_length_sum (table : h_table) : Nat :=
  length_sum table.size 0 table.bucket

/-- A table state without entries whose recorded count is 5. -/
def table_count_5 : h_table :=
  ⟨0, -1, 5, 2, 2, [[], []]⟩

/-- A table state without entries whose recorded count is `UINT - 1`, as left
by a decrement of the count at zero. -/
def table_count_max : h_table :=
  { table0 with number := h_uint_dec 0 }

/-! ## More concrete inputs -/

/-- The key `"b"`. -/
def key_b : List Nat := [98]

/-- A table in the middle of a rehash from 2 to 4 buckets: the entry `"b"`
(hash 98) has already been moved from bucket 0 to bucket 2, and `size` has not
yet been set to `new_size`. -/
def table_migrating : h_table :=
  ⟨0, -1, 1, 2, 4, [[], [], [⟨OpTable.longScalar, 5, 98, key_b⟩], []]⟩

/-- The key `"l"`. -/
def key_l : List Nat := [108]

/-- The key `"lqdfaaagab"`, which extends `"l"` and has the same 32-bit hash. -/
def key_l_long : List Nat := [108, 113, 100, 102, 97, 97, 97, 103, 97, 98]

/-- The key `"y"`. -/
def key_y : List Nat := [121]

/-- The key `"z"`. -/
def key_z : List Nat := [122]

/-- The table after inserting, from `h_new(0)`, the keys `"l"` (value 1),
`"lqdfaaagab"` (value 2), `"x"` (value 3) and `"y"` (value 4): 8 buckets and 4
entries. -/
def table_l : h_table :=
  ⟨0, -1, 4, 8, 8,
    [[⟨OpTable.longScalar, 3, 120, key_x⟩],
      [⟨OpTable.longScalar, 4, 121, key_y⟩], [], [],
      [⟨OpTable.longScalar, 1, 108, key_l⟩, ⟨OpTable.longScalar, 2, 108, key_l_long⟩],
      [], [], []]⟩

/-! ## `h_delete` and sequences of calls -/

/-- The loop `while (entry)` of `h_delete` on one chain: the value of an entry
holding a data block is released, then the entry is freed. -/
def delete_chain : List h_entry → List Effect
  | [] => []
  | entry :: rest =>
    (if entry.sym_ops = OpTable.dataBlockSym then [Effect.Unref entry.sym_value] else [])
      ++ [Effect.h_free_entry entry.name] ++ delete_chain rest

/-- The loop `for (i = 0; i < size; ++i)` of `h_delete`, with `n` the number of
buckets still to visit. -/
def delete_loop : Nat → Nat → List (List h_entry) → List Effect
  | 0, _, _ => []
  | n + 1, i, bucket => delete_chain (bucket.getD i []) ++ delete_loop n (i + 1) bucket

/-- The routine `h_delete` (`none` for a `NULL` table): the effects performed.
A pending rehash is completed first; the final `h_free` of the bucket array and
of the table are not recorded. -/
def h_delete (table : Option h_table) : List Effect :=
  match table with
  | none => []
  | some table => delete_loop (rehash table).size 0 (rehash table).bucket

/-- A call of one of the routines that modify a table. -/
inductive Call where
  | insert (bucket_ok entry_ok : Bool) (junk : List Nat) (name : Option (List Nat))
      (sym : Symbol)
  | remove (name : Option (List Nat))
  | pop (name : Option (List Nat))

/-- The state of a run: the table, the effects performed so far and the symbols
that `Y_h_pop` handed to its caller. -/
structure Run where
  table : h_table
  effects : List Effect
  popped : List (OpTable × Nat)
  deriving DecidableEq

/-- One call, from a state of a run; `none` when the call yields no result. -/
def Run.step (host : Host) (s : Run) : Call → Option Run
  | Call.insert bucket_ok entry_ok junk name sym =>
    match h_insert host bucket_ok entry_ok junk s.table name sym with
    | none => none
    | some o => some ⟨o.table, s.effects ++ o.effects, s.popped⟩
  | Call.remove name =>
    match h_remove s.table name with
    | none => none
    | some o => some ⟨o.table, s.effects ++ o.effects, s.popped⟩
  | Call.pop name =>
    match Y_h_pop s.table name with
    | none => none
    | some r => some ⟨r.2.1, s.effects ++ r.2.2, s.popped ++ r.1.toList⟩

/-- A sequence of calls from a state of a run, from left to right; `none` when
one of the calls yields no result. -/
def run_from (host : Host) : Run → List Call → Option Run
  | s, [] => some s
  | s, call :: rest =>
    match Run.step host s call with
    | none => none
    | some s1 => run_from host s1 rest

/-- A sequence of calls on a table, from left to right. -/
def run (host : Host) (table : h_table) (calls : List Call) : Option Run :=
  run_from host ⟨table, [], []⟩ calls

/-- How many times the resource `db` was acquired (`Ref`). -/
def acquired (db : Nat) (effects : List Effect) : Nat :=
  effects.count (Effect.Ref db)

/-- How many times the resource `db` was released (`Unref`). -/
def released (db : Nat) (effects : List Effect) : Nat :=
  effects.count (Effect.Unref db)

/-- Whether an entry holds the resource `db`: its value is tagged as a data
block and is `db`. -/
def holds (db : Nat) (e : h_entry) : Bool :=
  decide (e.sym_ops = OpTable.dataBlockSym) && decide (e.sym_value = db)

/-- The number of entries of the table that hold the resource `db`. -/
def holders (db : Nat) (table : h_table) : Nat :=
  (entries table).countP (holds db)

/-- How many times `Y_h_pop` handed the resource `db` to its caller. -/
def handed (db : Nat) (popped : List (OpTable × Nat)) : Nat :=
  popped.count (OpTable.dataBlockSym, db)

/-- The data block `db` as a stack symbol. -/
def db_sym (db : Nat) : Symbol :=
  ⟨OpTable.dataBlockSym, 0, db⟩

/-- A table whose bucket array has just been doubled from 2 to 4 slots, before
`rehash` runs: the entries `"b"` (hash 98) and `"d"` (hash 100) are both in
bucket 0. -/
def table_doubled : h_table :=
  ⟨0, -1, 2, 2, 4,
    [[⟨OpTable.longScalar, 5, 98, key_b⟩, ⟨OpTable.longScalar, 1, 100, key_d⟩], [], [], []]⟩

/-! ## Structure of the reachable tables -/

/-- The sizes of a table: `size` is `2^k` with `1 ≤ k ≤ 31`; `new_size` equals
`size`, or is `0` once the `h_uint_t` product `2*size` of a growth at
`size = 2^31` has wrapped around; and the entries fill at most half of the
buckets as long as `size` is below `2^31`. -/
def Sized (t : h_table) : Prop :=
  ∃ k, 1 ≤ k ∧ k ≤ 31 ∧ t.size = 2 ^ k
    ∧ (t.new_size = t.size ∨ (k = 31 ∧ t.new_size = 0))
    ∧ (2 * (entries t).length ≤ t.size ∨ k = 31)

/-! ## A table filled up to the largest bucket array -/

/-- The `n`-th of a family of distinct keys of four non-zero bytes (the digits
of `n` in base 255, each plus one); distinct for `n < 255^4`. -/
def capacity_key (n : Nat) : List Nat :=
  [n % 255 + 1, n / 255 % 255 + 1, n / 65025 % 255 + 1, n / 16581375 % 255 + 1]

/-- The calls `h_insert(table, capacity_key i, 0)` for `i = 0 .. n-1`. -/
def capacity_calls (n : Nat) : List (List Nat × Symbol) :=
  ((List.range n).map capacity_key).map (fun k => (k, long_sym 0))

/-- The table after `h_new(0)` and the insertion of `2^30` distinct keys. -/
def table_capacity : Option h_table :=
  insert_all host0 table0 (capacity_calls 1073741824)

/-- The table after `h_insert(table0, "d", V)` with `V` the data block 7. -/
def table_block : h_table :=
  ⟨0, -1, 1, 2, 2, [[⟨OpTable.dataBlockSym, 7, 100, key_d⟩], []]⟩

/-! ## Keys and tables at the limits of `h_uint_t` -/

/-- A key of `2^32 - 1` bytes, all equal to 1. -/
def key_huge : List Nat :=
  List.replicate 4294967295 1

/-- A string of `2^32` bytes, all equal to 1. -/
def bytes_2_32 : List Nat :=
  List.replicate 4294967296 1

/-- The `n`-th of a family of distinct keys of five non-zero bytes (the digits
of `n` in base 255, each plus one); distinct for `n < 255^5`. -/
def wrap_key (n : Nat) : List Nat :=
  [n % 255 + 1, n / 255 % 255 + 1, n / 65025 % 255 + 1, n / 16581375 % 255 + 1,
    n / 4228250625 % 255 + 1]

/-- The calls `h_insert(table, wrap_key i, 0)` for `i = 0 .. n-1`. -/
def wrap_calls (n : Nat) : List (List Nat × Symbol) :=
  ((List.range n).map wrap_key).map (fun k => (k, long_sym 0))

/-! ## `Y_h_keys` -/

/-- The inner loop of `Y_h_keys` on one chain; `result` holds the strings
stored so far, `result[0 .. j-1]`, so that `j` is its length:
`if (j >= number) YError("corrupted hash table"); result[j++] = p_strcpy(entry->name);`. -/
def keys_chain (number : Nat) :
    List h_entry → List (List Nat) → Except ErrorMsg (List (List Nat))
  | [], result => Except.ok result
  | entry :: rest, result =>
    if result.length ≥ number then Except.error ErrorMsg.corrupted_hash_table
    else keys_chain number rest (result ++ [entry.name])

/-- The outer loop `for (i = 0; i < table->size; ++i)` of `Y_h_keys`, with `n`
the number of buckets still to visit. -/
def keys_loop (number : Nat) (bucket : List (List h_entry)) :
    Nat → Nat → List (List Nat) → Except ErrorMsg (List (List Nat))
  | 0, _, result => Except.ok result
  | n + 1, i, result =>
    match keys_chain number (bucket.getD i []) result with
    | Except.error e => Except.error e
    | Except.ok r => keys_loop number bucket n (i + 1) r

/-- The built-in `Y_h_keys` (argument already checked): `none` for the nil
pushed when `number` is zero, otherwise the strings stored, in the order of
their indices, in the array of `number` strings pushed; or the error raised. -/
def Y_h_keys (table : h_table) : Except ErrorMsg (Option (List (List Nat))) :=
  if table.number ≠ 0 then
    match keys_loop table.number table.bucket table.size 0 [] with
    | Except.error e => Except.error e
    | Except.ok r => Except.ok (some r)
  else Except.ok none

/-- The table after `h_new(0)` and the insertion of `"d"`, `"l"`, in this
order: both keys are in bucket 0 of 4. -/
def table_dl : h_table :=
  ⟨0, -1, 2, 4, 4,
    [[⟨OpTable.longScalar, 2, 108, key_l⟩, ⟨OpTable.longScalar, 1, 100, key_d⟩], [], [], []]⟩

/-- The table after `h_new(0)` and the insertion of `"d"`, `"l"`, `"x"`, in this
order. -/
def table_dlx : h_table :=
  ⟨0, -1, 3, 8, 8,
    [[⟨OpTable.longScalar, 3, 120, key_x⟩], [], [], [],
      [⟨OpTable.longScalar, 1, 100, key_d⟩, ⟨OpTable.longScalar, 2, 108, key_l⟩],
      [], [], []]⟩

/-! ## Theorems -/

theorem strncmp_take (n : Nat) : ∀ s : List Nat, strncmp s (s.take n) n = 0 := by
  induction n with
  | zero => intro s; simp [strncmp]
  | succ n ih =>
    intro s
    cases s with
    | nil => simp [strncmp]
    | cons b t =>
      simp only [strncmp, List.take_succ_cons, List.headD_cons, ne_eq, not_true_eq_false,
        if_false, List.tail_cons]
      split
      · rfl
      · exact ih t

theorem rehash_chain_length (ns i : Nat) (c : List h_entry) :
    ∀ b : List (List h_entry), (rehash_chain ns i c b).2.length = b.length := by
  induction c with
  | nil => intro b; rfl
  | cons e rest ih =>
    intro b
    simp only [rehash_chain]
    split
    · exact ih b
    · rw [ih]; simp

theorem rehash_loop_length (ns : Nat) (n : Nat) :
    ∀ (i : Nat) (b : List (List h_entry)), (rehash_loop ns n i b).length = b.length := by
  induction n with
  | zero => intro i b; rfl
  | succ n ih =>
    intro i b
    simp only [rehash_loop]
    rw [ih]; simp [rehash_chain_length]

theorem rehash_bucket_length (t : h_table) : (rehash t).bucket.length = t.bucket.length := by
  unfold rehash
  split
  · simp [rehash_loop_length]
  · rfl

theorem rehash_of_not_pending (t : h_table) (h : t.new_size ≤ t.size) : rehash t = t := by
  unfold rehash
  rw [if_neg (by omega)]

theorem rehash_not_pending (t : h_table) : (rehash t).new_size ≤ (rehash t).size := by
  unfold rehash
  split
  · simp
  · omega

theorem rehash_number (t : h_table) : (rehash t).number = t.number := by
  unfold rehash
  split <;> rfl

theorem Inv_rehash (t : h_table) (h : Inv t) : Inv (rehash t) := by
  rw [rehash_of_not_pending t h.2.2]; exact h

theorem h_new_sizes (fuel sizeof_ptr number : Nat) (t : h_table)
    (h : h_new fuel sizeof_ptr true true number = some (some t)) : t.new_size = t.size := by
  unfold h_new at h
  split at h
  · simp at h
  · simp at h
    subst h
    rfl

theorem Inv_grow (bucket_ok : Bool) (t g : h_table) (h : Inv t)
    (hg : grow bucket_ok t = some g) : Inv g := by
  unfold grow at hg
  split at hg
  · split at hg
    · simp only [Option.some.injEq] at hg
      subst hg
      obtain ⟨h1, h2, h3⟩ := h
      unfold rehash
      split
      · rename_i hp
        simp only at hp
        refine ⟨?_, ?_, ?_⟩
        · simp only; omega
        · simp only [rehash_loop_length, List.length_append, List.length_take,
            List.length_replicate]
          have : (2 * t.size) % UINT ≤ 2 * t.size := Nat.mod_le _ _
          omega
        · simp
      · rename_i hp
        simp only [gt_iff_lt, not_lt] at hp
        refine ⟨h1, ?_, hp⟩
        simp only [List.length_append, List.length_take, List.length_replicate]
        omega
    · simp at hg
  · simp only [Option.some.injEq] at hg
    subst hg
    exact h

theorem h_insert_none (host : Host) (bucket_ok entry_ok : Bool) (junk : List Nat)
    (t : h_table) (sym : Symbol) :
    h_insert host bucket_ok entry_ok junk t none sym =
      some ⟨-1, t, [Effect.h_error ErrorMsg.invalid_nil_key_name]⟩ := rfl

theorem h_insert_eq (host : Host) (bucket_ok entry_ok : Bool) (junk : List Nat) (t : h_table)
    (name : List Nat) (hash len : Nat) (sym : Symbol) (hh : H_HASH name = some (hash, len))
    (hs : (rehash t).size ≠ 0) :
    h_insert host bucket_ok entry_ok junk t (some name) sym =
      some (h_insert_hashed host bucket_ok entry_ok junk t name hash len sym) := by
  simp only [h_insert, hh, if_neg hs]

theorem h_insert_some (host : Host) (bucket_ok entry_ok : Bool) (junk : List Nat) (t : h_table)
    (name : List Nat) (sym : Symbol) (o : Outcome)
    (h : h_insert host bucket_ok entry_ok junk t (some name) sym = some o) :
    ∃ hash len, H_HASH name = some (hash, len) ∧ (rehash t).size ≠ 0
      ∧ o = h_insert_hashed host bucket_ok entry_ok junk t name hash len sym := by
  simp only [h_insert] at h
  split at h
  · simp at h
  · rename_i hash len hh
    split at h
    · simp at h
    · rename_i hs
      exact ⟨hash, len, hh, hs, (Option.some.inj h).symm⟩

theorem h_find_none (t : h_table) : h_find t none = some (none, t) := rfl

theorem h_find_eq (t : h_table) (name : List Nat) (hash len : Nat)
    (hh : H_HASH name = some (hash, len)) (hs : (rehash t).size ≠ 0) :
    h_find t (some name) = some (h_find_hashed t name hash len) := by
  simp only [h_find, hh, if_neg hs]

theorem h_find_some (t : h_table) (name : List Nat) (r : Option h_entry × h_table)
    (h : h_find t (some name) = some r) :
    ∃ hash len, H_HASH name = some (hash, len) ∧ (rehash t).size ≠ 0
      ∧ r = h_find_hashed t name hash len := by
  simp only [h_find] at h
  split at h
  · simp at h
  · rename_i hash len hh
    split at h
    · simp at h
    · rename_i hs
      exact ⟨hash, len, hh, hs, (Option.some.inj h).symm⟩

theorem h_remove_none_key (t : h_table) : h_remove t none = some ⟨0, t, []⟩ := rfl

theorem h_remove_eq (t : h_table) (name : List Nat) (hash len : Nat)
    (hh : H_HASH name = some (hash, len)) (hs : (rehash t).size ≠ 0) :
    h_remove t (some name) = some (h_remove_hashed t name hash len) := by
  simp only [h_remove, hh, if_neg hs]

theorem h_remove_some_key (t : h_table) (name : List Nat) (o : Outcome)
    (h : h_remove t (some name) = some o) :
    ∃ hash len, H_HASH name = some (hash, len) ∧ (rehash t).size ≠ 0
      ∧ o = h_remove_hashed t name hash len := by
  simp only [h_remove] at h
  split at h
  · simp at h
  · rename_i hash len hh
    split at h
    · simp at h
    · rename_i hs
      exact ⟨hash, len, hh, hs, (Option.some.inj h).symm⟩

theorem Y_h_pop_none_key (t : h_table) : Y_h_pop t none = some (none, t, []) := rfl

theorem Y_h_pop_eq (t : h_table) (name : List Nat) (hash len : Nat)
    (hh : H_HASH name = some (hash, len)) (hs : t.size ≠ 0) :
    Y_h_pop t (some name) = some (Y_h_pop_hashed t name hash len) := by
  simp only [Y_h_pop, hh, if_neg hs]

theorem Y_h_pop_some_key (t : h_table) (name : List Nat)
    (r : Option (OpTable × Nat) × h_table × List Effect)
    (h : Y_h_pop t (some name) = some r) :
    ∃ hash len, H_HASH name = some (hash, len) ∧ t.size ≠ 0
      ∧ r = Y_h_pop_hashed t name hash len := by
  simp only [Y_h_pop] at h
  split at h
  · simp at h
  · rename_i hash len hh
    split at h
    · simp at h
    · rename_i hs
      exact ⟨hash, len, hh, hs, (Option.some.inj h).symm⟩

theorem Y_h_next_eq (t : h_table) (name : List Nat) (hash len : Nat)
    (hh : H_HASH name = some (hash, len)) (hs : t.size ≠ 0) :
    Y_h_next t (some name) = some (Y_h_next_hashed t name hash len) := by
  simp only [Y_h_next, hh, if_neg hs]

theorem Inv_insert (host : Host) (bucket_ok entry_ok : Bool) (junk : List Nat) (t : h_table)
    (name : List Nat) (hash len : Nat) (sym : Symbol) (h : Inv t) :
    Inv (h_insert_hashed host bucket_ok entry_ok junk t name hash len sym).table := by
  unfold h_insert_hashed
  have hr := Inv_rehash t h
  split
  · exact ⟨hr.1, by simpa using hr.2.1, hr.2.2⟩
  · split
    · exact hr
    · rename_i g hg
      have hgi := Inv_grow bucket_ok (rehash t) g hr hg
      split
      · exact ⟨hgi.1, by simpa using hgi.2.1, hgi.2.2⟩
      · exact hgi

theorem Inv_remove (t : h_table) (name : List Nat) (hash len : Nat) (h : Inv t) :
    Inv (h_remove_hashed t name hash len).table := by
  unfold h_remove_hashed
  have hr := Inv_rehash t h
  split
  · exact ⟨hr.1, by simpa using hr.2.1, hr.2.2⟩
  · exact hr

theorem Inv_find (t : h_table) (name : List Nat) (hash len : Nat) (h : Inv t) :
    Inv (h_find_hashed t name hash len).2 :=
  Inv_rehash t h

theorem Inv_pop (t : h_table) (name : List Nat) (hash len : Nat) (h : Inv t) :
    Inv (Y_h_pop_hashed t name hash len).2.1 := by
  unfold Y_h_pop_hashed
  split
  · exact ⟨h.1, by simpa using h.2.1, h.2.2⟩
  · exact h

theorem Reachable_Inv (host : Host) (t : h_table) (h : Reachable host t) : Inv t := by
  induction h with
  | new fuel sizeof_ptr number t hn h0 hl =>
    exact ⟨h0, hl, le_of_eq (h_new_sizes fuel sizeof_ptr number t hn)⟩
  | insert bucket_ok entry_ok junk t name sym o _ ho ih =>
    cases name with
    | none =>
      rw [h_insert_none] at ho
      rw [← Option.some.inj ho]
      exact ih
    | some name =>
      obtain ⟨hash, len, _, _, rfl⟩ := h_insert_some host bucket_ok entry_ok junk t name sym o ho
      exact Inv_insert host bucket_ok entry_ok junk t name hash len sym ih
  | remove t name o _ ho ih =>
    cases name with
    | none =>
      rw [h_remove_none_key] at ho
      rw [← Option.some.inj ho]
      exact ih
    | some name =>
      obtain ⟨hash, len, _, _, rfl⟩ := h_remove_some_key t name o ho
      exact Inv_remove t name hash len ih
  | find t name r _ ho ih =>
    cases name with
    | none =>
      rw [h_find_none] at ho
      rw [← Option.some.inj ho]
      exact ih
    | some name =>
      obtain ⟨hash, len, _, _, rfl⟩ := h_find_some t name r ho
      exact Inv_find t name hash len ih
  | pop t name r _ ho ih =>
    cases name with
    | none =>
      rw [Y_h_pop_none_key] at ho
      rw [← Option.some.inj ho]
      exact ih
    | some name =>
      obtain ⟨hash, len, _, _, rfl⟩ := Y_h_pop_some_key t name r ho
      exact Inv_pop t name hash len ih

theorem getD_set_self {α : Type} (l : List α) (i : Nat) (a d : α) (h : i < l.length) :
    (l.set i a).getD i d = a := by
  simp [List.getD_eq_getElem?_getD, List.getElem?_set, h]

theorem replace_chain_none (hash : Nat) (name : List Nat) (len : Nat) (sym : Symbol)
    (c : List h_entry) :
    replace_chain hash name len sym c = none ↔ find_chain hash name len c = none := by
  induction c with
  | nil => simp [replace_chain, find_chain]
  | cons e rest ih =>
    simp only [replace_chain, find_chain]
    split
    · simp
    · simpa using ih

theorem replace_chain_some (hash : Nat) (name : List Nat) (len : Nat) (sym : Symbol)
    (c c1 : List h_entry) (eff : List Effect)
    (h : replace_chain hash name len sym c = some (c1, eff)) :
    ∃ pre e post, c = pre ++ e :: post
      ∧ (∀ x ∈ pre, H_MATCH x hash name len = false)
      ∧ H_MATCH e hash name len = true
      ∧ c1 = pre ++ { e with sym_ops := sym.ops, sym_value := sym.value } :: post
      ∧ eff = replace_effects e sym := by
  induction c generalizing c1 eff with
  | nil => simp [replace_chain] at h
  | cons e rest ih =>
    simp only [replace_chain] at h
    split at h
    · rename_i hm
      simp only [Option.some.injEq, Prod.mk.injEq] at h
      exact ⟨[], e, rest, rfl, by simp, hm, h.1.symm, h.2.symm⟩
    · rename_i hm
      cases hr : replace_chain hash name len sym rest with
      | none => simp [hr] at h
      | some r =>
        obtain ⟨r1, r2⟩ := r
        simp only [hr, Option.map_some', Option.some.injEq, Prod.mk.injEq] at h
        obtain ⟨pre, e1, post, h1, h2, h3, h4, h5⟩ := ih r1 r2 hr
        refine ⟨e :: pre, e1, post, by simp [h1], ?_, h3, ?_, ?_⟩
        · intro x hx
          rcases List.mem_cons.1 hx with hx | hx
          · subst hx; simpa using hm
          · exact h2 x hx
        · rw [← h.1, h4]; rfl
        · rw [← h.2, h5]

theorem find_chain_append (hash : Nat) (name : List Nat) (len : Nat)
    (pre : List h_entry) (e : h_entry) (post : List h_entry)
    (h1 : ∀ x ∈ pre, H_MATCH x hash name len = false)
    (h2 : H_MATCH e hash name len = true) :
    find_chain hash name len (pre ++ e :: post) = some e := by
  induction pre with
  | nil => simp [find_chain, h2]
  | cons x pre ih =>
    simp only [List.cons_append, find_chain]
    rw [if_neg (by simp [h1 x (List.mem_cons_self _ _)])]
    exact ih (fun y hy => h1 y (List.mem_cons_of_mem _ hy))

theorem H_MATCH_update (e : h_entry) (ops : OpTable) (v : Nat) (hash : Nat) (name : List Nat)
    (len : Nat) :
    H_MATCH { e with sym_ops := ops, sym_value := v } hash name len = H_MATCH e hash name len := by
  rfl

theorem h_insert_replace (host : Host) (bucket_ok entry_ok : Bool) (junk : List Nat)
    (t : h_table) (name : List Nat) (hash len : Nat) (sym : Symbol) (chain : List h_entry)
    (effects : List Effect)
    (h : replace_chain hash name len (prepare_symbol host sym)
        ((rehash t).bucket.getD (hash % (rehash t).size) []) = some (chain, effects)) :
    h_insert_hashed host bucket_ok entry_ok junk t name hash len sym =
      ⟨1, { rehash t with
            bucket := (rehash t).bucket.set (hash % (rehash t).size) chain }, effects⟩ := by
  simp only [h_insert_hashed, h]

theorem h_insert_create (host : Host) (bucket_ok : Bool) (junk : List Nat) (t grown : h_table)
    (name : List Nat) (hash len : Nat) (sym : Symbol)
    (h : replace_chain hash name len (prepare_symbol host sym)
        ((rehash t).bucket.getD (hash % (rehash t).size) []) = none)
    (hg : grow bucket_ok (rehash t) = some grown) :
    h_insert_hashed host bucket_ok true junk t name hash len sym =
      ⟨0,
        { grown with
          bucket := grown.bucket.set (hash % grown.size)
            ({ sym_ops := (prepare_symbol host sym).ops
               sym_value := (prepare_symbol host sym).value
               hash := hash
               name := stored_name junk name len }
              :: grown.bucket.getD (hash % grown.size) [])
          number := (grown.number + 1) % UINT },
        (if (prepare_symbol host sym).ops = OpTable.dataBlockSym then
          [Effect.Ref (prepare_symbol host sym).value] else [])⟩ := by
  simp only [h_insert_hashed, h, hg, if_true]

theorem h_insert_no_entry (host : Host) (bucket_ok : Bool) (junk : List Nat)
    (t grown : h_table) (name : List Nat) (hash len : Nat) (sym : Symbol)
    (h : replace_chain hash name len (prepare_symbol host sym)
        ((rehash t).bucket.getD (hash % (rehash t).size) []) = none)
    (hg : grow bucket_ok (rehash t) = some grown) :
    h_insert_hashed host bucket_ok false junk t name hash len sym =
      ⟨-1, grown, [Effect.h_error ErrorMsg.insufficient_memory_to_store_new_hash_entry]⟩ := by
  simp only [h_insert_hashed, h, hg, Bool.false_eq_true, if_false]

theorem h_insert_no_bucket (host : Host) (bucket_ok entry_ok : Bool) (junk : List Nat)
    (t : h_table) (name : List Nat) (hash len : Nat) (sym : Symbol)
    (h : replace_chain hash name len (prepare_symbol host sym)
        ((rehash t).bucket.getD (hash % (rehash t).size) []) = none)
    (hg : grow bucket_ok (rehash t) = none) :
    h_insert_hashed host bucket_ok entry_ok junk t name hash len sym =
      ⟨-1, rehash t, [Effect.h_error ErrorMsg.insufficient_memory_to_store_new_hash_entry]⟩ := by
  simp only [h_insert_hashed, h, hg]

theorem h_find_of_Inv (t : h_table) (name : List Nat) (hash len : Nat)
    (h : t.new_size ≤ t.size) :
    h_find_hashed t name hash len =
      (find_chain hash name len
        (t.bucket.getD (hash % t.size) []), t) := by
  simp only [h_find_hashed, rehash_of_not_pending t h]

theorem prepare_symbol_direct (host : Host) (sym : Symbol)
    (h1 : sym.ops ≠ OpTable.referenceSym)
    (h2 : ¬ (sym.ops = OpTable.dataBlockSym ∧ host.is_lvalue sym.value = true)) :
    prepare_symbol host sym = sym := by
  unfold prepare_symbol
  rw [if_neg h1, if_neg h2]

theorem grow_true (t : h_table) : ∃ g, grow true t = some g ∧ g.number = t.number := by
  unfold grow
  split
  · exact ⟨_, rfl, by rw [rehash_number]⟩
  · exact ⟨_, rfl, rfl⟩

theorem Reachable_table0 : Reachable host0 table0 :=
  Reachable.new 1 8 0 table0 (by decide) (by decide) (by decide)

theorem Reachable_table_d : Reachable host0 table_d :=
  Reachable.insert true true [] table0 (some key_d) (long_sym 1) ⟨0, table_d, []⟩
    Reachable_table0 (by decide)

theorem Reachable_hashed_induct (host : Host) (P : h_table → Prop)
    (hnew : ∀ fuel sizeof_ptr number t,
      h_new fuel sizeof_ptr true true number = some (some t) → 0 < t.size →
      t.size ≤ t.bucket.length → P t)
    (hins : ∀ bucket_ok entry_ok junk t name hash len sym, Reachable host t → P t →
      H_HASH name = some (hash, len) →
      P (h_insert_hashed host bucket_ok entry_ok junk t name hash len sym).table)
    (hrem : ∀ t name hash len, Reachable host t → P t → H_HASH name = some (hash, len) →
      P (h_remove_hashed t name hash len).table)
    (hfind : ∀ t name hash len, Reachable host t → P t → H_HASH name = some (hash, len) →
      P (h_find_hashed t name hash len).2)
    (hpop : ∀ t name hash len, Reachable host t → P t → H_HASH name = some (hash, len) →
      P (Y_h_pop_hashed t name hash len).2.1) :
    ∀ t, Reachable host t → P t := by
  intro t h
  induction h with
  | new fuel sizeof_ptr number t hn h0 hl => exact hnew fuel sizeof_ptr number t hn h0 hl
  | insert bucket_ok entry_ok junk t name sym o ht ho ih =>
    cases name with
    | none =>
      rw [h_insert_none] at ho
      rw [← Option.some.inj ho]
      exact ih
    | some name =>
      obtain ⟨hash, len, hh, _, rfl⟩ := h_insert_some host bucket_ok entry_ok junk t name sym o ho
      exact hins bucket_ok entry_ok junk t name hash len sym ht ih hh
  | remove t name o ht ho ih =>
    cases name with
    | none =>
      rw [h_remove_none_key] at ho
      rw [← Option.some.inj ho]
      exact ih
    | some name =>
      obtain ⟨hash, len, hh, _, rfl⟩ := h_remove_some_key t name o ho
      exact hrem t name hash len ht ih hh
  | find t name r ht ho ih =>
    cases name with
    | none =>
      rw [h_find_none] at ho
      rw [← Option.some.inj ho]
      exact ih
    | some name =>
      obtain ⟨hash, len, hh, _, rfl⟩ := h_find_some t name r ho
      exact hfind t name hash len ht ih hh
  | pop t name r ht ho ih =>
    cases name with
    | none =>
      rw [Y_h_pop_none_key] at ho
      rw [← Option.some.inj ho]
      exact ih
    | some name =>
      obtain ⟨hash, len, hh, _, rfl⟩ := Y_h_pop_some_key t name r ho
      exact hpop t name hash len ht ih hh

theorem Reachable_table_d_long : Reachable host0 table_d_long :=
  Reachable.insert true true [] table_d (some key_d_long) (long_sym 2) ⟨0, table_d_long, []⟩
    Reachable_table_d (by decide)

theorem Reachable_table_long : Reachable host0 table_long :=
  Reachable.insert true true [] table0 (some key_d_long) (long_sym 7) ⟨0, table_long, []⟩
    Reachable_table0 (by decide)

/-- C8 (the code departs from the claim): `H_MATCH` compares only the first `LEN`
bytes of the names, not the terminator.  The entry named `"dkhbbhegaic"`, a
proper extension of the key `"d"` with the same 32-bit hash (100), is accepted
by `H_MATCH` for the key `"d"`, and `h_find` returns it for `"d"`. -/
theorem H_MATCH_accepts_extension :
    H_HASH key_d = some (100, 1) ∧ H_HASH key_d_long = some (100, 11)
      ∧ key_d_long.take 1 = key_d ∧ key_d_long ≠ key_d
      ∧ H_MATCH ⟨OpTable.longScalar, 7, 100, key_d_long⟩ 100 key_d 1 = true
      ∧ insert_all host0 table0 [(key_d_long, long_sym 7)] = some table_long
      ∧ h_find table_long (some key_d)
          = some (some ⟨OpTable.longScalar, 7, 100, key_d_long⟩, table_long) := by
  decide

/-- C2 (the code departs from the claim): on the table of `h_new(0)`, after
`h_insert("dkhbbhegaic", 1)` and `h_insert("d", 2)`, `h_find("dkhbbhegaic")`
returns the value 2 and not the value 1 of the last insert of that key: the
insert of the other key `"d"` changed it. -/
theorem h_insert_other_key_changes_value :
    h_new 1 8 true true 0 = some (some table0)
      ∧ insert_all host0 table0 [(key_d_long, long_sym 1), (key_d, long_sym 2)]
          = some ⟨0, -1, 1, 2, 2, [[⟨OpTable.longScalar, 2, 100, key_d_long⟩], []]⟩
      ∧ (h_find ⟨0, -1, 1, 2, 2, [[⟨OpTable.longScalar, 2, 100, key_d_long⟩], []]⟩
          (some key_d_long)).map Prod.fst = some (some ⟨OpTable.longScalar, 2, 100, key_d_long⟩) := by
  decide

/-- C3 (the code departs from the claim): on the table of `h_new(0)`, after
`h_insert("dkhbbhegaic", 1)` and `h_insert("d", 2)`, two distinct keys have been
inserted and `number` is 1. -/
theorem h_insert_number_below_distinct_keys :
    h_new 1 8 true true 0 = some (some table0)
      ∧ key_d_long ≠ key_d
      ∧ (insert_all host0 table0 [(key_d_long, long_sym 1), (key_d, long_sym 2)]).map
          h_table.number = some 1 := by
  decide

/-- C4 (the code departs from the claim): in the well-formed table holding only
`"dkhbbhegaic"`, after `h_insert("d", 1)` and `h_insert("d", 2)` the only entry
of the table is still the one named `"dkhbbhegaic"` (now with value 2): no entry
is named `"d"`. -/
theorem h_insert_twice_no_entry_named_key :
    Reachable host0 table_long
      ∧ insert_all host0 table0 [(key_d_long, long_sym 7)] = some table_long
      ∧ (insert_all host0 table_long [(key_d, long_sym 1), (key_d, long_sym 2)]).map entries
          = some [⟨OpTable.longScalar, 2, 100, key_d_long⟩] :=
  ⟨Reachable_table_long, by decide, by decide⟩

/-- C5 (the code departs from the claim): in the well-formed table holding
`"dkhbbhegaic"` and `"d"`, `h_find` locates an entry for `"d"`, `h_remove("d")`
returns 1, and `h_find("d")` afterwards still returns an entry (the one named
`"d"`; the entry removed was the one named `"dkhbbhegaic"`). -/
theorem h_find_after_h_remove_still_found :
    Reachable host0 table_d_long
      ∧ insert_all host0 table0 [(key_d, long_sym 1), (key_d_long, long_sym 2)] = some table_d_long
      ∧ (h_find table_d_long (some key_d)).map Prod.fst
          = some (some ⟨OpTable.longScalar, 2, 100, key_d_long⟩)
      ∧ (h_remove table_d_long (some key_d)).map Outcome.result = some 1
      ∧ (h_remove table_d_long (some key_d)).bind
            (fun o => (h_find o.table (some key_d)).map Prod.fst)
          = some (some ⟨OpTable.longScalar, 1, 100, key_d⟩) :=
  ⟨Reachable_table_d_long, by decide, by decide, by decide, by decide⟩

/-- C6 (the code departs from the claim): in the well-formed table of 4 buckets
holding `"dkhbbhegaic"` (value 2) and `"d"` (value 1), the insert of the new key
`"x"` doubles the bucket array to 8; `h_find("d")` returned the value 2 before
the call and returns the value 1 after it. -/
theorem growth_changes_found_value :
    Reachable host0 table_d_long
      ∧ insert_all host0 table0 [(key_d, long_sym 1), (key_d_long, long_sym 2)] = some table_d_long
      ∧ (h_find table_d_long (some key_x)).map Prod.fst = some none
      ∧ (h_insert host0 true true [] table_d_long (some key_x) (long_sym 3)).map Outcome.result
          = some 0
      ∧ table_d_long.size = 4
      ∧ (h_insert host0 true true [] table_d_long (some key_x) (long_sym 3)).map
          (fun o => o.table.size) = some 8
      ∧ (h_find table_d_long (some key_d)).map Prod.fst
          = some (some ⟨OpTable.longScalar, 2, 100, key_d_long⟩)
      ∧ (h_insert host0 true true [] table_d_long (some key_x) (long_sym 3)).bind
            (fun o => (h_find o.table (some key_d)).map Prod.fst)
          = some (some ⟨OpTable.longScalar, 1, 100, key_d⟩) :=
  ⟨Reachable_table_d_long, by decide, by decide, by decide, by decide, by decide, by decide,
    by decide⟩

theorem enumerate_from_key_d (fuel : Nat) :
    enumerate_from table_d_long fuel (some key_d) = none := by
  induction fuel with
  | zero => rfl
  | succ fuel ih =>
    have h : Y_h_next table_d_long (some key_d) = some (Except.ok (some key_d)) := rfl
    rw [enumerate_from, h]
    dsimp only
    rw [ih]
    rfl

/-- C7 (the code departs from the claim): in the well-formed table holding
`"dkhbbhegaic"` and `"d"` in one chain, `Y_h_first` returns `"dkhbbhegaic"`,
`Y_h_next` of it returns `"d"`, and `Y_h_next("d")` returns `"d"` again: the
iteration never ends, whatever the number of steps allowed. -/
theorem enumeration_does_not_terminate :
    Reachable host0 table_d_long
      ∧ insert_all host0 table0 [(key_d, long_sym 1), (key_d_long, long_sym 2)] = some table_d_long
      ∧ entries table_d_long
          = [⟨OpTable.longScalar, 2, 100, key_d_long⟩, ⟨OpTable.longScalar, 1, 100, key_d⟩]
      ∧ Y_h_first table_d_long = some key_d_long
      ∧ Y_h_next table_d_long (some key_d_long) = some (Except.ok (some key_d))
      ∧ Y_h_next table_d_long (some key_d) = some (Except.ok (some key_d))
      ∧ ∀ fuel, enumerate table_d_long fuel = none := by
  refine ⟨Reachable_table_d_long, by decide, by decide, by decide, rfl, rfl, ?_⟩
  intro fuel
  cases fuel with
  | zero => rfl
  | succ fuel =>
    have h1 : Y_h_first table_d_long = some key_d_long := by decide
    have h2 : Y_h_next table_d_long (some key_d_long) = some (Except.ok (some key_d)) := rfl
    rw [enumerate, h1, enumerate_from, h2]
    dsimp only
    rw [enumerate_from_key_d]
    rfl

theorem h_new_loop_zero (number : Nat) (h : 0 < number) (fuel : Nat) :
    h_new_loop fuel 0 number = none := by
  induction fuel with
  | zero => rfl
  | succ fuel ih =>
    simp only [h_new_loop, if_pos h]
    exact ih

theorem h_new_loop_pow (number : Nat) (h : 2147483648 < number) (j : Nat) (hj : j ≤ 31) :
    ∀ fuel, h_new_loop fuel (2 ^ (31 - j)) number = none := by
  induction j with
  | zero =>
    intro fuel
    cases fuel with
    | zero => rfl
    | succ fuel =>
      simp only [h_new_loop]
      rw [if_pos (by norm_num; omega)]
      exact h_new_loop_zero number (by omega) fuel
  | succ j ih =>
    intro fuel
    cases fuel with
    | zero => rfl
    | succ fuel =>
      have hle : 2 ^ (31 - j) ≤ 2 ^ 31 := Nat.pow_le_pow_right (by norm_num) (by omega)
      have hpow : 2 ^ (31 - j) = 2 ^ (31 - (j + 1)) * 2 := by
        rw [← pow_succ]; congr 1; omega
      simp only [h_new_loop]
      rw [if_pos (by omega)]
      have hs : (2 ^ (31 - (j + 1)) <<< 1) % UINT = 2 ^ (31 - j) := by
        rw [Nat.shiftLeft_eq, pow_one, ← hpow]
        exact Nat.mod_eq_of_lt (by simp only [UINT]; omega)
      rw [hs]
      exact ih (by omega) fuel

/-- C10 (the code departs from the claim): for the size hints `2^31` and
`2^30 + 1` the loop of `h_new` stops and the table returned has `size = 0`
(`size <<= 1` wraps around); for the size hint `2^31 + 1` the loop
`while (size < number) size <<= 1` never stops. -/
theorem h_new_size_overflow :
    h_new 33 8 true true 2147483648 = some (some ⟨0, -1, 0, 0, 0, []⟩)
      ∧ h_new 33 8 true true 1073741825 = some (some ⟨0, -1, 0, 0, 0, []⟩)
      ∧ ∀ fuel sizeof_ptr table_ok bucket_ok,
          h_new fuel sizeof_ptr table_ok bucket_ok 2147483649 = none := by
  refine ⟨by decide, by decide, ?_⟩
  intro fuel sizeof_ptr table_ok bucket_ok
  have h := h_new_loop_pow 2147483649 (by norm_num) 31 (le_refl _) fuel
  simp only [Nat.sub_self, pow_zero] at h
  simp only [h_new, h]

theorem shift_one_pow (k : Nat) (hk : k ≤ 30) : ((2 ^ k) <<< 1) % UINT = 2 ^ (k + 1) := by
  have h : 2 ^ (k + 1) ≤ 2 ^ 31 := Nat.pow_le_pow_right (by norm_num) (by omega)
  rw [Nat.shiftLeft_eq, pow_one, ← pow_succ]
  exact Nat.mod_eq_of_lt (by simp only [UINT]; omega)

theorem h_new_loop_spec (number : Nat) (hn : number ≤ 2 ^ 27) :
    ∀ fuel k, k ≤ 27 → 28 ≤ fuel + k →
      ∃ j, k ≤ j ∧ j ≤ 27 ∧ h_new_loop fuel (2 ^ k) number = some (2 ^ j) ∧ number ≤ 2 ^ j := by
  intro fuel
  induction fuel with
  | zero => intro k hk hf; omega
  | succ fuel ih =>
    intro k hk hf
    by_cases hlt : 2 ^ k < number
    · have hk1 : k < 27 := by
        by_contra hc
        have : k = 27 := by omega
        subst this
        omega
      obtain ⟨j, h1, h2, h3, h4⟩ := ih (k + 1) (by omega) (by omega)
      refine ⟨j, by omega, h2, ?_, h4⟩
      simp only [h_new_loop]
      rw [if_pos hlt, shift_one_pow k (by omega)]
      exact h3
    · refine ⟨k, le_refl _, hk, ?_, by omega⟩
      simp only [h_new_loop]
      rw [if_neg hlt]

theorem h_new_spec (sizeof_ptr number : Nat) (hp : 0 < sizeof_ptr) (hp8 : sizeof_ptr ≤ 8)
    (hn : number ≤ 2 ^ 27) :
    ∃ k, 1 ≤ k ∧ k ≤ 28 ∧ 2 * number ≤ 2 ^ k
      ∧ h_new 28 sizeof_ptr true true number
          = some (some ⟨0, -1, 0, 2 ^ k, 2 ^ k, List.replicate (2 ^ k) []⟩) := by
  obtain ⟨j, _, h2, h3, h4⟩ := h_new_loop_spec number hn 28 0 (by omega) (by omega)
  rw [pow_zero] at h3
  refine ⟨j + 1, by omega, by omega, by rw [pow_succ]; omega, ?_⟩
  have hle : 2 ^ (j + 1) ≤ 2 ^ 28 := Nat.pow_le_pow_right (by norm_num) (by omega)
  have hmul : 2 ^ (j + 1) * sizeof_ptr < UINT := by
    calc 2 ^ (j + 1) * sizeof_ptr ≤ 2 ^ 28 * 8 := Nat.mul_le_mul hle hp8
      _ < UINT := by norm_num
  simp only [h_new, h3, Bool.and_self, if_true, shift_one_pow j (by omega)]
  rw [Nat.mod_eq_of_lt hmul, Nat.mul_div_cancel _ hp]

/-! ### The hash function -/

theorem hash_step_mod (hash b : Nat) :
    (hash + (hash <<< 3) % UINT + b) % UINT = (hash + (hash <<< 3) + b) % UINT := by
  simp only [UINT]; omega

theorem getD_ne_zero_lt (temp : List Nat) (i : Nat) (h : temp.getD i 0 ≠ 0) :
    i < temp.length := by
  by_contra hc
  exact h (List.getD_eq_default _ _ (by omega))

theorem take_drop_succ (temp : List Nat) (len k : Nat) (h : len < temp.length) :
    (temp.drop len).take (k + 1) = temp.getD len 0 :: (temp.drop (len + 1)).take k := by
  rw [List.drop_eq_getElem_cons h, List.take_succ_cons, List.getD_eq_getElem _ _ h]

theorem H_HASH_loop_run (temp : List Nat) (n : Nat) (hn : n < UINT)
    (hz : ∀ i, i < n → temp.getD i 0 ≠ 0) (h0 : temp.getD n 0 = 0) :
    ∀ k len hash fuel, len + k = n → k < fuel →
      H_HASH_loop temp fuel hash len
        = some (((temp.drop len).take k).foldl (fun h b => (h + (h <<< 3) + b) % UINT) hash,
            n) := by
  intro k
  induction k with
  | zero =>
    intro len hash fuel hlen hf
    obtain ⟨f, rfl⟩ : ∃ f, fuel = f + 1 := ⟨fuel - 1, by omega⟩
    have : len = n := by omega
    subst this
    simp only [H_HASH_loop, h0, if_true, List.take_zero, List.foldl_nil]
  | succ k ih =>
    intro len hash fuel hlen hf
    obtain ⟨f, rfl⟩ : ∃ f, fuel = f + 1 := ⟨fuel - 1, by omega⟩
    have hb : temp.getD len 0 ≠ 0 := hz len (by omega)
    have hmod : (len + 1) % UINT = len + 1 := Nat.mod_eq_of_lt (by omega)
    simp only [H_HASH_loop, if_neg hb]
    rw [hmod, ih (len + 1) _ f (by omega) (by omega),
      take_drop_succ temp len k (getD_ne_zero_lt temp len hb), List.foldl_cons, hash_step_mod]

theorem getD_of_no_zero (name : List Nat) (hz : ∀ b ∈ name, b ≠ 0) (i : Nat)
    (hi : i < name.length) : name.getD i 0 ≠ 0 := by
  rw [List.getD_eq_getElem _ _ hi]
  exact hz _ (List.getElem_mem _)

theorem H_HASH_of_no_zero (name : List Nat) (hz : ∀ b ∈ name, b ≠ 0)
    (hl : name.length < UINT) : H_HASH name = some (spec_hash_fold name, name.length) := by
  have h := H_HASH_loop_run name name.length hl (getD_of_no_zero name hz)
    (List.getD_eq_default _ _ (le_refl _)) name.length 0 0 (name.length + 1) (by omega)
    (by omega)
  rw [List.drop_zero, List.take_length] at h
  exact h

theorem H_HASH_loop_none (temp : List Nat) (hz : ∀ i, i < UINT → temp.getD i 0 ≠ 0) :
    ∀ fuel hash len, len < UINT → H_HASH_loop temp fuel hash len = none := by
  intro fuel
  induction fuel with
  | zero => intro hash len _; rfl
  | succ fuel ih =>
    intro hash len hlen
    simp only [H_HASH_loop, if_neg (hz len hlen)]
    exact ih _ _ (Nat.mod_lt _ (by norm_num))

/-- The loop of `H_HASH` ends within `length + 1` tests or never: when `H_HASH`
is `none`, the loop is still running after any number of tests. -/
theorem H_HASH_none_forever (name : List Nat) (h : H_HASH name = none) :
    ∀ fuel, H_HASH_loop name fuel 0 0 = none := by
  by_cases hex : ∃ i, i < UINT ∧ name.getD i 0 = 0
  · exfalso
    classical
    obtain ⟨hn, h0⟩ := Nat.find_spec hex
    have hz : ∀ i, i < Nat.find hex → name.getD i 0 ≠ 0 := by
      intro i hi hc
      exact Nat.find_min hex hi ⟨by omega, hc⟩
    have hle : Nat.find hex ≤ name.length := by
      by_contra hc
      have hlt : name.length < Nat.find hex := by omega
      exact hz name.length hlt (List.getD_eq_default _ _ (le_refl _))
    have hrun := H_HASH_loop_run name (Nat.find hex) hn hz h0 (Nat.find hex) 0 0
      (name.length + 1) (by omega) (by omega)
    unfold H_HASH at h
    rw [hrun] at h
    exact absurd h (by simp)
  · intro fuel
    apply H_HASH_loop_none name _ fuel 0 0 (by norm_num)
    intro i hi hc
    exact hex ⟨i, hi, hc⟩

theorem H_HASH_loop_bound (temp : List Nat) :
    ∀ fuel hash len r, len < UINT → H_HASH_loop temp fuel hash len = some r → r.2 < UINT := by
  intro fuel
  induction fuel with
  | zero => intro hash len r _ h; simp [H_HASH_loop] at h
  | succ fuel ih =>
    intro hash len r hlen h
    simp only [H_HASH_loop] at h
    split at h
    · rw [← Option.some.inj h]; exact hlen
    · exact ih _ _ r (Nat.mod_lt _ (by norm_num)) h

theorem H_HASH_len_lt (name : List Nat) (hash len : Nat) (h : H_HASH name = some (hash, len)) :
    len < UINT :=
  H_HASH_loop_bound name _ 0 0 (hash, len) (by norm_num) h

theorem spec_hash_sum_cons (b : Nat) (rest : List Nat) :
    spec_hash_sum (b :: rest) = b * 9 ^ rest.length + spec_hash_sum rest := by
  unfold spec_hash_sum
  simp only [List.length_cons, List.range_succ_eq_map, List.map_cons, List.sum_cons,
    List.getD_cons_zero, List.map_map]
  congr 2
  apply List.map_congr_left
  intro i _
  simp only [Function.comp_apply, List.getD_cons_succ]
  congr 2
  omega

theorem foldl_hash_sum (bytes : List Nat) :
    ∀ hash, hash < UINT → bytes.foldl (fun h b => (h + (h <<< 3) + b) % UINT) hash
      = (hash * 9 ^ bytes.length + spec_hash_sum bytes) % UINT := by
  induction bytes with
  | nil =>
    intro hash hlt
    simp only [List.foldl_nil, List.length_nil, pow_zero, mul_one, spec_hash_sum, List.range_zero,
      List.map_nil, List.sum_nil, add_zero]
    exact (Nat.mod_eq_of_lt hlt).symm
  | cons b rest ih =>
    intro hash _
    rw [List.foldl_cons, ih _ (Nat.mod_lt _ (by norm_num)), spec_hash_sum_cons, List.length_cons,
      Nat.shiftLeft_eq]
    have h9 : hash + hash * 2 ^ 3 + b = hash * 9 + b := by ring
    rw [h9, Nat.add_mod, Nat.mul_mod, Nat.mod_mod, ← Nat.mul_mod, ← Nat.add_mod]
    congr 1
    ring

theorem getD_replicate_one (n i : Nat) (h : i < n) : (List.replicate n 1).getD i 0 = 1 := by
  rw [List.getD_eq_getElem _ _ (by rw [List.length_replicate]; exact h)]
  exact List.getElem_replicate _ _

/-- C16 (the code departs from the claim): for the string of `2^32` bytes all
equal to 1, which has no zero byte, the loop of `H_HASH` never ends: its counter
`LEN`, a `h_uint_t`, wraps around to 0 after the byte of index `2^32 - 1` and
the bytes are read again from the first one.  `H_HASH` yields no hash and no
length, where the claim states the length `2^32` and the folded hash. -/
theorem H_HASH_never_returns :
    (∀ b ∈ bytes_2_32, b ≠ 0)
      ∧ bytes_2_32.length = 4294967296
      ∧ (∀ fuel, H_HASH_loop bytes_2_32 fuel 0 0 = none)
      ∧ H_HASH bytes_2_32 = none := by
  have hz : ∀ i, i < UINT → bytes_2_32.getD i 0 ≠ 0 := by
    intro i hi
    unfold bytes_2_32
    rw [getD_replicate_one _ i hi]
    exact one_ne_zero
  refine ⟨?_, ?_, ?_, ?_⟩
  · intro b hb
    unfold bytes_2_32 at hb
    rw [List.eq_of_mem_replicate hb]
    exact one_ne_zero
  · unfold bytes_2_32
    exact List.length_replicate _ _
  · intro fuel
    exact H_HASH_loop_none bytes_2_32 hz fuel 0 0 (by norm_num)
  · exact H_HASH_loop_none bytes_2_32 hz _ 0 0 (by norm_num)

/-! ### Bucket arrays as lists -/

theorem getD_set_ne {α : Type} (l : List α) (i j : Nat) (a d : α) (h : i ≠ j) :
    (l.set i a).getD j d = l.getD j d := by
  simp [List.getD_eq_getElem?_getD, List.getElem?_set_ne h]

theorem getD_of_length_le {α : Type} (l : List α) (i : Nat) (d : α) (h : l.length ≤ i) :
    l.getD i d = d := by
  simp [List.getD_eq_getElem?_getD, List.getElem?_eq_none h]

theorem mem_getD_set (b : List (List h_entry)) (i j : Nat) (x : List h_entry) (e : h_entry)
    (h : e ∈ (b.set i x).getD j []) : (j = i ∧ e ∈ x) ∨ (j ≠ i ∧ e ∈ b.getD j []) := by
  by_cases hij : i = j
  · subst hij
    by_cases hlt : i < b.length
    · rw [getD_set_self _ _ _ _ hlt] at h
      exact Or.inl ⟨rfl, h⟩
    · rw [getD_of_length_le _ _ _ (by simpa using Nat.le_of_not_lt hlt)] at h
      simp at h
  · rw [getD_set_ne _ _ _ _ _ hij] at h
    exact Or.inr ⟨fun hc => hij hc.symm, h⟩

theorem flat_cons (c : List h_entry) (b : List (List h_entry)) : flat (c :: b) = c ++ flat b :=
  rfl

theorem flat_append (b1 b2 : List (List h_entry)) : flat (b1 ++ b2) = flat b1 ++ flat b2 := by
  induction b1 with
  | nil => rfl
  | cons c b1 ih => simp only [List.cons_append, flat_cons, ih, List.append_assoc]

theorem flat_replicate_nil (n : Nat) : flat (List.replicate n []) = [] := by
  induction n with
  | zero => rfl
  | succ n ih => simp only [List.replicate_succ, flat_cons, ih, List.append_nil]

theorem entries_eq_flat (t : h_table) : entries t = flat (t.bucket.take t.size) := rfl

theorem mem_flat (b : List (List h_entry)) (e : h_entry) :
    e ∈ flat b ↔ ∃ i, i < b.length ∧ e ∈ b.getD i [] := by
  induction b with
  | nil => simp [flat]
  | cons c b ih =>
    rw [flat_cons, List.mem_append, ih]
    constructor
    · rintro (h | ⟨i, hi, he⟩)
      · exact ⟨0, by simp, by simpa using h⟩
      · exact ⟨i + 1, by simpa using hi, by simpa using he⟩
    · rintro ⟨i, hi, he⟩
      cases i with
      | zero => exact Or.inl (by simpa using he)
      | succ i => exact Or.inr ⟨i, by simpa using hi, by simpa using he⟩

theorem getD_take (b : List (List h_entry)) (n i : Nat) (h : i < n) :
    (b.take n).getD i [] = b.getD i [] := by
  simp [List.getD_eq_getElem?_getD, List.getElem?_take, h]

theorem mem_entries (t : h_table) (ht : t.size ≤ t.bucket.length) (e : h_entry) :
    e ∈ entries t ↔ ∃ i, i < t.size ∧ e ∈ t.bucket.getD i [] := by
  rw [entries_eq_flat, mem_flat]
  constructor
  · rintro ⟨i, hi, he⟩
    have hi2 : i < t.size := by
      rw [List.length_take] at hi
      omega
    exact ⟨i, hi2, by rwa [getD_take _ _ _ hi2] at he⟩
  · rintro ⟨i, hi, he⟩
    exact ⟨i, by rw [List.length_take]; omega, by rwa [getD_take _ _ _ hi]⟩

theorem count_flat_set (a : h_entry) (b : List (List h_entry)) :
    ∀ (j : Nat) (x : List h_entry), j < b.length →
      List.count a (flat (b.set j x)) + List.count a (b.getD j [])
        = List.count a x + List.count a (flat b) := by
  induction b with
  | nil => intro j x h; simp at h
  | cons c b ih =>
    intro j x h
    cases j with
    | zero =>
      simp only [List.set_cons_zero, flat_cons, List.count_append, List.getD_cons_zero]
      omega
    | succ j =>
      have := ih j x (by simpa using h)
      simp only [List.set_cons_succ, flat_cons, List.count_append, List.getD_cons_succ]
      omega

/-! ### `rehash` keeps the entries and places them -/

theorem rehash_chain_kept (ns i : Nat) (c : List h_entry) :
    ∀ (b : List (List h_entry)) (e : h_entry),
      e ∈ (rehash_chain ns i c b).1 → e.hash % ns = i ∧ e ∈ c := by
  induction c with
  | nil => intro b e h; simp [rehash_chain] at h
  | cons e0 rest ih =>
    intro b e h
    simp only [rehash_chain] at h
    split at h
    · rename_i h0
      rcases List.mem_cons.1 h with h1 | h1
      · subst h1; exact ⟨h0, List.mem_cons_self _ _⟩
      · exact ⟨(ih b e h1).1, List.mem_cons_of_mem _ (ih b e h1).2⟩
    · exact ⟨(ih _ e h).1, List.mem_cons_of_mem _ (ih _ e h).2⟩

theorem rehash_chain_mem (ns i : Nat) (c : List h_entry) :
    ∀ (b : List (List h_entry)) (j : Nat) (e : h_entry),
      e ∈ (rehash_chain ns i c b).2.getD j [] →
        e ∈ b.getD j [] ∨ (e.hash % ns = j ∧ e ∈ c) := by
  induction c with
  | nil => intro b j e h; exact Or.inl h
  | cons e0 rest ih =>
    intro b j e h
    simp only [rehash_chain] at h
    split at h
    · rcases ih b j e h with h1 | h1
      · exact Or.inl h1
      · exact Or.inr ⟨h1.1, List.mem_cons_of_mem _ h1.2⟩
    · rcases ih _ j e h with h1 | h1
      · rcases mem_getD_set _ _ _ _ _ h1 with ⟨hj, he⟩ | h2
        · rcases List.mem_cons.1 he with h3 | h3
          · subst h3; exact Or.inr ⟨hj.symm, List.mem_cons_self _ _⟩
          · subst hj; exact Or.inl h3
        · exact Or.inl h2.2
      · exact Or.inr ⟨h1.1, List.mem_cons_of_mem _ h1.2⟩

theorem rehash_chain_getD_self (ns i : Nat) (c : List h_entry) :
    ∀ b : List (List h_entry), (rehash_chain ns i c b).2.getD i [] = b.getD i [] := by
  induction c with
  | nil => intro b; rfl
  | cons e0 rest ih =>
    intro b
    simp only [rehash_chain]
    split
    · exact ih b
    · rename_i h0
      rw [ih, getD_set_ne _ _ _ _ _ h0]

theorem rehash_chain_count (a : h_entry) (ns i : Nat) (hns : 0 < ns) (c : List h_entry) :
    ∀ b : List (List h_entry), ns ≤ b.length →
      List.count a (rehash_chain ns i c b).1 + List.count a (flat (rehash_chain ns i c b).2)
        = List.count a c + List.count a (flat b) := by
  induction c with
  | nil => intro b _; simp [rehash_chain]
  | cons e0 rest ih =>
    intro b hb
    simp only [rehash_chain]
    split
    · have := ih b hb
      simp only [List.count_cons] at this ⊢
      omega
    · have hj : e0.hash % ns < b.length := lt_of_lt_of_le (Nat.mod_lt _ hns) hb
      have h1 := ih (b.set (e0.hash % ns) (e0 :: b.getD (e0.hash % ns) [])) (by simpa using hb)
      have h2 := count_flat_set a b (e0.hash % ns) (e0 :: b.getD (e0.hash % ns) []) hj
      simp only [List.count_cons] at h1 h2 ⊢
      omega

theorem rehash_loop_count (a : h_entry) (ns : Nat) (hns : 0 < ns) (n : Nat) :
    ∀ (i : Nat) (b : List (List h_entry)), ns ≤ b.length → i + n ≤ b.length →
      List.count a (flat (rehash_loop ns n i b)) = List.count a (flat b) := by
  induction n with
  | zero => intro i b _ _; rfl
  | succ n ih =>
    intro i b hb hi
    simp only [rehash_loop]
    rw [ih (i + 1) _ (by simpa [rehash_chain_length] using hb)
      (by simp only [List.length_set, rehash_chain_length]; omega)]
    have h1 := rehash_chain_count a ns i hns (b.getD i []) b hb
    have h2 := count_flat_set a (rehash_chain ns i (b.getD i []) b).2 i
      (rehash_chain ns i (b.getD i []) b).1 (by rw [rehash_chain_length]; omega)
    rw [rehash_chain_getD_self] at h2
    omega

theorem rehash_loop_placed (ns : Nat) (n : Nat) :
    ∀ (i : Nat) (b : List (List h_entry)),
      (∀ j, (j < i ∨ i + n ≤ j) → ∀ e ∈ b.getD j [], e.hash % ns = j) →
      ∀ j, ∀ e ∈ (rehash_loop ns n i b).getD j [], e.hash % ns = j := by
  induction n with
  | zero =>
    intro i b h j e he
    exact h j (by omega) e he
  | succ n ih =>
    intro i b h
    simp only [rehash_loop]
    apply ih
    intro j hj e he
    rcases mem_getD_set _ _ _ _ _ he with ⟨hji, h1⟩ | ⟨hji, h1⟩
    · rw [hji]
      exact (rehash_chain_kept ns i _ b e h1).1
    · rcases rehash_chain_mem ns i _ b j e h1 with h2 | h2
      · exact h j (by omega) e h2
      · exact h2.1

theorem flat_set_perm (b : List (List h_entry)) (j : Nat) (x : List h_entry) (h : j < b.length) :
    List.Perm (flat (b.set j x) ++ b.getD j []) (x ++ flat b) := by
  rw [List.perm_iff_count]
  intro a
  have := count_flat_set a b j x h
  simp only [List.count_append]
  omega

theorem entries_set_perm (t : h_table) (i : Nat) (x : List h_entry) (hi : i < t.size)
    (hs : t.size ≤ t.bucket.length) :
    List.Perm (entries { t with bucket := t.bucket.set i x } ++ t.bucket.getD i [])
      (x ++ entries t) := by
  have h := flat_set_perm (t.bucket.take t.size) i x (by rw [List.length_take]; omega)
  rw [getD_take _ _ _ hi] at h
  simp only [entries_eq_flat]
  rw [List.set_take]
  exact h

theorem getD_grown (b : List (List h_entry)) (n j : Nat) (hn : n ≤ b.length) (hj : n ≤ j) :
    (b.take n ++ List.replicate n []).getD j [] = [] := by
  have hl : (b.take n).length = n := by rw [List.length_take]; omega
  rw [List.getD_eq_getElem?_getD, List.getElem?_append_right (by omega), List.getElem?_replicate]
  split <;> rfl

theorem getD_grown_lt (b : List (List h_entry)) (n j : Nat) (hn : n ≤ b.length) (hj : j < n) :
    (b.take n ++ List.replicate n []).getD j [] = b.getD j [] := by
  have hl : (b.take n).length = n := by rw [List.length_take]; omega
  rw [List.getD_eq_getElem?_getD, List.getElem?_append_left (by omega), ← List.getD_eq_getElem?_getD,
    getD_take _ _ _ hj]

theorem double_mod_gt (s : Nat) (h : s < (2 * s) % UINT) : (2 * s) % UINT = 2 * s := by
  simp only [UINT] at h ⊢
  omega

theorem grow_entries (bucket_ok : Bool) (t g : h_table) (h : Inv t)
    (hg : grow bucket_ok t = some g) : List.Perm (entries g) (entries t) := by
  obtain ⟨h1, h2, _⟩ := h
  unfold grow at hg
  split at hg
  · split at hg
    · simp only [Option.some.injEq] at hg
      subst hg
      have hl : (t.bucket.take t.size ++ List.replicate t.size ([] : List h_entry)).length
          = 2 * t.size := by
        rw [List.length_append, List.length_take, List.length_replicate]; omega
      unfold rehash
      split
      · rename_i hp
        simp only at hp
        have hns := double_mod_gt t.size hp
        simp only [entries_eq_flat]
        rw [List.take_of_length_le (by rw [rehash_loop_length, hl, hns])]
        rw [List.perm_iff_count]
        intro a
        rw [rehash_loop_count a _ (by omega) _ _ _ (by rw [hl, hns]) (by rw [hl]; omega),
          flat_append, flat_replicate_nil, List.append_nil]
      · simp only [entries_eq_flat]
        rw [List.take_left' (by rw [List.length_take]; omega)]
    · simp at hg
  · simp only [Option.some.injEq] at hg
    subst hg
    exact List.Perm.refl _

theorem grow_placed (bucket_ok : Bool) (t g : h_table) (h : Inv t) (hp : Placed t)
    (hg : grow bucket_ok t = some g) : Placed g := by
  obtain ⟨h1, h2, _⟩ := h
  unfold grow at hg
  split at hg
  · split at hg
    · simp only [Option.some.injEq] at hg
      subst hg
      unfold rehash
      split
      · intro i _ e he
        simp only at he ⊢
        refine rehash_loop_placed _ _ 0 _ ?_ i e he
        intro j hj e hje
        rw [getD_grown _ _ _ h2 (by omega)] at hje
        simp at hje
      · intro i hi e he
        simp only at hi he ⊢
        rw [getD_grown_lt _ _ _ h2 hi] at he
        exact hp i hi e he
    · simp at hg
  · simp only [Option.some.injEq] at hg
    subst hg
    exact hp

/-! ### Consistency of reachable tables -/

theorem remove_chain_some (hash : Nat) (name : List Nat) (len : Nat)
    (c c1 : List h_entry) (e : h_entry)
    (h : remove_chain hash name len c = some (e, c1)) :
    ∃ pre post, c = pre ++ e :: post
      ∧ (∀ x ∈ pre, H_MATCH x hash name len = false)
      ∧ H_MATCH e hash name len = true
      ∧ c1 = pre ++ post := by
  induction c generalizing c1 with
  | nil => simp [remove_chain] at h
  | cons e0 rest ih =>
    simp only [remove_chain] at h
    split at h
    · rename_i hm
      simp only [Option.some.injEq, Prod.mk.injEq] at h
      obtain ⟨h1, h2⟩ := h
      subst h1
      exact ⟨[], rest, rfl, by simp, hm, h2.symm⟩
    · rename_i hm
      cases hr : remove_chain hash name len rest with
      | none => simp [hr] at h
      | some r =>
        obtain ⟨r1, r2⟩ := r
        simp only [hr, Option.map_some', Option.some.injEq, Prod.mk.injEq] at h
        obtain ⟨h1, h2⟩ := h
        subst h1
        obtain ⟨pre, post, h3, h4, h5, h6⟩ := ih r2 hr
        refine ⟨e0 :: pre, post, by simp [h3], ?_, h5, by rw [← h2, h6]; rfl⟩
        intro x hx
        rcases List.mem_cons.1 hx with hx | hx
        · subst hx; simpa using hm
        · exact h4 x hx

theorem remove_chain_none (hash : Nat) (name : List Nat) (len : Nat) (c : List h_entry) :
    remove_chain hash name len c = none ↔ find_chain hash name len c = none := by
  induction c with
  | nil => simp [remove_chain, find_chain]
  | cons e rest ih =>
    simp only [remove_chain, find_chain]
    split
    · simp
    · simpa using ih

theorem find_chain_none (hash : Nat) (name : List Nat) (len : Nat) (c : List h_entry) :
    find_chain hash name len c = none ↔ ∀ e ∈ c, H_MATCH e hash name len = false := by
  induction c with
  | nil => simp [find_chain]
  | cons e rest ih =>
    simp only [find_chain]
    split
    · rename_i hm
      simp [hm]
    · rename_i hm
      simp [ih, hm]

theorem H_MATCH_hash (e : h_entry) (hash : Nat) (name : List Nat) (len : Nat)
    (h : H_MATCH e hash name len = true) : e.hash = hash := by
  simp only [H_MATCH, Bool.and_eq_true, beq_iff_eq] at h
  exact h.1

theorem Placed_set (t t1 : h_table) (i : Nat) (x : List h_entry)
    (hs : t1.size = t.size) (hb : t1.bucket = t.bucket.set i x)
    (hx : ∀ e ∈ x, e.hash % t.size = i) (hp : Placed t) : Placed t1 := by
  intro j hj e he
  rw [hs] at hj ⊢
  rw [hb] at he
  rcases mem_getD_set _ _ _ _ _ he with ⟨h1, h2⟩ | ⟨_, h2⟩
  · rw [h1]; exact hx e h2
  · exact hp j hj e h2

theorem entries_congr (t t1 : h_table) (hs : t1.size = t.size) (hb : t1.bucket = t.bucket) :
    entries t1 = entries t := by
  simp only [entries, hs, hb]

theorem entries_set_perm1 (t t1 : h_table) (i : Nat) (x : List h_entry)
    (hs : t1.size = t.size) (hb : t1.bucket = t.bucket.set i x)
    (hi : i < t.size) (hl : t.size ≤ t.bucket.length) :
    List.Perm (entries t1 ++ t.bucket.getD i []) (x ++ entries t) := by
  have h := entries_set_perm t i x hi hl
  have he : entries t1 = entries { t with bucket := t.bucket.set i x } := by
    simp only [entries, hs, hb]
  rw [he]
  exact h

theorem grow_number (bucket_ok : Bool) (t g : h_table) (hg : grow bucket_ok t = some g) :
    g.number = t.number := by
  unfold grow at hg
  split at hg
  · split at hg
    · simp only [Option.some.injEq] at hg
      subst hg
      rw [rehash_number]
    · simp at hg
  · simp only [Option.some.injEq] at hg
    subst hg
    rfl

theorem Consistent_grow (bucket_ok : Bool) (t g : h_table) (h : Consistent t)
    (hg : grow bucket_ok t = some g) : Consistent g := by
  obtain ⟨h1, h2, h3⟩ := h
  refine ⟨Inv_grow bucket_ok t g h1 hg, grow_placed bucket_ok t g h1 h2 hg, ?_⟩
  unfold Counted at h3 ⊢
  rw [grow_number bucket_ok t g hg, (grow_entries bucket_ok t g h1 hg).length_eq]
  exact h3

theorem h_remove_some (t : h_table) (name : List Nat) (hash len : Nat) (e : h_entry)
    (chain : List h_entry)
    (h : remove_chain hash name len
        ((rehash t).bucket.getD (hash % (rehash t).size) []) = some (e, chain)) :
    h_remove_hashed t name hash len =
      ⟨1,
        { rehash t with
          bucket := (rehash t).bucket.set (hash % (rehash t).size) chain
          number := h_uint_dec (rehash t).number },
        (if e.sym_ops = OpTable.dataBlockSym then [Effect.Unref e.sym_value] else [])
          ++ [Effect.h_free_entry e.name]⟩ := by
  simp only [h_remove_hashed, h]

theorem h_remove_none (t : h_table) (name : List Nat) (hash len : Nat)
    (h : remove_chain hash name len
        ((rehash t).bucket.getD (hash % (rehash t).size) []) = none) :
    h_remove_hashed t name hash len = ⟨0, rehash t, []⟩ := by
  simp only [h_remove_hashed, h]

theorem Y_h_pop_some (t : h_table) (name : List Nat) (hash len : Nat) (e : h_entry)
    (chain : List h_entry)
    (h : remove_chain hash name len
        (t.bucket.getD (hash % t.size) []) = some (e, chain)) :
    Y_h_pop_hashed t name hash len =
      (some (e.sym_ops, e.sym_value),
        { t with
          bucket := t.bucket.set (hash % t.size) chain
          number := h_uint_dec t.number },
        [Effect.h_free_entry e.name]) := by
  simp only [Y_h_pop_hashed, h]

theorem Y_h_pop_none (t : h_table) (name : List Nat) (hash len : Nat)
    (h : remove_chain hash name len
        (t.bucket.getD (hash % t.size) []) = none) :
    Y_h_pop_hashed t name hash len = (none, t, []) := by
  simp only [Y_h_pop_hashed, h]

theorem h_uint_dec_count (n : Nat) : h_uint_dec ((n + 1) % UINT) = n % UINT := by
  unfold h_uint_dec
  simp only [UINT]
  split <;> omega

theorem Consistent_unlink (t t1 : h_table) (name : List Nat) (hash len : Nat) (e : h_entry)
    (chain : List h_entry) (h : Consistent t)
    (hr : remove_chain hash name len
        (t.bucket.getD (hash % t.size) []) = some (e, chain))
    (hs : t1.size = t.size) (hn : t1.new_size = t.new_size)
    (hb : t1.bucket = t.bucket.set (hash % t.size) chain)
    (hnum : t1.number = h_uint_dec t.number) :
    Consistent t1 ∧ List.Perm (entries t) (e :: entries t1) := by
  obtain ⟨h1, h2, h3⟩ := h
  obtain ⟨pre, post, hc, _, _, hc1⟩ := remove_chain_some _ _ _ _ _ _ hr
  have hi : hash % t.size < t.size := Nat.mod_lt _ h1.1
  have hperm := entries_set_perm1 t t1 _ chain hs hb hi h1.2.1
  rw [hc, hc1] at hperm
  have hp2 : List.Perm (entries t) (e :: entries t1) := by
    rw [List.perm_iff_count] at hperm ⊢
    intro a
    have := hperm a
    simp only [List.count_append, List.count_cons] at this ⊢
    omega
  refine ⟨⟨⟨by rw [hs]; exact h1.1, by rw [hs, hb, List.length_set]; exact h1.2.1,
    by rw [hs, hn]; exact h1.2.2⟩, ?_, ?_⟩, hp2⟩
  · refine Placed_set t t1 _ chain hs hb ?_ h2
    intro x hx
    apply h2 _ hi
    rw [hc]
    rw [hc1] at hx
    rcases List.mem_append.1 hx with hx | hx
    · exact List.mem_append_left _ hx
    · exact List.mem_append_right _ (List.mem_cons_of_mem _ hx)
  · unfold Counted at h3 ⊢
    rw [hnum, h3, hp2.length_eq, List.length_cons, h_uint_dec_count]

theorem Consistent_remove (t : h_table) (name : List Nat) (hash len : Nat)
    (h : Consistent t) : Consistent (h_remove_hashed t name hash len).table := by
  have hrt := rehash_of_not_pending t h.1.2.2
  cases hr : remove_chain hash name len
      (t.bucket.getD (hash % t.size) []) with
  | none =>
    have hr1 := hr
    rw [← hrt] at hr1
    rw [h_remove_none t name hash len hr1, hrt]
    exact h
  | some r =>
    obtain ⟨e, chain⟩ := r
    have hr1 := hr
    rw [← hrt] at hr1
    rw [h_remove_some t name hash len e chain hr1]
    refine (Consistent_unlink t _ name hash len e chain h hr ?_ ?_ ?_ ?_).1
    · simp only [hrt]
    · simp only [hrt]
    · simp only [hrt]
    · simp only [hrt]

theorem Consistent_pop (t : h_table) (name : List Nat) (hash len : Nat)
    (h : Consistent t) : Consistent (Y_h_pop_hashed t name hash len).2.1 := by
  cases hr : remove_chain hash name len
      (t.bucket.getD (hash % t.size) []) with
  | none =>
    rw [Y_h_pop_none t name hash len hr]
    exact h
  | some r =>
    obtain ⟨e, chain⟩ := r
    rw [Y_h_pop_some t name hash len e chain hr]
    refine (Consistent_unlink t _ name hash len e chain h hr ?_ ?_ ?_ ?_).1 <;> rfl

theorem Consistent_find (t : h_table) (name : List Nat) (hash len : Nat)
    (h : Consistent t) : Consistent (h_find_hashed t name hash len).2 := by
  simp only [h_find_hashed, rehash_of_not_pending t h.1.2.2]
  exact h

theorem Consistent_replace (t t1 : h_table) (name : List Nat) (hash len : Nat) (sym : Symbol)
    (chain : List h_entry) (effects : List Effect) (h : Consistent t)
    (hr : replace_chain hash name len sym
        (t.bucket.getD (hash % t.size) []) = some (chain, effects))
    (hs : t1.size = t.size) (hn : t1.new_size = t.new_size)
    (hb : t1.bucket = t.bucket.set (hash % t.size) chain)
    (hnum : t1.number = t.number) :
    Consistent t1 ∧ ∃ e, find_chain hash name len
          (t.bucket.getD (hash % t.size) []) = some e
        ∧ effects = replace_effects e sym
        ∧ List.Perm (e :: entries t1)
            ({ e with sym_ops := sym.ops, sym_value := sym.value } :: entries t) := by
  obtain ⟨h1, h2, h3⟩ := h
  obtain ⟨pre, e, post, hc, hpre, hm, hc1, heff⟩ := replace_chain_some _ _ _ _ _ _ _ hr
  have hi : hash % t.size < t.size := Nat.mod_lt _ h1.1
  have hperm := entries_set_perm1 t t1 _ chain hs hb hi h1.2.1
  rw [hc, hc1] at hperm
  have hp2 : List.Perm (e :: entries t1)
      ({ e with sym_ops := sym.ops, sym_value := sym.value } :: entries t) := by
    rw [List.perm_iff_count] at hperm ⊢
    intro a
    have := hperm a
    simp only [List.count_append, List.count_cons] at this ⊢
    omega
  refine ⟨⟨⟨by rw [hs]; exact h1.1, by rw [hs, hb, List.length_set]; exact h1.2.1,
    by rw [hs, hn]; exact h1.2.2⟩, ?_, ?_⟩, e, ?_, heff, hp2⟩
  · refine Placed_set t t1 _ chain hs hb ?_ h2
    intro x hx
    rw [hc1] at hx
    have hmem : ∀ y ∈ pre ++ e :: post, y.hash % t.size = hash % t.size := by
      intro y hy
      apply h2 _ hi
      rw [hc]; exact hy
    rcases List.mem_append.1 hx with hx | hx
    · exact hmem x (List.mem_append_left _ hx)
    · rcases List.mem_cons.1 hx with hx | hx
      · subst hx
        exact hmem e (List.mem_append_right _ (List.mem_cons_self _ _))
      · exact hmem x (List.mem_append_right _ (List.mem_cons_of_mem _ hx))
  · unfold Counted at h3 ⊢
    have hl := hp2.length_eq
    simp only [List.length_cons, Nat.add_right_cancel_iff] at hl
    rw [hnum, h3, hl]
  · rw [hc]
    exact find_chain_append _ _ _ pre e post hpre hm

theorem Consistent_link (g t1 : h_table) (hash : Nat) (new : h_entry) (h : Consistent g)
    (hh : new.hash = hash)
    (hs : t1.size = g.size) (hn : t1.new_size = g.new_size)
    (hb : t1.bucket = g.bucket.set (hash % g.size) (new :: g.bucket.getD (hash % g.size) []))
    (hnum : t1.number = (g.number + 1) % UINT) :
    Consistent t1 ∧ List.Perm (entries t1) (new :: entries g) := by
  obtain ⟨h1, h2, h3⟩ := h
  have hi : hash % g.size < g.size := Nat.mod_lt _ h1.1
  have hperm := entries_set_perm1 g t1 _ _ hs hb hi h1.2.1
  have hp2 : List.Perm (entries t1) (new :: entries g) := by
    rw [List.perm_iff_count] at hperm ⊢
    intro a
    have := hperm a
    simp only [List.count_append, List.count_cons] at this ⊢
    omega
  refine ⟨⟨⟨by rw [hs]; exact h1.1, by rw [hs, hb, List.length_set]; exact h1.2.1,
    by rw [hs, hn]; exact h1.2.2⟩, ?_, ?_⟩, hp2⟩
  · refine Placed_set g t1 _ _ hs hb ?_ h2
    intro x hx
    rcases List.mem_cons.1 hx with hx | hx
    · subst hx; rw [hh]
    · exact h2 _ hi x hx
  · unfold Counted at h3 ⊢
    rw [hnum, h3, hp2.length_eq, List.length_cons]
    simp only [UINT]
    omega

theorem Consistent_insert (host : Host) (bucket_ok entry_ok : Bool) (junk : List Nat)
    (t : h_table) (name : List Nat) (hash len : Nat) (sym : Symbol) (h : Consistent t) :
    Consistent (h_insert_hashed host bucket_ok entry_ok junk t name hash len sym).table := by
  have hrt := rehash_of_not_pending t h.1.2.2
  cases hrep : replace_chain hash name len (prepare_symbol host sym)
      (t.bucket.getD (hash % t.size) []) with
  | some r =>
    obtain ⟨chain, effects⟩ := r
    have hrep1 := hrep
    rw [← hrt] at hrep1
    rw [h_insert_replace host bucket_ok entry_ok junk t name hash len sym chain effects hrep1]
    refine (Consistent_replace t _ name hash len _ chain effects h hrep ?_ ?_ ?_ ?_).1 <;>
      simp only [hrt]
  | none =>
    have hrep1 := hrep
    rw [← hrt] at hrep1
    cases hg : grow bucket_ok (rehash t) with
    | none =>
      rw [h_insert_no_bucket host bucket_ok entry_ok junk t name hash len sym hrep1 hg, hrt]
      exact h
    | some grown =>
      have hgc : Consistent grown := by
        rw [hrt] at hg
        exact Consistent_grow bucket_ok t grown h hg
      cases entry_ok with
      | false =>
        rw [h_insert_no_entry host bucket_ok junk t grown name hash len sym hrep1 hg]
        exact hgc
      | true =>
        rw [h_insert_create host bucket_ok junk t grown name hash len sym hrep1 hg]
        refine (Consistent_link grown _ hash
          ⟨(prepare_symbol host sym).ops, (prepare_symbol host sym).value, hash,
            stored_name junk name len⟩ hgc ?_ ?_ ?_ ?_ ?_).1 <;> rfl

theorem Consistent_h_new (fuel sizeof_ptr number : Nat) (t : h_table)
    (h : h_new fuel sizeof_ptr true true number = some (some t))
    (h0 : 0 < t.size) (hl : t.size ≤ t.bucket.length) : Consistent t := by
  refine ⟨⟨h0, hl, le_of_eq (h_new_sizes fuel sizeof_ptr number t h)⟩, ?_, ?_⟩
  · unfold h_new at h
    split at h
    · simp at h
    · simp only [Bool.and_self, if_true, Option.some.injEq] at h
      subst h
      intro i _ e he
      simp only [List.getD_eq_getElem?_getD, List.getElem?_replicate] at he
      split at he <;> simp at he
  · unfold h_new at h
    split at h
    · simp at h
    · simp only [Bool.and_self, if_true, Option.some.injEq] at h
      subst h
      unfold Counted
      simp only [entries_eq_flat, List.take_replicate, flat_replicate_nil, List.length_nil,
        Nat.zero_mod]

theorem Reachable_Consistent (host : Host) (t : h_table) (h : Reachable host t) :
    Consistent t := by
  refine Reachable_hashed_induct host Consistent ?_ ?_ ?_ ?_ ?_ t h
  · exact Consistent_h_new
  · intro bucket_ok entry_ok junk t name hash len sym _ ih _
    exact Consistent_insert host bucket_ok entry_ok junk t name hash len sym ih
  · intro t name hash len _ ih _
    exact Consistent_remove t name hash len ih
  · intro t name hash len _ ih _
    exact Consistent_find t name hash len ih
  · intro t name hash len _ ih _
    exact Consistent_pop t name hash len ih

/-! ### `h_remove` and `Y_h_pop` -/

theorem chain_match_iff (t : h_table) (h : Consistent t) (name : List Nat) (hash len : Nat) :
    (∃ e ∈ t.bucket.getD (hash % t.size) [], H_MATCH e hash name len = true)
      ↔ ∃ e ∈ entries t, H_MATCH e hash name len = true := by
  have hi : hash % t.size < t.size := Nat.mod_lt _ h.1.1
  constructor
  · rintro ⟨e, he, hm⟩
    exact ⟨e, (mem_entries t h.1.2.1 e).2 ⟨_, hi, he⟩, hm⟩
  · rintro ⟨e, he, hm⟩
    obtain ⟨i, hi2, hei⟩ := (mem_entries t h.1.2.1 e).1 he
    have hp := h.2.1 i hi2 e hei
    rw [H_MATCH_hash e _ _ _ hm] at hp
    rw [hp]
    exact ⟨e, hei, hm⟩

/-- C13 (the code departs from the claim): in the well-formed table that holds
only the entry named `"dkhbbhegaic"`, no entry is named `"d"`, yet
`h_remove("d")` returns 1, unlinks and frees the entry named `"dkhbbhegaic"` and
leaves the table empty with `number = 0`, and `h_find("d")` returns that entry;
the claim states the result 0, not-found and an unchanged table for a key that
no entry has.  The cause is `H_MATCH`, which compares only the first `LEN` bytes
of the names. -/
theorem h_remove_removes_other_key :
    Reachable host0 table_long
      ∧ insert_all host0 table0 [(key_d_long, long_sym 7)] = some table_long
      ∧ entries table_long = [⟨OpTable.longScalar, 7, 100, key_d_long⟩]
      ∧ (∀ e ∈ entries table_long, e.name ≠ key_d)
      ∧ h_remove table_long (some key_d)
          = some ⟨1, ⟨0, -1, 0, 2, 2, [[], []]⟩, [Effect.h_free_entry key_d_long]⟩
      ∧ h_find table_long (some key_d)
          = some (some ⟨OpTable.longScalar, 7, 100, key_d_long⟩, table_long) :=
  ⟨Reachable_table_long, by decide, by decide, by decide, by decide, by decide⟩

theorem remove_chain_find (hash : Nat) (name : List Nat) (len : Nat)
    (c c1 : List h_entry) (e : h_entry)
    (h : remove_chain hash name len c = some (e, c1)) :
    find_chain hash name len c = some e := by
  obtain ⟨pre, post, h1, h2, h3, _⟩ := remove_chain_some _ _ _ _ _ _ h
  rw [h1]
  exact find_chain_append _ _ _ pre e post h2 h3

/-- C18 (the code departs from the claim): in the well-formed table (no rehash
pending) that holds only the entry named `"dkhbbhegaic"`, with value 7, no entry
is named `"d"`, yet `Y_h_pop("d")` returns the value 7, unlinks and frees the
entry named `"dkhbbhegaic"` and leaves the table empty; the claim states that
it returns nil and leaves the table unchanged when no entry has the key.  The
cause is `H_MATCH`, which compares only the first `LEN` bytes of the names. -/
theorem Y_h_pop_pops_other_key :
    Reachable host0 table_long
      ∧ insert_all host0 table0 [(key_d_long, long_sym 7)] = some table_long
      ∧ table_long.new_size ≤ table_long.size
      ∧ entries table_long = [⟨OpTable.longScalar, 7, 100, key_d_long⟩]
      ∧ (∀ e ∈ entries table_long, e.name ≠ key_d)
      ∧ Y_h_pop table_long (some key_d)
          = some (some (OpTable.longScalar, 7), ⟨0, -1, 0, 2, 2, [[], []]⟩,
              [Effect.h_free_entry key_d_long]) :=
  ⟨Reachable_table_long, by decide, by decide, by decide, by decide, by decide⟩

/-! ### Creation sizes and invalid keys -/

/-- C11, as stated, fails: `h_new` with the hint 4 returns a table of 8 buckets
and with the hint 0 a table of 2 buckets, and `Y_h_new` called with 8 arguments
(4 members) or with none returns a table of 32 buckets; none has 16 buckets. -/
theorem minimum_size_not_16 :
    (h_new 6 8 true true 4).map (Option.map h_table.size) = some (some 8)
      ∧ (h_new 6 8 true true 0).map (Option.map h_table.size) = some (some 2)
      ∧ (Y_h_new 6 8 true true 8 false).map (Option.map h_table.size) = some (some 32)
      ∧ (Y_h_new 6 8 true true 0 false).map (Option.map h_table.size) = some (some 32) := by
  decide

/-- C11, amended: a table created by `Y_h_new` with a number of members
(`nargs/2`) below the floor of 16 gets 32 buckets, twice the floor, whatever the
pointer size and whether or not the single argument is nil; `h_new` itself has
no floor: `h_new(4)` yields 8 buckets and `h_new(0)` yields 2. -/
theorem Y_h_new_minimum_size (sizeof_ptr nargs : Nat) (sp_is_nil : Bool)
    (h : nargs / 2 < 16) :
    (Y_h_new 6 sizeof_ptr true true nargs sp_is_nil).map (Option.map h_table.size)
        = some (some 32)
      ∧ (Y_h_new 6 sizeof_ptr true true nargs sp_is_nil).map (Option.map h_table.new_size)
        = some (some 32)
      ∧ (Y_h_new 6 sizeof_ptr true true nargs sp_is_nil).map (Option.map h_table.number)
        = some (some 0)
      ∧ (h_new 6 sizeof_ptr true true 4).map (Option.map h_table.size) = some (some 8)
      ∧ (h_new 6 sizeof_ptr true true 0).map (Option.map h_table.size) = some (some 2) := by
  have hi : Y_h_new_initial_size nargs sp_is_nil = 16 := by
    unfold Y_h_new_initial_size
    by_cases hc : nargs = 0 ∨ (nargs = 1 ∧ sp_is_nil = true)
    · simp only [if_pos hc]
      rfl
    · simp only [if_neg hc, if_pos h]
  refine ⟨?_, ?_, ?_, rfl, rfl⟩ <;> rw [Y_h_new, hi] <;> rfl

/-- Witness of the amended C11: `Y_h_new` with 8 arguments (4 members). -/
theorem Y_h_new_minimum_size_witness :
    8 / 2 < 16
      ∧ (Y_h_new 6 8 true true 8 false).map (Option.map h_table.size) = some (some 32) :=
  ⟨by decide, (Y_h_new_minimum_size 8 8 false (by decide)).1⟩

theorem stat_count_length (c : List h_entry) :
    ∀ k, k < UINT → stat_count c k = (k + c.length) % UINT := by
  induction c with
  | nil => intro k hk; simp only [stat_count, List.length_nil, Nat.add_zero, Nat.mod_eq_of_lt hk]
  | cons e rest ih =>
    intro k _
    simp only [stat_count, List.length_cons]
    rw [ih _ (Nat.mod_lt _ (by norm_num))]
    simp only [UINT]
    omega

theorem stat_loop_sum (number : Nat) (bucket : List (List h_entry)) (n : Nat) :
    ∀ i s, s.2.2 < UINT →
      (stat_loop number n i bucket s).2.2 = (s.2.2 + length_sum n i bucket) % UINT := by
  induction n with
  | zero =>
    intro i s hs
    simp only [stat_loop, length_sum, Nat.add_zero, Nat.mod_eq_of_lt hs]
  | succ n ih =>
    intro i s _
    simp only [stat_loop, length_sum]
    rw [ih _ _ (Nat.mod_lt _ (by norm_num)), stat_count_length _ 0 (by norm_num)]
    simp only [UINT]
    omega

theorem stat_init_stops (number : Nat) (h : number + 1 < UINT) (k : Nat) :
    ∀ i result, i + k = number + 1 →
      ∃ r, stat_init (k + 1) i number result = some r := by
  induction k with
  | zero =>
    intro i result hi
    refine ⟨result, ?_⟩
    simp only [stat_init]
    rw [if_neg (by omega)]
  | succ k ih =>
    intro i result hi
    simp only [stat_init]
    rw [if_pos (by omega)]
    have hmod : (i + 1) % UINT = i + 1 := Nat.mod_eq_of_lt (by omega)
    rw [hmod]
    exact ih (i + 1) _ (by omega)

theorem Y_h_stat_run (t : h_table) (h : t.number + 1 < UINT) :
    ∃ hist, Y_h_stat (t.number + 2) t =
      some (if chain_length_sum t % UINT ≠ t.number then
          ⟨hist, { t with number := chain_length_sum t % UINT },
            some ErrorMsg.corrupted_hash_table⟩
        else ⟨hist, t, none⟩) := by
  obtain ⟨r, hr⟩ := stat_init_stops t.number h (t.number + 1) 0
    (List.replicate ((t.number + 1) % UINT) 0) (by omega)
  have hs := stat_loop_sum t.number t.bucket t.size 0 (r, 0, 0) (by norm_num)
  simp only [Nat.zero_add] at hs
  refine ⟨(stat_loop t.number t.size 0 t.bucket (r, 0, 0)).1, ?_⟩
  simp only [Y_h_stat, hr, hs, chain_length_sum]
  split <;> rfl

theorem length_sum_cons (c : List h_entry) (b : List (List h_entry)) (n : Nat) :
    ∀ i, length_sum n (i + 1) (c :: b) = length_sum n i b := by
  induction n with
  | zero => intro i; rfl
  | succ n ih =>
    intro i
    simp only [length_sum, List.getD_cons_succ, ih]

theorem length_sum_flat (b : List (List h_entry)) :
    ∀ n, n ≤ b.length → length_sum n 0 b = (flat (b.take n)).length := by
  induction b with
  | nil =>
    intro n hn
    have : n = 0 := by simpa using hn
    subst this
    rfl
  | cons c b ih =>
    intro n hn
    cases n with
    | zero => rfl
    | succ n =>
      simp only [length_sum, List.getD_cons_zero, Nat.zero_add, length_sum_cons, List.take_succ_cons,
        flat_cons, List.length_append]
      rw [ih n (by simpa using hn)]

theorem chain_length_sum_entries (t : h_table) (h : t.size ≤ t.bucket.length) :
    chain_length_sum t = (entries t).length := by
  rw [chain_length_sum, length_sum_flat _ _ h, entries_eq_flat]

theorem Reachable_not_corrupted (host : Host) (T : h_table) (hT : Reachable host T)
    (h : T.number + 1 < UINT) : ∃ hist, Y_h_stat (T.number + 2) T = some ⟨hist, T, none⟩ := by
  have hC := Reachable_Consistent host T hT
  obtain ⟨hist, hr⟩ := Y_h_stat_run T h
  refine ⟨hist, ?_⟩
  rw [hr, if_neg]
  rw [chain_length_sum_entries T hC.1.2.1]
  intro hc
  exact hc hC.2.2.symm

theorem stat_init_max (fuel : Nat) :
    ∀ i result, i < UINT → stat_init fuel i (h_uint_dec 0) result = none := by
  induction fuel with
  | zero => intro i result _; rfl
  | succ fuel ih =>
    intro i result hi
    have hle : i ≤ h_uint_dec 0 := by
      have : h_uint_dec 0 = UINT - 1 := rfl
      rw [this]
      omega
    simp only [stat_init, if_pos hle]
    exact ih _ _ (Nat.mod_lt _ (by norm_num))

/-- C14 (the code departs from the claim): on the table state without entries
whose recorded count is `UINT - 1` (as left by a decrement of the count at
zero), the sum of the chain lengths, 0, differs from the recorded count, yet
`Y_h_stat` never reports the corruption: its loop `for (i = 0; i <= number;
++i)`, with `i` a `h_uint_t`, never stops. -/
theorem Y_h_stat_misses_corruption :
    chain_length_sum table_count_max = 0
      ∧ table_count_max.number = 4294967295
      ∧ ∀ fuel, Y_h_stat fuel table_count_max = none := by
  refine ⟨by decide, by decide, ?_⟩
  intro fuel
  have hn : table_count_max.number = h_uint_dec 0 := rfl
  have h := stat_init_max fuel 0 (List.replicate ((h_uint_dec 0 + 1) % UINT) 0) (by norm_num)
  simp only [Y_h_stat, hn, h]

/-- C15, as stated, fails: on the table state without entries whose recorded
count is 5, `Y_h_stat` reports the corruption and leaves the recorded count at
0: the count is not the same after the call as before it. -/
theorem Y_h_stat_repairs_count :
    Y_h_stat 7 table_count_5
        = some ⟨[2, 0, 0, 0, 0, 0], { table_count_5 with number := 0 },
            some ErrorMsg.corrupted_hash_table⟩
      ∧ table_count_5.number = 5 := by
  decide

/-- C15, amended: when `Y_h_stat` finds that the sum of the chain lengths of
buckets `0 .. size-1` (as a `h_uint_t`) differs from the recorded entry count,
it sets the recorded count to that sum and reports "corrupted hash table";
every other field of the table is unchanged.  The routine reaches the check
within `number + 2` tests of its first loop when `number + 1 < UINT`. -/
theorem Y_h_stat_sets_count (t : h_table) (h : t.number + 1 < UINT)
    (hne : chain_length_sum t % UINT ≠ t.number) :
    ∃ hist, Y_h_stat (t.number + 2) t =
      some ⟨hist, { t with number := chain_length_sum t % UINT },
        some ErrorMsg.corrupted_hash_table⟩ := by
  obtain ⟨hist, hr⟩ := Y_h_stat_run t h
  exact ⟨hist, by rw [hr, if_pos hne]⟩

/-- Witness of the amended C15: the table state whose recorded count is 5. -/
theorem Y_h_stat_sets_count_witness :
    table_count_5.number + 1 < UINT
      ∧ chain_length_sum table_count_5 % UINT ≠ table_count_5.number
      ∧ ∃ hist, Y_h_stat (table_count_5.number + 2) table_count_5 =
          some ⟨hist, { table_count_5 with number := chain_length_sum table_count_5 % UINT },
            some ErrorMsg.corrupted_hash_table⟩ :=
  ⟨by decide, by decide, Y_h_stat_sets_count table_count_5 (by decide) (by decide)⟩

/-! ### Pending rehash and allocation failure -/

theorem rehash_idem (t : h_table) : rehash (rehash t) = rehash t :=
  rehash_of_not_pending _ (rehash_not_pending t)

theorem h_insert_rehash (host : Host) (bucket_ok entry_ok : Bool) (junk : List Nat)
    (t : h_table) (name : List Nat) (sym : Symbol) :
    h_insert host bucket_ok entry_ok junk t (some name) sym
      = h_insert host bucket_ok entry_ok junk (rehash t) (some name) sym := by
  simp only [h_insert, h_insert_hashed, rehash_idem]

theorem h_remove_rehash (t : h_table) (name : List Nat) :
    h_remove t (some name) = h_remove (rehash t) (some name) := by
  simp only [h_remove, h_remove_hashed, rehash_idem]

/-- C17 (the code departs from the claim): on a table in the middle of a rehash
(`size = 2`, `new_size = 4`, the entry `"b"` already moved to bucket 2),
`Y_h_pop("b")` does not complete the migration: it looks in bucket `98 % 2 = 0`,
returns nil and leaves the table as it is, with `size < new_size`, whereas on
the rehashed table it returns the value of `"b"`; `h_remove`, from which its
code is taken, completes the rehash and returns 1. -/
theorem Y_h_pop_skips_pending_rehash :
    table_migrating.size < table_migrating.new_size
      ∧ Y_h_pop table_migrating (some key_b) = some (none, table_migrating, [])
      ∧ (Y_h_pop (rehash table_migrating) (some key_b)).map Prod.fst
          = some (some (OpTable.longScalar, 5))
      ∧ (h_remove table_migrating (some key_b)).map Outcome.result = some 1
      ∧ (h_remove table_migrating (some key_b)).map (fun o => o.table.size) = some 4 := by
  decide

theorem Reachable_insert_all (host : Host) (calls : List (List Nat × Symbol)) :
    ∀ t T, Reachable host t → insert_all host t calls = some T → Reachable host T := by
  induction calls with
  | nil =>
    intro t T h hT
    rw [← Option.some.inj hT]
    exact h
  | cons c rest ih =>
    intro t T h hT
    simp only [insert_all] at hT
    split at hT
    · simp at hT
    · rename_i o ho
      exact ih _ T (Reachable.insert true true [] t (some c.1) c.2 o h ho) hT

theorem Reachable_table_l : Reachable host0 table_l :=
  Reachable_insert_all host0
    [(key_l, long_sym 1), (key_l_long, long_sym 2), (key_x, long_sym 3), (key_y, long_sym 4)]
    table0 table_l Reachable_table0 (by decide)

theorem h_insert_failure (host : Host) (bucket_ok entry_ok : Bool) (junk : List Nat)
    (T : h_table) (hT : Reachable host T) (K : List Nat) (V : Symbol) (o : Outcome)
    (ho : h_insert host bucket_ok entry_ok junk T (some K) V = some o)
    (hf : o.result = -1) :
    o.table.number = T.number
      ∧ List.Perm (entries o.table) (entries T)
      ∧ (grow bucket_ok T = none → o.table = T) := by
  have hC := Reachable_Consistent host T hT
  have hrt := rehash_of_not_pending T hC.1.2.2
  obtain ⟨hash, len, _, _, rfl⟩ := h_insert_some host bucket_ok entry_ok junk T K V o ho
  cases hrep : replace_chain hash K len (prepare_symbol host V)
      ((rehash T).bucket.getD (hash % (rehash T).size) []) with
  | some r =>
    obtain ⟨chain, effects⟩ := r
    rw [h_insert_replace host bucket_ok entry_ok junk T K hash len V chain effects hrep] at hf
    simp at hf
  | none =>
    cases hg : grow bucket_ok (rehash T) with
    | none =>
      rw [h_insert_no_bucket host bucket_ok entry_ok junk T K hash len V hrep hg, hrt]
      exact ⟨rfl, List.Perm.refl _, fun _ => rfl⟩
    | some grown =>
      cases entry_ok with
      | true =>
        rw [h_insert_create host bucket_ok junk T grown K hash len V hrep hg] at hf
        simp at hf
      | false =>
        rw [h_insert_no_entry host bucket_ok junk T grown K hash len V hrep hg]
        rw [hrt] at hg
        refine ⟨grow_number bucket_ok T grown hg, grow_entries bucket_ok T grown hC.1 hg, ?_⟩
        intro hn
        rw [hn] at hg
        simp at hg

/-- C20 (the code departs from the claim): in the well-formed table of 8
buckets holding `"l"` (value 1), `"lqdfaaagab"` (value 2), `"x"` and `"y"`, the
insert of the new key `"z"` doubles the bucket array and then fails to allocate
the entry: it returns -1, and `h_find("l")`, which returned the entry `"l"` with
value 1 before the call, returns the entry `"lqdfaaagab"` with value 2 after
it. -/
theorem failed_insert_changes_found_value :
    Reachable host0 table_l
      ∧ insert_all host0 table0
          [(key_l, long_sym 1), (key_l_long, long_sym 2), (key_x, long_sym 3), (key_y, long_sym 4)]
        = some table_l
      ∧ table_l.size = 8
      ∧ (h_find table_l (some key_l)).map Prod.fst
          = some (some ⟨OpTable.longScalar, 1, 108, key_l⟩)
      ∧ (h_insert host0 true false [] table_l (some key_z) (long_sym 5)).map Outcome.result
          = some (-1)
      ∧ (h_insert host0 true false [] table_l (some key_z) (long_sym 5)).map
          (fun o => o.table.size) = some 16
      ∧ (h_insert host0 true false [] table_l (some key_z) (long_sym 5)).bind
            (fun o => (h_find o.table (some key_l)).map Prod.fst)
          = some (some ⟨OpTable.longScalar, 2, 108, key_l_long⟩) :=
  ⟨Reachable_table_l, by decide, by decide, by decide, by decide, by decide, by decide⟩

/-! ### Reference counting -/

theorem acquired_append (db : Nat) (l1 l2 : List Effect) :
    acquired db (l1 ++ l2) = acquired db l1 + acquired db l2 := by
  simp only [acquired, List.count_append]

theorem released_append (db : Nat) (l1 l2 : List Effect) :
    released db (l1 ++ l2) = released db l1 + released db l2 := by
  simp only [released, List.count_append]

theorem holders_perm (db : Nat) (t1 t2 : h_table) (h : List.Perm (entries t1) (entries t2)) :
    holders db t1 = holders db t2 :=
  h.countP_eq _

theorem acquired_replace_effects (db : Nat) (e : h_entry) (sym : Symbol) :
    acquired db (replace_effects e sym)
      = if sym.ops = OpTable.dataBlockSym ∧ sym.value = db then 1 else 0 := by
  unfold acquired replace_effects
  by_cases h1 : e.sym_ops = OpTable.dataBlockSym <;> by_cases h2 : sym.ops = OpTable.dataBlockSym
    <;> by_cases h3 : sym.value = db <;> simp [h1, h2, h3, List.count_cons]

theorem released_replace_effects (db : Nat) (e : h_entry) (sym : Symbol) :
    released db (replace_effects e sym) = if holds db e = true then 1 else 0 := by
  unfold released replace_effects holds
  by_cases h1 : e.sym_ops = OpTable.dataBlockSym <;> by_cases h2 : sym.ops = OpTable.dataBlockSym
    <;> by_cases h3 : e.sym_value = db <;> simp [h1, h2, h3, List.count_cons]

theorem holds_update (db : Nat) (e : h_entry) (sym : Symbol) :
    holds db { e with sym_ops := sym.ops, sym_value := sym.value }
      = (decide (sym.ops = OpTable.dataBlockSym) && decide (sym.value = db)) :=
  rfl

theorem acquired_ref_if (db : Nat) (s : Symbol) :
    acquired db (if s.ops = OpTable.dataBlockSym then [Effect.Ref s.value] else [])
      = if s.ops = OpTable.dataBlockSym ∧ s.value = db then 1 else 0 := by
  unfold acquired
  by_cases h1 : s.ops = OpTable.dataBlockSym <;> by_cases h2 : s.value = db
    <;> simp [h1, h2, List.count_cons]

theorem released_ref_if (db : Nat) (s : Symbol) :
    released db (if s.ops = OpTable.dataBlockSym then [Effect.Ref s.value] else []) = 0 := by
  unfold released
  by_cases h1 : s.ops = OpTable.dataBlockSym <;> simp [h1, List.count_cons]

theorem h_insert_account (host : Host) (bucket_ok entry_ok : Bool) (junk : List Nat)
    (t : h_table) (name : List Nat) (hash len : Nat) (sym : Symbol) (db : Nat)
    (h : Consistent t) :
    acquired db (h_insert_hashed host bucket_ok entry_ok junk t name hash len sym).effects
        = (if (h_insert_hashed host bucket_ok entry_ok junk t name hash len sym).result ≠ -1
            ∧ (prepare_symbol host sym).ops = OpTable.dataBlockSym
            ∧ (prepare_symbol host sym).value = db then 1 else 0)
      ∧ released db (h_insert_hashed host bucket_ok entry_ok junk t name hash len sym).effects
        = (if (h_insert_hashed host bucket_ok entry_ok junk t name hash len sym).result = 1 then
            (h_find_hashed t name hash len).1.toList.countP (holds db) else 0)
      ∧ acquired db (h_insert_hashed host bucket_ok entry_ok junk t name hash len sym).effects
          + holders db t
        = released db (h_insert_hashed host bucket_ok entry_ok junk t name hash len sym).effects
          + holders db (h_insert_hashed host bucket_ok entry_ok junk t name hash len sym).table := by
  have hrt := rehash_of_not_pending t h.1.2.2
  rw [h_find_of_Inv t name hash len h.1.2.2]
  cases hrep : replace_chain hash name len (prepare_symbol host sym)
      (t.bucket.getD (hash % t.size) []) with
  | some r =>
    obtain ⟨chain, effects⟩ := r
    have hrep1 := hrep
    rw [← hrt] at hrep1
    rw [h_insert_replace host bucket_ok entry_ok junk t name hash len sym chain effects hrep1]
    obtain ⟨_, e, hf, heff, hperm⟩ := Consistent_replace t
      { rehash t with
        bucket := (rehash t).bucket.set (hash % (rehash t).size) chain }
      name hash len _ chain effects h hrep (by simp only [hrt]) (by simp only [hrt])
      (by simp only [hrt]) (by simp only [hrt])
    have hc := hperm.countP_eq (holds db)
    simp only [List.countP_cons] at hc
    rw [hf]
    dsimp only
    rw [heff, acquired_replace_effects, released_replace_effects]
    rw [holds_update] at hc
    refine ⟨?_, ?_, ?_⟩
    · simp
    · simp [List.countP_cons]
    · unfold holders
      by_cases h1 : holds db e = true
        <;> by_cases h2 : (prepare_symbol host sym).ops = OpTable.dataBlockSym
        <;> by_cases h3 : (prepare_symbol host sym).value = db
        <;> simp [h1, h2, h3] at hc ⊢
        <;> omega
  | none =>
    have hrep1 := hrep
    rw [← hrt] at hrep1
    cases hg : grow bucket_ok (rehash t) with
    | none =>
      rw [h_insert_no_bucket host bucket_ok entry_ok junk t name hash len sym hrep1 hg, hrt]
      refine ⟨?_, ?_, ?_⟩
      · simp [acquired]
      · simp [released]
      · simp [acquired, released]
    | some grown =>
      have hg2 := hg
      rw [hrt] at hg2
      have hgc : Consistent grown := Consistent_grow bucket_ok t grown h hg2
      have hge := grow_entries bucket_ok t grown h.1 hg2
      cases entry_ok with
      | false =>
        rw [h_insert_no_entry host bucket_ok junk t grown name hash len sym hrep1 hg]
        refine ⟨?_, ?_, ?_⟩
        · simp [acquired]
        · simp [released]
        · simp only [acquired, released, holders]
          rw [hge.countP_eq]
          simp
      | true =>
        rw [h_insert_create host bucket_ok junk t grown name hash len sym hrep1 hg]
        obtain ⟨_, hperm⟩ := Consistent_link grown
          { grown with
            bucket := grown.bucket.set (hash % grown.size)
              ({ sym_ops := (prepare_symbol host sym).ops
                 sym_value := (prepare_symbol host sym).value
                 hash := hash
                 name := stored_name junk name len }
                :: grown.bucket.getD (hash % grown.size) [])
            number := (grown.number + 1) % UINT }
          hash
          ⟨(prepare_symbol host sym).ops, (prepare_symbol host sym).value, hash,
            stored_name junk name len⟩ hgc rfl rfl rfl rfl rfl
        have hc := hperm.countP_eq (holds db)
        rw [List.countP_cons, hge.countP_eq] at hc
        dsimp only
        rw [acquired_ref_if, released_ref_if]
        unfold holders
        by_cases h1 : (prepare_symbol host sym).ops = OpTable.dataBlockSym
          <;> by_cases h2 : (prepare_symbol host sym).value = db
          <;> simp [holds, h1, h2] at hc ⊢
          <;> omega

theorem released_unref_if (db : Nat) (e : h_entry) :
    released db ((if e.sym_ops = OpTable.dataBlockSym then [Effect.Unref e.sym_value] else [])
        ++ [Effect.h_free_entry e.name])
      = if holds db e = true then 1 else 0 := by
  unfold released holds
  by_cases h1 : e.sym_ops = OpTable.dataBlockSym <;> by_cases h2 : e.sym_value = db
    <;> simp [h1, h2, List.count_cons]

theorem acquired_unref_if (db : Nat) (e : h_entry) :
    acquired db ((if e.sym_ops = OpTable.dataBlockSym then [Effect.Unref e.sym_value] else [])
        ++ [Effect.h_free_entry e.name]) = 0 := by
  unfold acquired
  by_cases h1 : e.sym_ops = OpTable.dataBlockSym <;> simp [h1, List.count_cons]

theorem h_remove_account (t : h_table) (name : List Nat) (hash len : Nat) (db : Nat)
    (h : Consistent t) :
    acquired db (h_remove_hashed t name hash len).effects = 0
      ∧ released db (h_remove_hashed t name hash len).effects
        = (h_find_hashed t name hash len).1.toList.countP (holds db)
      ∧ holders db t = released db (h_remove_hashed t name hash len).effects
          + holders db (h_remove_hashed t name hash len).table := by
  have hrt := rehash_of_not_pending t h.1.2.2
  rw [h_find_of_Inv t name hash len h.1.2.2]
  cases hr : remove_chain hash name len
      (t.bucket.getD (hash % t.size) []) with
  | none =>
    have hr1 := hr
    rw [← hrt] at hr1
    rw [h_remove_none t name hash len hr1, (remove_chain_none _ _ _ _).1 hr, hrt]
    exact ⟨rfl, rfl, by simp [released]⟩
  | some r =>
    obtain ⟨e, chain⟩ := r
    have hr1 := hr
    rw [← hrt] at hr1
    have hun := (Consistent_unlink t (h_remove_hashed t name hash len).table name hash len e
      chain h hr
      (by rw [h_remove_some t name hash len e chain hr1]; simp only [hrt])
      (by rw [h_remove_some t name hash len e chain hr1]; simp only [hrt])
      (by rw [h_remove_some t name hash len e chain hr1]; simp only [hrt])
      (by rw [h_remove_some t name hash len e chain hr1]; simp only [hrt])).2
    have hc := hun.countP_eq (holds db)
    rw [List.countP_cons] at hc
    have heff : (h_remove_hashed t name hash len).effects
        = (if e.sym_ops = OpTable.dataBlockSym then [Effect.Unref e.sym_value] else [])
          ++ [Effect.h_free_entry e.name] := by
      rw [h_remove_some t name hash len e chain hr1]
    rw [heff, remove_chain_find _ _ _ _ _ _ hr, acquired_unref_if, released_unref_if]
    refine ⟨rfl, by simp [List.countP_cons], ?_⟩
    unfold holders
    omega

theorem Y_h_pop_account (t : h_table) (name : List Nat) (hash len : Nat) (db : Nat)
    (h : Consistent t) :
    acquired db (Y_h_pop_hashed t name hash len).2.2 = 0
      ∧ released db (Y_h_pop_hashed t name hash len).2.2 = 0
      ∧ handed db (Y_h_pop_hashed t name hash len).1.toList
        = (h_find_hashed t name hash len).1.toList.countP (holds db)
      ∧ holders db t
        = holders db (Y_h_pop_hashed t name hash len).2.1
          + handed db (Y_h_pop_hashed t name hash len).1.toList := by
  rw [h_find_of_Inv t name hash len h.1.2.2]
  cases hr : remove_chain hash name len
      (t.bucket.getD (hash % t.size) []) with
  | none =>
    rw [Y_h_pop_none t name hash len hr, (remove_chain_none _ _ _ _).1 hr]
    exact ⟨rfl, rfl, rfl, rfl⟩
  | some r =>
    obtain ⟨e, chain⟩ := r
    have hun := (Consistent_unlink t (Y_h_pop_hashed t name hash len).2.1 name hash len e
      chain h hr
      (by rw [Y_h_pop_some t name hash len e chain hr])
      (by rw [Y_h_pop_some t name hash len e chain hr])
      (by rw [Y_h_pop_some t name hash len e chain hr])
      (by rw [Y_h_pop_some t name hash len e chain hr])).2
    have hc := hun.countP_eq (holds db)
    rw [List.countP_cons] at hc
    have hp : (Y_h_pop_hashed t name hash len).1 = some (e.sym_ops, e.sym_value) := by
      rw [Y_h_pop_some t name hash len e chain hr]
    have heff : (Y_h_pop_hashed t name hash len).2.2 = [Effect.h_free_entry e.name] := by
      rw [Y_h_pop_some t name hash len e chain hr]
    have hh : handed db [(e.sym_ops, e.sym_value)] = if holds db e = true then 1 else 0 := by
      unfold handed holds
      by_cases h1 : e.sym_ops = OpTable.dataBlockSym <;> by_cases h2 : e.sym_value = db
        <;> simp [h1, h2, List.count_cons]
    rw [heff, hp, remove_chain_find _ _ _ _ _ _ hr]
    simp only [Option.toList_some]
    rw [hh]
    refine ⟨by simp [acquired], by simp [released], by simp [List.countP_cons], ?_⟩
    unfold holders
    omega

theorem delete_chain_account (db : Nat) (c : List h_entry) :
    acquired db (delete_chain c) = 0 ∧ released db (delete_chain c) = c.countP (holds db) := by
  induction c with
  | nil => exact ⟨rfl, rfl⟩
  | cons e rest ih =>
    have ha := acquired_unref_if db e
    have hr := released_unref_if db e
    simp only [acquired_append, released_append] at ha hr
    simp only [delete_chain, acquired_append, released_append, List.countP_cons, ih.1, ih.2]
    exact ⟨by omega, by omega⟩

theorem delete_loop_cons (c : List h_entry) (b : List (List h_entry)) (n : Nat) :
    ∀ i, delete_loop n (i + 1) (c :: b) = delete_loop n i b := by
  induction n with
  | zero => intro i; rfl
  | succ n ih =>
    intro i
    simp only [delete_loop, List.getD_cons_succ, ih]

theorem delete_loop_account (db : Nat) (b : List (List h_entry)) :
    ∀ n, n ≤ b.length →
      acquired db (delete_loop n 0 b) = 0
        ∧ released db (delete_loop n 0 b) = (flat (b.take n)).countP (holds db) := by
  induction b with
  | nil =>
    intro n hn
    have : n = 0 := by simpa using hn
    subst this
    exact ⟨rfl, rfl⟩
  | cons c b ih =>
    intro n hn
    cases n with
    | zero => exact ⟨rfl, rfl⟩
    | succ n =>
      have h1 := ih n (by simpa using hn)
      have h2 := delete_chain_account db c
      simp only [delete_loop, List.getD_cons_zero, Nat.zero_add, delete_loop_cons,
        acquired_append, released_append, List.take_succ_cons, flat_cons, List.countP_append]
      rw [h1.1, h1.2, h2.1, h2.2]
      exact ⟨rfl, rfl⟩

theorem h_delete_account (db : Nat) (t : h_table) (h : Consistent t) :
    acquired db (h_delete (some t)) = 0 ∧ released db (h_delete (some t)) = holders db t := by
  have hrt := rehash_of_not_pending t h.1.2.2
  simp only [h_delete, hrt]
  exact delete_loop_account db t.bucket t.size h.1.2.1

theorem handed_append (db : Nat) (l1 l2 : List (OpTable × Nat)) :
    handed db (l1 ++ l2) = handed db l1 + handed db l2 := by
  simp only [handed, List.count_append]

theorem Consistent_size_ne (t : h_table) (h : Consistent t) :
    (rehash t).size ≠ 0 ∧ t.size ≠ 0 := by
  have h0 := h.1.1
  rw [rehash_of_not_pending t h.1.2.2]
  exact ⟨by omega, by omega⟩

theorem h_insert_account_call (host : Host) (bucket_ok entry_ok : Bool) (junk : List Nat)
    (t : h_table) (name : Option (List Nat)) (sym : Symbol) (db : Nat) (o : Outcome)
    (h : Consistent t) (ho : h_insert host bucket_ok entry_ok junk t name sym = some o) :
    Consistent o.table
      ∧ ∃ r, h_find t name = some r
        ∧ acquired db o.effects
          = (if o.result ≠ -1 ∧ (prepare_symbol host sym).ops = OpTable.dataBlockSym
              ∧ (prepare_symbol host sym).value = db then 1 else 0)
        ∧ released db o.effects
          = (if o.result = 1 then r.1.toList.countP (holds db) else 0)
        ∧ acquired db o.effects + holders db t = released db o.effects + holders db o.table := by
  cases name with
  | none =>
    rw [h_insert_none] at ho
    rw [← Option.some.inj ho]
    refine ⟨h, (none, t), rfl, ?_, ?_, ?_⟩
    · simp [acquired]
    · simp [released]
    · simp [acquired, released]
  | some name =>
    obtain ⟨hash, len, hh, hs, rfl⟩ := h_insert_some host bucket_ok entry_ok junk t name sym o ho
    exact ⟨Consistent_insert host bucket_ok entry_ok junk t name hash len sym h,
      h_find_hashed t name hash len, h_find_eq t name hash len hh hs,
      h_insert_account host bucket_ok entry_ok junk t name hash len sym db h⟩

theorem h_remove_account_call (t : h_table) (name : Option (List Nat)) (db : Nat) (o : Outcome)
    (h : Consistent t) (ho : h_remove t name = some o) :
    Consistent o.table
      ∧ ∃ r, h_find t name = some r
        ∧ acquired db o.effects = 0
        ∧ released db o.effects = r.1.toList.countP (holds db)
        ∧ holders db t = released db o.effects + holders db o.table := by
  cases name with
  | none =>
    rw [h_remove_none_key] at ho
    rw [← Option.some.inj ho]
    exact ⟨h, (none, t), rfl, rfl, rfl, by simp [released]⟩
  | some name =>
    obtain ⟨hash, len, hh, hs, rfl⟩ := h_remove_some_key t name o ho
    exact ⟨Consistent_remove t name hash len h, h_find_hashed t name hash len,
      h_find_eq t name hash len hh hs, h_remove_account t name hash len db h⟩

theorem Y_h_pop_account_call (t : h_table) (name : Option (List Nat)) (db : Nat)
    (p : Option (OpTable × Nat) × h_table × List Effect)
    (h : Consistent t) (ho : Y_h_pop t name = some p) :
    Consistent p.2.1
      ∧ ∃ r, h_find t name = some r
        ∧ acquired db p.2.2 = 0
        ∧ released db p.2.2 = 0
        ∧ handed db p.1.toList = r.1.toList.countP (holds db)
        ∧ holders db t = holders db p.2.1 + handed db p.1.toList := by
  cases name with
  | none =>
    rw [Y_h_pop_none_key] at ho
    rw [← Option.some.inj ho]
    exact ⟨h, (none, t), rfl, rfl, rfl, rfl, rfl⟩
  | some name =>
    obtain ⟨hash, len, hh, _, rfl⟩ := Y_h_pop_some_key t name p ho
    exact ⟨Consistent_pop t name hash len h, h_find_hashed t name hash len,
      h_find_eq t name hash len hh (Consistent_size_ne t h).1,
      Y_h_pop_account t name hash len db h⟩

theorem run_balanced (host : Host) (db k : Nat) (calls : List Call) :
    ∀ s R : Run, Consistent s.table →
      acquired db s.effects + k = released db s.effects + holders db s.table + handed db s.popped →
      run_from host s calls = some R →
      Consistent R.table
        ∧ acquired db R.effects + k
          = released db R.effects + holders db R.table + handed db R.popped := by
  induction calls with
  | nil =>
    intro s R h1 h2 hR
    rw [← Option.some.inj hR]
    exact ⟨h1, h2⟩
  | cons c rest ih =>
    intro s R h1 h2 hR
    simp only [run_from] at hR
    split at hR
    · simp at hR
    · rename_i s1 hs1
      refine ih s1 R ?_ ?_ hR
      · cases c with
        | insert bucket_ok entry_ok junk name sym =>
          simp only [Run.step] at hs1
          split at hs1
          · simp at hs1
          · rename_i o ho
            rw [← Option.some.inj hs1]
            exact (h_insert_account_call host bucket_ok entry_ok junk s.table name sym db o h1
              ho).1
        | remove name =>
          simp only [Run.step] at hs1
          split at hs1
          · simp at hs1
          · rename_i o ho
            rw [← Option.some.inj hs1]
            exact (h_remove_account_call s.table name db o h1 ho).1
        | pop name =>
          simp only [Run.step] at hs1
          split at hs1
          · simp at hs1
          · rename_i p ho
            rw [← Option.some.inj hs1]
            exact (Y_h_pop_account_call s.table name db p h1 ho).1
      · cases c with
        | insert bucket_ok entry_ok junk name sym =>
          simp only [Run.step] at hs1
          split at hs1
          · simp at hs1
          · rename_i o ho
            rw [← Option.some.inj hs1]
            obtain ⟨_, r, _, _, _, h3⟩ :=
              h_insert_account_call host bucket_ok entry_ok junk s.table name sym db o h1 ho
            simp only [acquired_append, released_append]
            omega
        | remove name =>
          simp only [Run.step] at hs1
          split at hs1
          · simp at hs1
          · rename_i o ho
            rw [← Option.some.inj hs1]
            obtain ⟨_, r, _, h3, _, h5⟩ := h_remove_account_call s.table name db o h1 ho
            simp only [acquired_append, released_append]
            omega
        | pop name =>
          simp only [Run.step] at hs1
          split at hs1
          · simp at hs1
          · rename_i p ho
            rw [← Option.some.inj hs1]
            obtain ⟨_, r, _, h3, h4, _, h6⟩ := Y_h_pop_account_call s.table name db p h1 ho
            simp only [acquired_append, released_append, handed_append]
            omega

theorem holders_h_new (fuel sizeof_ptr number : Nat) (t : h_table) (db : Nat)
    (h : h_new fuel sizeof_ptr true true number = some (some t)) : holders db t = 0 := by
  unfold h_new at h
  split at h
  · simp at h
  · simp only [Bool.and_self, if_true, Option.some.injEq] at h
    subst h
    simp only [holders, entries_eq_flat, List.take_replicate, flat_replicate_nil,
      List.countP_nil]

/-- C19, as stated, fails in its last sentence: on the table of `h_new(0)`,
after `h_insert("d", data block 7)` and `Y_h_pop("d")` the resource 7 has been
acquired once and never released, and no entry holds it: the net acquires (1)
are not the number of entries holding it (0); the reference was handed to the
caller of `Y_h_pop`. -/
theorem net_acquires_exceed_holders_after_pop :
    run host0 table0 [Call.insert true true [] (some key_d) (db_sym 7), Call.pop (some key_d)]
        = some ⟨table0, [Effect.Ref 7, Effect.h_free_entry key_d], [(OpTable.dataBlockSym, 7)]⟩
      ∧ acquired 7 [Effect.Ref 7, Effect.h_free_entry key_d] = 1
      ∧ released 7 [Effect.Ref 7, Effect.h_free_entry key_d] = 0
      ∧ holders 7 table0 = 0 := by
  decide

/-- C19, amended: over any sequence of `h_insert`, `h_remove` and `Y_h_pop`
calls that return, on a table fresh from `h_new`, for every resource `db`:
the acquires of `db` equal its releases plus the number of entries currently
holding it plus the number of times `Y_h_pop` handed it to a caller; after
`h_delete` the acquires equal the releases plus the hand-overs; and the next
call, when it returns, acquires and releases exactly as follows.  `h_insert`
acquires `db` once when it stores it (result 0 or 1, stored symbol a data block
equal to `db`) and not otherwise, and releases `db` once when it replaces the
value of an entry holding `db` and not otherwise; `h_remove` acquires nothing
and releases `db` once when the entry it removes holds `db`; `Y_h_pop` acquires
and releases nothing and hands `db` over when the entry it removes holds `db`;
`h_delete` acquires nothing and releases `db` once per entry holding it.  A
value whose tag is not that of a data block is thus never acquired or released.
In each case the entry concerned is the one that `h_find`, which then returns
too, locates for the key. -/
theorem reference_accounting (host : Host) (fuel sizeof_ptr number : Nat) (T0 : h_table)
    (hnew : h_new fuel sizeof_ptr true true number = some (some T0))
    (h0 : 0 < T0.size) (hl : T0.size ≤ T0.bucket.length) (calls : List Call) (R : Run)
    (hR : run host T0 calls = some R) (db : Nat) :
    acquired db R.effects = released db R.effects + holders db R.table + handed db R.popped
    ∧ acquired db (R.effects ++ h_delete (some R.table))
        = released db (R.effects ++ h_delete (some R.table)) + handed db R.popped
    ∧ (∀ bucket_ok entry_ok junk name sym o,
        h_insert host bucket_ok entry_ok junk R.table name sym = some o →
        ∃ r, h_find R.table name = some r
          ∧ acquired db o.effects
            = (if o.result ≠ -1 ∧ (prepare_symbol host sym).ops = OpTable.dataBlockSym
                ∧ (prepare_symbol host sym).value = db then 1 else 0)
          ∧ released db o.effects
            = (if o.result = 1 then r.1.toList.countP (holds db) else 0))
    ∧ (∀ name o, h_remove R.table name = some o →
        ∃ r, h_find R.table name = some r
          ∧ acquired db o.effects = 0
          ∧ released db o.effects = r.1.toList.countP (holds db))
    ∧ (∀ name p, Y_h_pop R.table name = some p →
        ∃ r, h_find R.table name = some r
          ∧ acquired db p.2.2 = 0
          ∧ released db p.2.2 = 0
          ∧ handed db p.1.toList = r.1.toList.countP (holds db))
    ∧ acquired db (h_delete (some R.table)) = 0
    ∧ released db (h_delete (some R.table)) = holders db R.table := by
  have hC0 := Consistent_h_new fuel sizeof_ptr number T0 hnew h0 hl
  have hh0 := holders_h_new fuel sizeof_ptr number T0 db hnew
  obtain ⟨hC, hb⟩ := run_balanced host db 0 calls ⟨T0, [], []⟩ R hC0
    (by simp only [acquired, released, handed, List.count_nil, hh0]) hR
  have hd := h_delete_account db R.table hC
  refine ⟨by omega, ?_, ?_, ?_, ?_, hd.1, hd.2⟩
  · rw [acquired_append, released_append, hd.1, hd.2]
    omega
  · intro bucket_ok entry_ok junk name sym o ho
    obtain ⟨_, r, h1, h2, h3, _⟩ :=
      h_insert_account_call host bucket_ok entry_ok junk R.table name sym db o hC ho
    exact ⟨r, h1, h2, h3⟩
  · intro name o ho
    obtain ⟨_, r, h1, h2, h3, _⟩ := h_remove_account_call R.table name db o hC ho
    exact ⟨r, h1, h2, h3⟩
  · intro name p ho
    obtain ⟨_, r, h1, h2, h3, h4, _⟩ := Y_h_pop_account_call R.table name db p hC ho
    exact ⟨r, h1, h2, h3, h4⟩

/-- Witness of the amended C19: the table of `h_new(0)`, the calls
`h_insert("d", data block 7)`, `Y_h_pop("d")`, and the resource 7; the next call
considered is `h_insert("d", data block 7)` again, which returns 0. -/
theorem reference_accounting_witness :
    h_new 1 8 true true 0 = some (some table0)
      ∧ run host0 table0
          [Call.insert true true [] (some key_d) (db_sym 7), Call.pop (some key_d)]
        = some ⟨table0, [Effect.Ref 7, Effect.h_free_entry key_d], [(OpTable.dataBlockSym, 7)]⟩
      ∧ acquired 7 [Effect.Ref 7, Effect.h_free_entry key_d]
        = released 7 [Effect.Ref 7, Effect.h_free_entry key_d] + holders 7 table0
          + handed 7 [(OpTable.dataBlockSym, 7)]
      ∧ h_insert host0 true true [] table0 (some key_d) (db_sym 7)
          = some ⟨0, table_block, [Effect.Ref 7]⟩
      ∧ ∃ r, h_find table0 (some key_d) = some r
          ∧ acquired 7 [Effect.Ref 7]
            = (if (0 : Int) ≠ -1 ∧ (prepare_symbol host0 (db_sym 7)).ops = OpTable.dataBlockSym
                ∧ (prepare_symbol host0 (db_sym 7)).value = 7 then 1 else 0)
          ∧ released 7 [Effect.Ref 7]
            = (if (0 : Int) = 1 then r.1.toList.countP (holds 7) else 0) :=
  ⟨by decide, by decide,
    (reference_accounting host0 1 8 0 table0 (by decide) (by decide) (by decide)
      [Call.insert true true [] (some key_d) (db_sym 7), Call.pop (some key_d)]
      ⟨table0, [Effect.Ref 7, Effect.h_free_entry key_d], [(OpTable.dataBlockSym, 7)]⟩
      (by decide) 7).1,
    by decide,
    (reference_accounting host0 1 8 0 table0 (by decide) (by decide) (by decide)
      [Call.insert true true [] (some key_d) (db_sym 7), Call.pop (some key_d)]
      ⟨table0, [Effect.Ref 7, Effect.h_free_entry key_d], [(OpTable.dataBlockSym, 7)]⟩
      (by decide) 7).2.2.1 true true [] (some key_d) (db_sym 7)
      ⟨0, table_block, [Effect.Ref 7]⟩ (by decide)⟩

/-! ### `rehash` on its own -/

theorem rehash_chain_take (ns i m : Nat) (hns : 0 < ns) (hm : ns ≤ m) (c : List h_entry) :
    ∀ b : List (List h_entry),
      rehash_chain ns i c (b.take m)
        = ((rehash_chain ns i c b).1, (rehash_chain ns i c b).2.take m) := by
  induction c with
  | nil => intro b; rfl
  | cons e rest ih =>
    intro b
    simp only [rehash_chain]
    have hj : e.hash % ns < m := lt_of_lt_of_le (Nat.mod_lt _ hns) hm
    split
    · rw [ih b]
    · rw [getD_take _ _ _ hj, ← List.set_take, ih]

theorem rehash_loop_take (ns m : Nat) (hns : 0 < ns) (hm : ns ≤ m) (n : Nat) :
    ∀ (i : Nat) (b : List (List h_entry)), i + n ≤ m →
      rehash_loop ns n i (b.take m) = (rehash_loop ns n i b).take m := by
  induction n with
  | zero => intro i b _; rfl
  | succ n ih =>
    intro i b hi
    simp only [rehash_loop]
    rw [getD_take _ _ _ (by omega), rehash_chain_take ns i m hns hm, ← List.set_take,
      ih (i + 1) _ (by omega)]

theorem flat_all_nil (b : List (List h_entry)) (h : ∀ c ∈ b, c = []) : flat b = [] := by
  induction b with
  | nil => rfl
  | cons c b ih =>
    rw [flat_cons, h c (List.mem_cons_self _ _), ih (fun x hx => h x (List.mem_cons_of_mem _ hx))]
    rfl

theorem flat_take_of_empty (b : List (List h_entry)) (s n : Nat) (hsn : s ≤ n)
    (he : ∀ j, s ≤ j → j < n → b.getD j [] = []) :
    flat (b.take n) = flat (b.take s) := by
  have h1 : b.take n = b.take s ++ (b.take n).drop s := by
    have := List.take_append_drop s (b.take n)
    rw [List.take_take, Nat.min_eq_left hsn] at this
    exact this.symm
  have h2 : flat ((b.take n).drop s) = [] := by
    apply flat_all_nil
    intro c hc
    obtain ⟨k, hk, hck⟩ := List.getElem_of_mem hc
    rw [List.length_drop, List.length_take] at hk
    rw [List.getElem_drop, List.getElem_take] at hck
    have := he (s + k) (by omega) (by omega)
    rw [List.getD_eq_getElem?_getD, List.getElem?_eq_getElem (by omega)] at this
    simpa [hck] using this
  conv_lhs => rw [h1]
  rw [flat_append, h2, List.append_nil]

theorem mod_double (h s : Nat) : h % (2 * s) = h % s ∨ h % (2 * s) = h % s + s := by
  rw [Nat.mul_comm, Nat.mod_mul]
  rcases Nat.mod_two_eq_zero_or_one (h / s) with h0 | h1
  · left; rw [h0]; simp
  · right; rw [h1]; simp

theorem mod_double_mod (h s : Nat) : (h % (2 * s)) % s = h % s := by
  rw [Nat.mul_comm]
  exact Nat.mod_mul_right_mod h s 2

theorem rehash_pending (t : h_table) (hp : t.size < t.new_size)
    (hlen : t.new_size ≤ t.bucket.length) :
    (rehash t).size = t.new_size
      ∧ (rehash t).new_size = t.new_size
      ∧ (rehash t).number = t.number
      ∧ List.Perm (entries (rehash t)) (flat (t.bucket.take t.new_size))
      ∧ ((∀ j, t.size ≤ j → j < t.new_size → ∀ e ∈ t.bucket.getD j [],
            e.hash % t.new_size = j) →
          ∀ j, j < t.new_size → ∀ e ∈ (rehash t).bucket.getD j [], e.hash % t.new_size = j) := by
  have hns : 0 < t.new_size := by omega
  have hr : rehash t = { t with
      bucket := rehash_loop t.new_size t.size 0 t.bucket
      size := t.new_size } := by
    unfold rehash
    rw [if_pos hp]
  rw [hr]
  refine ⟨rfl, rfl, rfl, ?_, ?_⟩
  · simp only [entries_eq_flat]
    rw [← rehash_loop_take t.new_size t.new_size hns (le_refl _) t.size 0 t.bucket (by omega)]
    rw [List.perm_iff_count]
    intro a
    exact rehash_loop_count a t.new_size hns t.size 0 _
      (by rw [List.length_take]; omega) (by rw [List.length_take]; omega)
  · intro hup j hj e he
    simp only at he
    rw [← getD_take _ t.new_size j hj,
      ← rehash_loop_take t.new_size t.new_size hns (le_refl _) t.size 0 t.bucket (by omega)] at he
    refine rehash_loop_placed t.new_size t.size 0 _ ?_ j e he
    intro k hk x hx
    by_cases hkn : k < t.new_size
    · rw [getD_take _ _ _ hkn] at hx
      exact hup k (by omega) hkn x hx
    · rw [getD_of_length_le _ _ _ (by rw [List.length_take]; omega)] at hx
      simp at hx

/-- C21: for every table with `new_size = 2*size` whose bucket array holds
`new_size` slots, with every entry of bucket `i < size` having `hash % size = i`
and buckets `size .. new_size-1` empty, `rehash` (a total function) returns a
table with `size = new_size` in which every entry of bucket `j` has
`hash % new_size = j`, that is `j` is the old bucket `hash % size` of the entry
or that bucket plus the old size, and each entry that was in bucket `i` is in
bucket `i` or `i + size`; the entries are the same (a permutation of
those before: none created, destroyed or changed), and the entry count is
unchanged.  That `size` is a power of two is not needed. -/
theorem rehash_postcondition (t : h_table) (hns : t.new_size = 2 * t.size)
    (hlen : t.new_size ≤ t.bucket.length)
    (hplaced : ∀ i, i < t.size → ∀ e ∈ t.bucket.getD i [], e.hash % t.size = i)
    (hempty : ∀ j, t.size ≤ j → j < t.new_size → t.bucket.getD j [] = []) :
    (rehash t).size = t.new_size
      ∧ (rehash t).new_size = t.new_size
      ∧ (rehash t).number = t.number
      ∧ (∀ j, j < t.new_size → ∀ e ∈ (rehash t).bucket.getD j [],
          e.hash % t.new_size = j ∧ (j = e.hash % t.size ∨ j = e.hash % t.size + t.size))
      ∧ (∀ i, i < t.size → ∀ e ∈ t.bucket.getD i [],
          e ∈ (rehash t).bucket.getD i [] ∨ e ∈ (rehash t).bucket.getD (i + t.size) [])
      ∧ List.Perm (entries (rehash t)) (entries t)
      ∧ (entries (rehash t)).length = (entries t).length := by
  by_cases h0 : t.size = 0
  · have hn0 : t.new_size = 0 := by omega
    rw [rehash_of_not_pending t (by omega)]
    exact ⟨by omega, rfl, rfl, fun j hj => by omega, fun i hi => by omega, List.Perm.refl _, rfl⟩
  · have hp : t.size < t.new_size := by omega
    obtain ⟨h1, h2, h3, h4, h5⟩ := rehash_pending t hp hlen
    have hflat := flat_take_of_empty t.bucket t.size t.new_size (by omega) hempty
    rw [hflat, ← entries_eq_flat] at h4
    have h6 := h5 (fun k hk1 hk2 x hx => by rw [hempty k hk1 hk2] at hx; simp at hx)
    have hl : (rehash t).size ≤ (rehash t).bucket.length := by
      rw [h1, rehash_bucket_length]; exact hlen
    refine ⟨h1, h2, h3, ?_, ?_, h4, h4.length_eq⟩
    · intro j hj e he
      have hj2 := h6 j hj e he
      refine ⟨hj2, ?_⟩
      rw [← hj2, hns]
      exact mod_double e.hash t.size
    · intro i hi e he
      have hm : e ∈ entries (rehash t) :=
        h4.symm.subset ((mem_entries t (by omega) e).2 ⟨i, hi, he⟩)
      obtain ⟨j, hj, hej⟩ := (mem_entries (rehash t) hl e).1 hm
      rw [h1] at hj
      have hj2 := h6 j hj e hej
      have hi2 := hplaced i hi e he
      rcases mod_double e.hash t.size with h7 | h7
      · left
        have : j = i := by rw [← hj2, hns, h7, hi2]
        rw [← this]; exact hej
      · right
        have : j = i + t.size := by rw [← hj2, hns, h7, hi2]
        rw [← this]; exact hej

/-- Witness of C21: the table doubled from 2 to 4 buckets with `"b"` and `"d"`
in bucket 0; after `rehash`, `"d"` is in bucket 0 and `"b"` in bucket 2. -/
theorem rehash_postcondition_witness :
    table_doubled.new_size = 2 * table_doubled.size
      ∧ (rehash table_doubled).bucket
          = [[⟨OpTable.longScalar, 1, 100, key_d⟩], [],
              [⟨OpTable.longScalar, 5, 98, key_b⟩], []]
      ∧ (rehash table_doubled).size = table_doubled.new_size
      ∧ List.Perm (entries (rehash table_doubled)) (entries table_doubled) :=
  ⟨by decide, by decide,
    (rehash_postcondition table_doubled (by decide) (by decide) (by decide)
      (fun j h1 h2 => by
        have h3 : j < 4 := h2
        have h4 : 2 ≤ j := h1
        interval_cases j <;> rfl)).1,
    (rehash_postcondition table_doubled (by decide) (by decide) (by decide)
      (fun j h1 h2 => by
        have h3 : j < 4 := h2
        have h4 : 2 ≤ j := h1
        interval_cases j <;> rfl)).2.2.2.2.2.1⟩

/-- C22: started on any partially migrated table (`new_size = 2*size`, the
bucket array holding `new_size` slots, each entry of bucket `j` having
`j = hash % size` or already `j = hash % new_size`), `rehash` returns a table
with `size = new_size` holding the same entries (a permutation of those of
buckets `0 .. new_size-1`), each in bucket `hash % new_size`; this is sound
because `(h mod 2s) mod s = h mod s`.  On a table with `new_size = size` it
changes nothing, and `rehash (rehash T) = rehash T` for every table. -/
theorem rehash_resumable (t : h_table) (hns : t.new_size = 2 * t.size)
    (hlen : t.new_size ≤ t.bucket.length)
    (hmig : ∀ j, j < t.new_size → ∀ e ∈ t.bucket.getD j [],
      j = e.hash % t.size ∨ j = e.hash % t.new_size) :
    (rehash t).size = t.new_size
      ∧ (rehash t).new_size = t.new_size
      ∧ (rehash t).number = t.number
      ∧ (∀ j, j < t.new_size → ∀ e ∈ (rehash t).bucket.getD j [], e.hash % t.new_size = j)
      ∧ List.Perm (entries (rehash t)) (flat (t.bucket.take t.new_size))
      ∧ (∀ h s : Nat, (h % (2 * s)) % s = h % s)
      ∧ (∀ u : h_table, u.new_size = u.size → rehash u = u)
      ∧ (∀ u : h_table, rehash (rehash u) = rehash u) := by
  refine ⟨?_, ?_, ?_, ?_, ?_, mod_double_mod,
    fun u hu => rehash_of_not_pending u (le_of_eq hu), rehash_idem⟩
  all_goals by_cases h0 : t.size = 0
  · rw [rehash_of_not_pending t (by omega)]; omega
  · exact (rehash_pending t (by omega) hlen).1
  · rw [rehash_of_not_pending t (by omega)]
  · exact (rehash_pending t (by omega) hlen).2.1
  · rw [rehash_of_not_pending t (by omega)]
  · exact (rehash_pending t (by omega) hlen).2.2.1
  · intro j hj; omega
  · refine (rehash_pending t (by omega) hlen).2.2.2.2 ?_
    intro j hj1 hj2 e he
    rcases hmig j hj2 e he with h1 | h1
    · have := Nat.mod_lt e.hash (Nat.pos_of_ne_zero h0)
      omega
    · exact h1.symm
  · rw [rehash_of_not_pending t (by omega), entries_eq_flat]
    have : t.new_size = t.size := by omega
    rw [this]
  · exact (rehash_pending t (by omega) hlen).2.2.2.1

/-- Witness of C22: the table in the middle of a rehash from 2 to 4 buckets,
whose entry `"b"` is already in bucket 2. -/
theorem rehash_resumable_witness :
    table_migrating.new_size = 2 * table_migrating.size
      ∧ (∀ j, j < table_migrating.new_size → ∀ e ∈ table_migrating.bucket.getD j [],
          j = e.hash % table_migrating.size ∨ j = e.hash % table_migrating.new_size)
      ∧ (rehash table_migrating).size = table_migrating.new_size
      ∧ List.Perm (entries (rehash table_migrating))
          (flat (table_migrating.bucket.take table_migrating.new_size)) :=
  ⟨by decide, by decide,
    (rehash_resumable table_migrating (by decide) (by decide) (by decide)).1,
    (rehash_resumable table_migrating (by decide) (by decide) (by decide)).2.2.2.2.1⟩

/-! ### The steps of a table, entry by entry -/

theorem find_chain_some_mem (hash : Nat) (name : List Nat) (len : Nat) (e : h_entry) :
    ∀ c : List h_entry, find_chain hash name len c = some e →
      e ∈ c ∧ H_MATCH e hash name len = true := by
  intro c
  induction c with
  | nil => intro h; simp [find_chain] at h
  | cons x c ih =>
    intro h
    unfold find_chain at h
    by_cases hm : H_MATCH x hash name len = true
    · rw [if_pos hm] at h
      simp only [Option.some.injEq] at h
      subst h
      exact ⟨List.mem_cons_self _ _, hm⟩
    · rw [if_neg hm] at h
      exact ⟨List.mem_cons_of_mem _ (ih h).1, (ih h).2⟩

theorem no_match_entries (t : h_table) (h : Consistent t) (name : List Nat) (hash len : Nat)
    (hf : find_chain hash name len
        (t.bucket.getD (hash % t.size) []) = none) :
    ∀ e ∈ entries t, H_MATCH e hash name len = false := by
  intro e he
  by_contra hc
  have hc1 : H_MATCH e hash name len = true := by
    cases hm : H_MATCH e hash name len
    · exact absurd hm hc
    · rfl
  obtain ⟨x, hx, hxm⟩ := (chain_match_iff t h name hash len).2 ⟨e, he, hc1⟩
  rw [(find_chain_none _ _ _ _).1 hf x hx] at hxm
  exact Bool.noConfusion hxm

theorem h_insert_step (host : Host) (bucket_ok entry_ok : Bool) (junk : List Nat)
    (t : h_table) (name : List Nat) (hash len : Nat) (sym : Symbol) (h : Consistent t) :
    ((h_insert_hashed host bucket_ok entry_ok junk t name hash len sym).result = 1
        ∧ (h_insert_hashed host bucket_ok entry_ok junk t name hash len sym).table.size = t.size
        ∧ (h_insert_hashed host bucket_ok entry_ok junk t name hash len sym).table.new_size = t.new_size
        ∧ (h_insert_hashed host bucket_ok entry_ok junk t name hash len sym).table.number = t.number
        ∧ ∃ e, e ∈ entries t ∧ H_MATCH e hash name len = true
          ∧ List.Perm (e :: entries (h_insert_hashed host bucket_ok entry_ok junk t name hash len sym).table)
              (⟨(prepare_symbol host sym).ops, (prepare_symbol host sym).value, e.hash, e.name⟩
                :: entries t))
      ∨ ((h_insert_hashed host bucket_ok entry_ok junk t name hash len sym).result = -1
        ∧ (bucket_ok = false ∨ entry_ok = false)
        ∧ (∀ e ∈ entries t, H_MATCH e hash name len = false)
        ∧ ((h_insert_hashed host bucket_ok entry_ok junk t name hash len sym).table = t
          ∨ grow bucket_ok t = some (h_insert_hashed host bucket_ok entry_ok junk t name hash len sym).table))
      ∨ ((h_insert_hashed host bucket_ok entry_ok junk t name hash len sym).result = 0
        ∧ entry_ok = true
        ∧ (∀ e ∈ entries t, H_MATCH e hash name len = false)
        ∧ ∃ g, grow bucket_ok t = some g
          ∧ (h_insert_hashed host bucket_ok entry_ok junk t name hash len sym).table.size = g.size
          ∧ (h_insert_hashed host bucket_ok entry_ok junk t name hash len sym).table.new_size = g.new_size
          ∧ (h_insert_hashed host bucket_ok entry_ok junk t name hash len sym).table.number
              = (g.number + 1) % UINT
          ∧ List.Perm (entries (h_insert_hashed host bucket_ok entry_ok junk t name hash len sym).table)
              (⟨(prepare_symbol host sym).ops, (prepare_symbol host sym).value,
                  hash, stored_name junk name len⟩ :: entries g)) := by
  have hrt := rehash_of_not_pending t h.1.2.2
  cases hrep : replace_chain hash name len (prepare_symbol host sym)
      (t.bucket.getD (hash % t.size) []) with
  | some r =>
    obtain ⟨chain, effects⟩ := r
    have hrep1 := hrep
    rw [← hrt] at hrep1
    left
    rw [h_insert_replace host bucket_ok entry_ok junk t name hash len sym chain effects hrep1]
    have hc := Consistent_replace t
      { rehash t with
        bucket := (rehash t).bucket.set (hash % (rehash t).size) chain }
      name hash len _ chain effects h hrep (by simp only [hrt]) (by simp only [hrt])
      (by simp only [hrt]) (by simp only [hrt])
    obtain ⟨_, e, hf, _, hp⟩ := hc
    have hm := find_chain_some_mem _ _ _ e _ hf
    refine ⟨rfl, by simp only [hrt], by simp only [hrt], by simp only [hrt], e, ?_, hm.2, hp⟩
    exact (mem_entries t h.1.2.1 e).2 ⟨_, Nat.mod_lt _ h.1.1, hm.1⟩
  | none =>
    have hrep1 := hrep
    rw [← hrt] at hrep1
    have hno := no_match_entries t h name hash len ((replace_chain_none _ _ _ _ _).1 hrep)
    cases hg : grow bucket_ok (rehash t) with
    | none =>
      right; left
      have hb : bucket_ok = false := by
        cases bucket_ok with
        | false => rfl
        | true =>
          obtain ⟨g, hg2, _⟩ := grow_true (rehash t)
          rw [hg] at hg2
          exact Option.noConfusion hg2
      rw [h_insert_no_bucket host bucket_ok entry_ok junk t name hash len sym hrep1 hg, hrt]
      exact ⟨rfl, Or.inl hb, hno, Or.inl rfl⟩
    | some grown =>
      have hg1 : grow bucket_ok t = some grown := by rw [hrt] at hg; exact hg
      have hgc : Consistent grown := Consistent_grow bucket_ok t grown h hg1
      cases entry_ok with
      | false =>
        right; left
        rw [h_insert_no_entry host bucket_ok junk t grown name hash len sym hrep1 hg]
        exact ⟨rfl, Or.inr rfl, hno, Or.inr hg1⟩
      | true =>
        right; right
        rw [h_insert_create host bucket_ok junk t grown name hash len sym hrep1 hg]
        refine ⟨rfl, rfl, hno, grown, hg1, rfl, rfl, rfl, ?_⟩
        refine (Consistent_link grown _ hash
          ⟨(prepare_symbol host sym).ops, (prepare_symbol host sym).value, hash,
            stored_name junk name len⟩ hgc ?_ ?_ ?_ ?_ ?_).2 <;> rfl

theorem h_remove_step (t : h_table) (name : List Nat) (hash len : Nat) (h : Consistent t) :
    ((h_remove_hashed t name hash len).result = 0 ∧ (h_remove_hashed t name hash len).table = t)
      ∨ ((h_remove_hashed t name hash len).result = 1
        ∧ (h_remove_hashed t name hash len).table.size = t.size
        ∧ (h_remove_hashed t name hash len).table.new_size = t.new_size
        ∧ ∃ e, H_MATCH e hash name len = true
          ∧ List.Perm (entries t) (e :: entries (h_remove_hashed t name hash len).table)) := by
  have hrt := rehash_of_not_pending t h.1.2.2
  cases hr : remove_chain hash name len
      (t.bucket.getD (hash % t.size) []) with
  | none =>
    have hr1 := hr
    rw [← hrt] at hr1
    left
    rw [h_remove_none t name hash len hr1, hrt]
    exact ⟨rfl, rfl⟩
  | some r =>
    obtain ⟨e, chain⟩ := r
    have hr1 := hr
    rw [← hrt] at hr1
    right
    rw [h_remove_some t name hash len e chain hr1]
    have hc := Consistent_unlink t
      { rehash t with
        bucket := (rehash t).bucket.set (hash % (rehash t).size) chain
        number := h_uint_dec (rehash t).number }
      name hash len e chain h hr (by simp only [hrt]) (by simp only [hrt])
      (by simp only [hrt]) (by simp only [hrt])
    refine ⟨rfl, by simp only [hrt], by simp only [hrt], e, ?_, hc.2⟩
    exact (find_chain_some_mem _ _ _ e _ (remove_chain_find _ _ _ _ _ _ hr)).2

theorem Y_h_pop_step (t : h_table) (name : List Nat) (hash len : Nat) (h : Consistent t) :
    ((Y_h_pop_hashed t name hash len).1 = none ∧ (Y_h_pop_hashed t name hash len).2.1 = t)
      ∨ ((Y_h_pop_hashed t name hash len).2.1.size = t.size
        ∧ (Y_h_pop_hashed t name hash len).2.1.new_size = t.new_size
        ∧ ∃ e, (Y_h_pop_hashed t name hash len).1 = some (e.sym_ops, e.sym_value)
          ∧ H_MATCH e hash name len = true
          ∧ List.Perm (entries t) (e :: entries (Y_h_pop_hashed t name hash len).2.1)) := by
  cases hr : remove_chain hash name len
      (t.bucket.getD (hash % t.size) []) with
  | none =>
    left
    rw [Y_h_pop_none t name hash len hr]
    exact ⟨rfl, rfl⟩
  | some r =>
    obtain ⟨e, chain⟩ := r
    right
    rw [Y_h_pop_some t name hash len e chain hr]
    have hc := Consistent_unlink t
      { t with
        bucket := t.bucket.set (hash % t.size) chain
        number := h_uint_dec t.number }
      name hash len e chain h hr rfl rfl rfl rfl
    exact ⟨rfl, rfl, e, rfl,
      (find_chain_some_mem _ _ _ e _ (remove_chain_find _ _ _ _ _ _ hr)).2, hc.2⟩

theorem Reachable_induct (host : Host) (P : h_table → Prop)
    (hnew : ∀ fuel sizeof_ptr number t,
      h_new fuel sizeof_ptr true true number = some (some t) →
      0 < t.size → t.size ≤ t.bucket.length → P t)
    (hgrow : ∀ b t g, Consistent t → P t → grow b t = some g → P g)
    (hlink : ∀ b t g t1 new, Consistent t → P t → grow b t = some g →
      t1.size = g.size → t1.new_size = g.new_size →
      List.Perm (entries t1) (new :: entries g) → P t1)
    (hrepl : ∀ t t1 e ops v, Consistent t → P t → e ∈ entries t →
      t1.size = t.size → t1.new_size = t.new_size →
      List.Perm (e :: entries t1) (⟨ops, v, e.hash, e.name⟩ :: entries t) → P t1)
    (hunlink : ∀ t t1 e, Consistent t → P t → t1.size = t.size → t1.new_size = t.new_size →
      List.Perm (entries t) (e :: entries t1) → P t1) :
    ∀ t, Reachable host t → P t := by
  refine Reachable_hashed_induct host P hnew ?_ ?_ ?_ ?_
  · intro bucket_ok entry_ok junk t name hash len sym hr ih _
    have hc := Reachable_Consistent host t hr
    rcases h_insert_step host bucket_ok entry_ok junk t name hash len sym hc with
      ⟨_, h2, h3, _, e, he, _, hp⟩ | ⟨_, _, _, h3 | h3⟩ | ⟨_, _, _, g, hg, h4, h5, _, hp⟩
    · exact hrepl t _ e _ _ hc ih he h2 h3 hp
    · rw [h3]; exact ih
    · exact hgrow bucket_ok t _ hc ih h3
    · exact hlink bucket_ok t g _ _ hc ih hg h4 h5 hp
  · intro t name hash len hr ih _
    have hc := Reachable_Consistent host t hr
    rcases h_remove_step t name hash len hc with ⟨_, h2⟩ | ⟨_, h2, h3, e, _, hp⟩
    · rw [h2]; exact ih
    · exact hunlink t _ e hc ih h2 h3 hp
  · intro t name hash len hr ih _
    have hc := Reachable_Consistent host t hr
    simp only [h_find_hashed, rehash_of_not_pending t hc.1.2.2]
    exact ih
  · intro t name hash len hr ih _
    have hc := Reachable_Consistent host t hr
    rcases Y_h_pop_step t name hash len hc with ⟨_, h2⟩ | ⟨h2, h3, e, _, _, hp⟩
    · rw [h2]; exact ih
    · exact hunlink t _ e hc ih h2 h3 hp

/-! ### Sizes and load -/

theorem h_new_entries (fuel sizeof_ptr number : Nat) (t : h_table)
    (h : h_new fuel sizeof_ptr true true number = some (some t)) : entries t = [] := by
  unfold h_new at h
  split at h
  · simp at h
  · simp only [Bool.and_self, if_true, Option.some.injEq] at h
    subst h
    simp only [entries_eq_flat, List.take_replicate, flat_replicate_nil]

theorem h_new_loop_pow2 (number : Nat) :
    ∀ fuel s r, (s = 0 ∨ ∃ j, j ≤ 31 ∧ s = 2 ^ j) → h_new_loop fuel s number = some r →
      (r = 0 ∨ ∃ j, j ≤ 31 ∧ r = 2 ^ j) := by
  intro fuel
  induction fuel with
  | zero => intro s r _ h; simp [h_new_loop] at h
  | succ fuel ih =>
    intro s r hs h
    unfold h_new_loop at h
    by_cases hlt : s < number
    · rw [if_pos hlt] at h
      refine ih _ r ?_ h
      rcases hs with hs | ⟨j, hj, hs⟩
      · left; rw [hs]; rfl
      · by_cases hj30 : j ≤ 30
        · right
          exact ⟨j + 1, by omega, by rw [hs, shift_one_pow j hj30]⟩
        · left
          have : j = 31 := by omega
          rw [hs, this]
          decide
    · rw [if_neg hlt] at h
      simp only [Option.some.injEq] at h
      rw [← h]
      exact hs

theorem h_new_size_pow2 (fuel sizeof_ptr number : Nat) (t : h_table)
    (h : h_new fuel sizeof_ptr true true number = some (some t)) (h0 : 0 < t.size) :
    ∃ k, 1 ≤ k ∧ k ≤ 31 ∧ t.size = 2 ^ k := by
  have hns := h_new_sizes fuel sizeof_ptr number t h
  unfold h_new at h
  cases hl : h_new_loop fuel 1 number with
  | none => rw [hl] at h; simp at h
  | some r =>
    rw [hl] at h
    simp only [Bool.and_self, if_true, Option.some.injEq] at h
    have hsz : t.size = (r <<< 1) % UINT := by rw [← h]
    rcases h_new_loop_pow2 number fuel 1 r (Or.inr ⟨0, by omega, by norm_num⟩) hl with
      hr | ⟨j, hj, hr⟩
    · rw [hr] at hsz
      have : t.size = 0 := by rw [hsz]; rfl
      omega
    · by_cases hj30 : j ≤ 30
      · exact ⟨j + 1, by omega, by omega, by rw [hsz, hr, shift_one_pow j hj30]⟩
      · have hj31 : j = 31 := by omega
        rw [hr, hj31] at hsz
        have : t.size = 0 := by rw [hsz]; decide
        omega

theorem rehash_cases (t : h_table) :
    (t.size < t.new_size ∧ (rehash t).size = t.new_size ∧ (rehash t).new_size = t.new_size)
      ∨ (¬ t.size < t.new_size ∧ rehash t = t) := by
  by_cases h : t.size < t.new_size
  · left
    refine ⟨h, ?_, ?_⟩ <;>
    · unfold rehash
      rw [if_pos h]
  · right
    exact ⟨h, rehash_of_not_pending t (by omega)⟩

theorem grow_cases (b : Bool) (t g : h_table) (hg : grow b t = some g) :
    (g = t ∧ ¬ ((((t.number + 1) % UINT) <<< 1) % UINT > t.size))
      ∨ ((((t.number + 1) % UINT) <<< 1) % UINT > t.size ∧ b = true
        ∧ g.new_size = (2 * t.size) % UINT
        ∧ ((t.size < (2 * t.size) % UINT ∧ g.size = (2 * t.size) % UINT)
          ∨ (¬ t.size < (2 * t.size) % UINT ∧ g.size = t.size))) := by
  unfold grow at hg
  split at hg
  · rename_i htr
    right
    split at hg
    · rename_i hb
      simp only [Option.some.injEq] at hg
      subst hg
      refine ⟨htr, hb, ?_, ?_⟩
      · rcases rehash_cases { t with
            bucket := t.bucket.take t.size ++ List.replicate t.size []
            new_size := (2 * t.size) % UINT } with ⟨_, _, h3⟩ | ⟨_, h2⟩
        · exact h3
        · rw [h2]
      · rcases rehash_cases { t with
            bucket := t.bucket.take t.size ++ List.replicate t.size []
            new_size := (2 * t.size) % UINT } with ⟨h1, h2, _⟩ | ⟨h1, h2⟩
        · left; exact ⟨h1, h2⟩
        · right; refine ⟨h1, ?_⟩; rw [h2]
    · simp at hg
  · rename_i htr
    left
    simp only [Option.some.injEq] at hg
    exact ⟨hg.symm, htr⟩

theorem Sized_grow (b : Bool) (t g : h_table) (hc : Consistent t) (hs : Sized t)
    (hg : grow b t = some g) :
    ∃ k, 1 ≤ k ∧ k ≤ 31 ∧ g.size = 2 ^ k
      ∧ (g.new_size = g.size ∨ (k = 31 ∧ g.new_size = 0))
      ∧ (2 * ((entries g).length + 1) ≤ g.size ∨ k = 31) := by
  obtain ⟨k, hk1, hk31, hsz, hns, hload⟩ := hs
  have hlen := (grow_entries b t g hc.1 hg).length_eq
  have hcount : t.number = (entries t).length % UINT := hc.2.2
  have h2 : 2 ≤ 2 ^ k := by
    calc 2 = 2 ^ 1 := by norm_num
      _ ≤ 2 ^ k := Nat.pow_le_pow_right (by norm_num) hk1
  by_cases hk : k = 31
  · have hsz31 : t.size = 2147483648 := by rw [hsz, hk]; norm_num
    rcases grow_cases b t g hg with ⟨h1, _⟩ | ⟨_, _, h3, h4⟩
    · subst h1
      exact ⟨k, hk1, hk31, hsz, hns, Or.inr hk⟩
    · have hgs : g.size = t.size := by
        rcases h4 with ⟨h5, _⟩ | ⟨_, h5⟩
        · rw [hsz31] at h5; simp only [UINT] at h5; omega
        · exact h5
      refine ⟨k, hk1, hk31, by rw [hgs]; exact hsz, Or.inr ⟨hk, ?_⟩, Or.inr hk⟩
      rw [h3, hsz31]; decide
  · have hk30 : k ≤ 30 := by omega
    have hle : 2 ^ k ≤ 1073741824 := by
      calc 2 ^ k ≤ 2 ^ 30 := Nat.pow_le_pow_right (by norm_num) hk30
        _ = 1073741824 := by norm_num
    have hl : 2 * (entries t).length ≤ t.size := by
      rcases hload with h | h
      · exact h
      · exact absurd h hk
    have hnn : t.new_size = t.size := by
      rcases hns with h | h
      · exact h
      · exact absurd h.1 hk
    rcases grow_cases b t g hg with ⟨h1, h0⟩ | ⟨_, _, h3, h4⟩
    · subst h1
      refine ⟨k, hk1, hk31, hsz, Or.inl hnn, Or.inl ?_⟩
      rw [Nat.shiftLeft_eq, pow_one] at h0
      simp only [UINT] at h0 hcount
      omega
    · have hd : (2 * t.size) % UINT = 2 ^ (k + 1) := by
        rw [pow_succ, hsz]
        simp only [UINT]
        omega
      have hgs : g.size = 2 ^ (k + 1) := by
        rcases h4 with ⟨_, h5⟩ | ⟨h5, _⟩
        · rw [h5, hd]
        · rw [hd, pow_succ, hsz] at h5; omega
      refine ⟨k + 1, by omega, by omega, hgs, Or.inl (by rw [h3, hd, hgs]), Or.inl ?_⟩
      rw [hgs, pow_succ, hlen]
      omega

theorem Reachable_Sized (host : Host) (t : h_table) (h : Reachable host t) : Sized t := by
  refine Reachable_induct host Sized ?_ ?_ ?_ ?_ ?_ t h
  · intro fuel sizeof_ptr number t hn h0 _
    obtain ⟨k, h1, h2, h3⟩ := h_new_size_pow2 fuel sizeof_ptr number t hn h0
    refine ⟨k, h1, h2, h3, Or.inl (h_new_sizes fuel sizeof_ptr number t hn), Or.inl ?_⟩
    rw [h_new_entries fuel sizeof_ptr number t hn]
    simp
  · intro b t g hc hp hg
    obtain ⟨k, h1, h2, h3, h4, h5⟩ := Sized_grow b t g hc hp hg
    refine ⟨k, h1, h2, h3, h4, ?_⟩
    rcases h5 with h5 | h5
    · left; omega
    · right; exact h5
  · intro b t g t1 new hc hp hg hs hn hperm
    obtain ⟨k, h1, h2, h3, h4, h5⟩ := Sized_grow b t g hc hp hg
    refine ⟨k, h1, h2, by rw [hs]; exact h3, by rw [hs, hn]; exact h4, ?_⟩
    rw [hperm.length_eq, List.length_cons, hs]
    exact h5
  · intro t t1 e ops v _ hp _ hs hn hperm
    obtain ⟨k, h1, h2, h3, h4, h5⟩ := hp
    refine ⟨k, h1, h2, by rw [hs]; exact h3, by rw [hs, hn]; exact h4, ?_⟩
    have := hperm.length_eq
    simp only [List.length_cons] at this
    rw [hs]
    omega
  · intro t t1 e _ hp hs hn hperm
    obtain ⟨k, h1, h2, h3, h4, h5⟩ := hp
    refine ⟨k, h1, h2, by rw [hs]; exact h3, by rw [hs, hn]; exact h4, ?_⟩
    have := hperm.length_eq
    simp only [List.length_cons] at this
    rw [hs]
    omega

/-! ### Inserting distinct keys -/

theorem strncmp_eq_zero : ∀ (n : Nat) (s1 s2 : List Nat), s1.length = n →
    (∀ b ∈ s1, b ≠ 0) → strncmp s1 s2 n = 0 → s2.take n = s1 := by
  intro n
  induction n with
  | zero =>
    intro s1 s2 hl _ _
    rw [List.take_zero]
    exact (List.length_eq_zero.1 hl).symm
  | succ n ih =>
    intro s1 s2 hl hz h
    cases s1 with
    | nil => simp at hl
    | cons a s1 =>
      have ha : a ≠ 0 := hz a (List.mem_cons_self _ _)
      cases s2 with
      | nil =>
        unfold strncmp at h
        simp only [List.headD_cons, List.headD_nil] at h
        rw [if_pos ha] at h
        omega
      | cons b s2 =>
        unfold strncmp at h
        simp only [List.headD_cons, List.tail_cons] at h
        by_cases hab : a = b
        · subst hab
          rw [if_neg (by simp), if_neg ha] at h
          rw [List.take_succ_cons,
            ih s1 s2 (by simpa using hl) (fun x hx => hz x (List.mem_cons_of_mem _ hx)) h]
        · rw [if_pos hab] at h
          omega

theorem stored_name_short (junk name : List Nat) (h : name.length + 1 < UINT) :
    stored_name junk name name.length = name := by
  unfold stored_name
  rw [if_neg (by rw [Nat.mod_eq_of_lt h]; omega), List.take_length]

theorem h_find_no_match (t : h_table) (hc : Consistent t) (name : List Nat) (hash len : Nat)
    (hh : H_HASH name = some (hash, len))
    (hno : ∀ e ∈ entries t, H_MATCH e hash name len = false) :
    h_find t (some name) = some (none, t) := by
  rw [h_find_eq t name hash len hh (Consistent_size_ne t hc).1,
    h_find_of_Inv t name hash len hc.1.2.2]
  have hf : find_chain hash name len (t.bucket.getD (hash % t.size) []) = none := by
    rw [find_chain_none]
    intro e he
    exact hno e ((mem_entries t hc.1.2.1 e).2 ⟨_, Nat.mod_lt _ hc.1.1, he⟩)
  rw [hf]

theorem h_insert_fresh (host : Host) (junk : List Nat) (t : h_table) (hr : Reachable host t)
    (k : List Nat) (sym : Symbol) (hz : ∀ b ∈ k, b ≠ 0) (hl : k.length + 1 < UINT)
    (hfresh : ∀ e ∈ entries t, e.name.length = k.length ∧ e.name ≠ k) :
    ∃ o g, h_insert host true true junk t (some k) sym = some o
      ∧ h_find t (some k) = some (none, t)
      ∧ o.result = 0
      ∧ grow true t = some g
      ∧ o.table.size = g.size
      ∧ o.table.new_size = g.new_size
      ∧ o.table.number = (g.number + 1) % UINT
      ∧ List.Perm (entries o.table)
          (⟨(prepare_symbol host sym).ops, (prepare_symbol host sym).value, spec_hash_fold k, k⟩
            :: entries t) := by
  have hc := Reachable_Consistent host t hr
  have hh := H_HASH_of_no_zero k hz (by omega)
  rw [h_insert_eq host true true junk t k _ _ sym hh (Consistent_size_ne t hc).1]
  rcases h_insert_step host true true junk t k (spec_hash_fold k) k.length sym hc with
    ⟨_, _, _, _, e, he, hm, _⟩ | ⟨_, hb | hb, _⟩ | ⟨h1, _, hno, g, hg, h2, h3, h4, hp⟩
  · exfalso
    unfold H_MATCH at hm
    simp only [Bool.and_eq_true, beq_iff_eq] at hm
    have h5 := strncmp_eq_zero k.length k e.name rfl hz hm.2
    rw [← (hfresh e he).1, List.take_length] at h5
    exact (hfresh e he).2 h5
  · exact Bool.noConfusion hb
  · exact Bool.noConfusion hb
  · refine ⟨_, g, rfl, h_find_no_match t hc k _ _ hh hno, h1, hg, h2, h3, h4, ?_⟩
    rw [stored_name_short junk k hl] at hp
    exact hp.trans (List.Perm.cons _ (grow_entries true t g hc.1 hg))

theorem insert_all_fresh (host : Host) (sym : Symbol) (L : Nat) (hL : L + 1 < UINT) :
    ∀ (ks : List (List Nat)) (t : h_table), Reachable host t → ks.Nodup →
      (∀ k ∈ ks, k.length = L ∧ ∀ b ∈ k, b ≠ 0) →
      (∀ e ∈ entries t, e.name.length = L ∧ e.name ∉ ks) →
      ∃ T, insert_all host t (ks.map (fun k => (k, sym))) = some T
        ∧ Reachable host T
        ∧ List.Perm ((entries T).map h_entry.name) (ks ++ (entries t).map h_entry.name) := by
  intro ks
  induction ks with
  | nil => intro t hr _ _ _; exact ⟨t, rfl, hr, List.Perm.refl _⟩
  | cons k ks ih =>
    intro t hr hnd hk he
    have hk1 := hk k (List.mem_cons_self _ _)
    obtain ⟨o, g, ho, _, _, _, _, _, _, hp⟩ := h_insert_fresh host [] t hr k sym hk1.2
      (by rw [hk1.1]; exact hL)
      (fun e hx => ⟨by rw [(he e hx).1, hk1.1],
        fun h => (he e hx).2 (by rw [h]; exact List.mem_cons_self _ _)⟩)
    have hnd2 := List.nodup_cons.1 hnd
    obtain ⟨T, hT, hrT, h1⟩ := ih o.table
      (Reachable.insert true true [] t (some k) sym o hr ho) hnd2.2
      (fun x hx => hk x (List.mem_cons_of_mem _ hx))
      (fun e hx => by
        rcases List.mem_cons.1 (hp.subset hx) with h | h
        · subst h
          exact ⟨hk1.1, hnd2.1⟩
        · exact ⟨(he e h).1, fun hm => (he e h).2 (List.mem_cons_of_mem _ hm)⟩)
    refine ⟨T, ?_, hrT, ?_⟩
    · rw [List.map_cons]
      simp only [insert_all, ho]
      exact hT
    · refine h1.trans ?_
      have h2 := hp.map h_entry.name
      rw [List.map_cons] at h2
      refine (List.Perm.append_left ks h2).trans ?_
      exact List.perm_middle

theorem insert_family (key : Nat → List Nat) (L bound n : Nat) (hL : L + 1 < UINT)
    (hinj : ∀ x y, x < bound → y < bound → key x = key y → x = y)
    (hz : ∀ i, ∀ b ∈ key i, b ≠ 0) (hlen : ∀ i, (key i).length = L) (hn : n ≤ bound) :
    ∃ T, insert_all host0 table0 (((List.range n).map key).map (fun k => (k, long_sym 0)))
          = some T
      ∧ Reachable host0 T
      ∧ List.Perm ((entries T).map h_entry.name) ((List.range n).map key) := by
  have hnd : ((List.range n).map key).Nodup := by
    refine List.Nodup.map_on ?_ (List.nodup_range n)
    intro x hx y hy hxy
    rw [List.mem_range] at hx hy
    exact hinj x y (by omega) (by omega) hxy
  have hks : ∀ k ∈ (List.range n).map key, k.length = L ∧ ∀ b ∈ k, b ≠ 0 := by
    intro k hk
    obtain ⟨i, _, hi⟩ := List.mem_map.1 hk
    subst hi
    exact ⟨hlen i, hz i⟩
  have hnone : ∀ e ∈ entries table0, e.name.length = L ∧ e.name ∉ (List.range n).map key := by
    intro e he
    have : entries table0 = [] := rfl
    rw [this] at he
    simp at he
  obtain ⟨T, hT, hr, h⟩ := insert_all_fresh host0 (long_sym 0) L hL ((List.range n).map key)
    table0 Reachable_table0 hnd hks hnone
  have he : (entries table0).map h_entry.name = [] := rfl
  rw [he, List.append_nil] at h
  exact ⟨T, hT, hr, h⟩

/-- The table left by the insertion of the first `n` keys of a family of
distinct keys: `number` is `n` as a `h_uint_t`, the chains hold `n` entries, and
the next key of the family is the name of no entry. -/
theorem insert_family_shape (key : Nat → List Nat) (L bound n : Nat) (hL : L + 1 < UINT)
    (hinj : ∀ x y, x < bound → y < bound → key x = key y → x = y)
    (hz : ∀ i, ∀ b ∈ key i, b ≠ 0) (hlen : ∀ i, (key i).length = L) (hn : n < bound) :
    ∃ T, insert_all host0 table0 (((List.range n).map key).map (fun k => (k, long_sym 0)))
          = some T
      ∧ Reachable host0 T
      ∧ T.number = n % UINT
      ∧ (entries T).length = n
      ∧ chain_length_sum T = n
      ∧ ∀ e ∈ entries T, e.name.length = (key n).length ∧ e.name ≠ key n := by
  obtain ⟨T, hT, hr, hp⟩ := insert_family key L bound n hL hinj hz hlen (by omega)
  have hc := Reachable_Consistent host0 T hr
  have hlength : (entries T).length = n := by
    have := hp.length_eq
    rw [List.length_map, List.length_map, List.length_range] at this
    exact this
  refine ⟨T, hT, hr, ?_, hlength, ?_, ?_⟩
  · have h := hc.2.2
    unfold Counted at h
    rw [h, hlength]
  · rw [chain_length_sum_entries T hc.1.2.1, hlength]
  · intro e he
    have hm : e.name ∈ (List.range n).map key := hp.subset (List.mem_map_of_mem _ he)
    obtain ⟨i, hi, hie⟩ := List.mem_map.1 hm
    rw [List.mem_range] at hi
    refine ⟨by rw [← hie, hlen, hlen], ?_⟩
    intro heq
    rw [← hie] at heq
    have := hinj i n (by omega) hn heq
    omega

theorem capacity_key_inj (x y : Nat) (hx : x < 4228250625) (hy : y < 4228250625)
    (h : capacity_key x = capacity_key y) : x = y := by
  unfold capacity_key at h
  simp only [List.cons.injEq, and_true] at h
  omega

theorem capacity_key_no_zero (n : Nat) : ∀ b ∈ capacity_key n, b ≠ 0 := by
  intro b hb
  unfold capacity_key at hb
  simp only [List.mem_cons, List.mem_singleton, List.not_mem_nil, or_false] at hb
  omega

theorem capacity_key_length (n : Nat) : (capacity_key n).length = 4 := rfl

theorem table_capacity_shape :
    ∃ T, table_capacity = some T
      ∧ Reachable host0 T
      ∧ T.number = 1073741824
      ∧ T.size = 2147483648
      ∧ (entries T).length = 1073741824
      ∧ ∀ e ∈ entries T,
          e.name.length = (capacity_key 1073741824).length
            ∧ e.name ≠ capacity_key 1073741824 := by
  obtain ⟨T, hT, hr, hnum, hlen, _, hfresh⟩ := insert_family_shape capacity_key 4 4228250625
    1073741824 (by norm_num) capacity_key_inj capacity_key_no_zero capacity_key_length
    (by norm_num)
  have hnum1 : T.number = 1073741824 := by rw [hnum]; rfl
  obtain ⟨k, hk1, hk31, hsz, _, hload⟩ := Reachable_Sized host0 T hr
  have hk : k = 31 := by
    rcases hload with h | h
    · by_contra hne
      have hle : 2 ^ k ≤ 1073741824 := by
        calc 2 ^ k ≤ 2 ^ 30 := Nat.pow_le_pow_right (by norm_num) (by omega)
          _ = 1073741824 := by norm_num
      rw [hlen, hsz] at h
      omega
    · exact h
  exact ⟨T, hT, hr, hnum1, by rw [hsz, hk]; norm_num, hlen, hfresh⟩

theorem capacity_insert (sym : Symbol) :
    ∃ T o, table_capacity = some T
      ∧ Reachable host0 T
      ∧ T.number = 1073741824
      ∧ T.size = 2147483648
      ∧ h_insert host0 true true [] T (some (capacity_key 1073741824)) sym = some o
      ∧ o.result = 0
      ∧ o.table.size = 2147483648
      ∧ o.table.new_size = 0
      ∧ o.table.number = 1073741825 := by
  obtain ⟨T, hT, hr, hnum, hsz, _, hfresh⟩ := table_capacity_shape
  obtain ⟨o, g, ho, _, h1, hg, h2, h3, h4, _⟩ := h_insert_fresh host0 [] T hr
    (capacity_key 1073741824) sym (capacity_key_no_zero _)
    (by rw [capacity_key_length]; norm_num) hfresh
  have hgn := grow_number true T g hg
  rcases grow_cases true T g hg with ⟨_, h0⟩ | ⟨_, _, h5, h6⟩
  · exfalso
    rw [hnum, hsz] at h0
    exact h0 (by decide)
  · rw [hsz] at h5 h6
    have hz : (2 * 2147483648) % UINT = 0 := by decide
    rw [hz] at h5 h6
    have hgs : g.size = 2147483648 := by
      rcases h6 with ⟨h7, _⟩ | ⟨_, h7⟩
      · omega
      · exact h7
    refine ⟨T, o, hT, hr, hnum, hsz, ho, h1, by rw [h2, hgs], by rw [h3, h5], ?_⟩
    rw [h4, hgn, hnum]
    rfl

theorem wrap_key_inj (x y : Nat) (hx : x < 1078203909375) (hy : y < 1078203909375)
    (h : wrap_key x = wrap_key y) : x = y := by
  unfold wrap_key at h
  simp only [List.cons.injEq, and_true] at h
  omega

theorem wrap_key_no_zero (n : Nat) : ∀ b ∈ wrap_key n, b ≠ 0 := by
  intro b hb
  unfold wrap_key at hb
  simp only [List.mem_cons, List.mem_singleton, List.not_mem_nil, or_false] at hb
  omega

theorem wrap_key_length (n : Nat) : (wrap_key n).length = 5 := rfl

/-! ### The count invariant -/

/-- C23 (the code departs from the claim): the table obtained from `h_new(0)` by
`2^32` completed `h_insert` calls of distinct keys (five non-zero bytes each,
all allocations succeeding) is reachable, its chains hold `2^32` entries, and
its recorded count `number` is 0: `++table->number` is a `h_uint_t` increment
and wraps around, so `number` is not the sum of the chain lengths. -/
theorem number_wraps_around :
    ∃ T, insert_all host0 table0 (wrap_calls 4294967296) = some T
      ∧ Reachable host0 T
      ∧ T.number = 0
      ∧ chain_length_sum T = 4294967296
      ∧ T.number ≠ chain_length_sum T := by
  obtain ⟨T, hT, hr, hnum, _, hsum, _⟩ := insert_family_shape wrap_key 5 1078203909375
    4294967296 (by norm_num) wrap_key_inj wrap_key_no_zero wrap_key_length (by norm_num)
  have hnum0 : T.number = 0 := by rw [hnum]; rfl
  refine ⟨T, hT, hr, hnum0, hsum, ?_⟩
  rw [hnum0, hsum]
  decide

/-! ### The structure of reachable tables, and the growth rule -/

/-- The structure of every reachable table: `size` is `2^k` with `1 ≤ k ≤ 31`;
`new_size` equals `size`, or is `0` when `size = 2^31`; below `2^31` buckets
`new_size = size` and `2 * number ≤ size`; and every entry of bucket `i` has a
cached hash with `hash % size = i`. -/
theorem Reachable_structure (host : Host) (T : h_table) (h : Reachable host T) :
    (∃ k, 1 ≤ k ∧ k ≤ 31 ∧ T.size = 2 ^ k)
      ∧ (T.new_size = T.size ∨ (T.size = 2147483648 ∧ T.new_size = 0))
      ∧ (T.size < 2147483648 → T.new_size = T.size ∧ 2 * T.number ≤ T.size)
      ∧ ∀ i, i < T.size → ∀ e ∈ T.bucket.getD i [], e.hash % T.size = i := by
  have hc := Reachable_Consistent host T h
  obtain ⟨k, hk1, hk31, hsz, hns, hload⟩ := Reachable_Sized host T h
  have h31 : k = 31 → T.size = 2147483648 := by
    intro hk; rw [hsz, hk]; norm_num
  refine ⟨⟨k, hk1, hk31, hsz⟩, ?_, ?_, ?_⟩
  · rcases hns with h1 | ⟨h1, h2⟩
    · exact Or.inl h1
    · exact Or.inr ⟨h31 h1, h2⟩
  · intro hlt
    have hk : k ≠ 31 := fun hk => by have := h31 hk; omega
    have h1 : T.new_size = T.size := by
      rcases hns with h1 | ⟨h1, _⟩
      · exact h1
      · exact absurd h1 hk
    have h2 : 2 * (entries T).length ≤ T.size := by
      rcases hload with h2 | h2
      · exact h2
      · exact absurd h2 hk
    have h3 : T.number ≤ (entries T).length := by
      have h4 : T.number = (entries T).length % UINT := hc.2.2
      rw [h4]
      exact Nat.mod_le _ _
    exact ⟨h1, by omega⟩
  · intro i hi e he
    exact hc.2.1 i hi e he

/-- The growth rule on a reachable table of fewer than `2^31` buckets: an
`h_insert` that creates an entry doubles `size` exactly when
`(number + 1) * 2 > size`; a replacing `h_insert`, `h_remove` and `Y_h_pop`
leave `size` unchanged; and `2 * number ≤ size`. -/
theorem growth_rule (host : Host) (T : h_table) (h : Reachable host T)
    (hcap : T.size < 2147483648) :
    (∀ bucket_ok entry_ok junk K sym o,
        h_insert host bucket_ok entry_ok junk T (some K) sym = some o →
        (o.result = 0 →
          ((T.number + 1) * 2 > T.size → o.table.size = 2 * T.size)
          ∧ (¬ (T.number + 1) * 2 > T.size → o.table.size = T.size))
        ∧ (o.result = 1 → o.table.size = T.size))
      ∧ (∀ name o, h_remove T name = some o → o.table.size = T.size)
      ∧ (∀ name p, Y_h_pop T name = some p → p.2.1.size = T.size)
      ∧ 2 * T.number ≤ T.size := by
  have hc := Reachable_Consistent host T h
  obtain ⟨_, _, hs3, _⟩ := Reachable_structure host T h
  have hload := (hs3 hcap).2
  have hpos := hc.1.1
  refine ⟨?_, ?_, ?_, hload⟩
  · intro bucket_ok entry_ok junk K sym o ho
    obtain ⟨hash, len, _, _, rfl⟩ := h_insert_some host bucket_ok entry_ok junk T K sym o ho
    refine ⟨?_, ?_⟩
    · intro h0
      rcases h_insert_step host bucket_ok entry_ok junk T K hash len sym hc with
        ⟨h1, _⟩ | ⟨h1, _⟩ | ⟨_, _, _, g, hg, h2, _⟩
      · rw [h1] at h0; exact absurd h0 (by decide)
      · rw [h1] at h0; exact absurd h0 (by decide)
      · rw [h2]
        rcases grow_cases bucket_ok T g hg with ⟨h3, h4⟩ | ⟨h4, _, _, h5⟩
        · rw [Nat.shiftLeft_eq, pow_one] at h4
          simp only [UINT] at h4
          subst h3
          exact ⟨fun h6 => by omega, fun _ => rfl⟩
        · rw [Nat.shiftLeft_eq, pow_one] at h4
          simp only [UINT] at h4 h5
          refine ⟨fun _ => ?_, fun h6 => by omega⟩
          rcases h5 with ⟨_, h7⟩ | ⟨h7, _⟩
          · rw [h7]; omega
          · omega
    · intro h0
      rcases h_insert_step host bucket_ok entry_ok junk T K hash len sym hc with
        ⟨_, h2, _⟩ | ⟨h1, _⟩ | ⟨h1, _⟩
      · exact h2
      · rw [h1] at h0; exact absurd h0 (by decide)
      · rw [h1] at h0; exact absurd h0 (by decide)
  · intro name o ho
    cases name with
    | none =>
      rw [h_remove_none_key] at ho
      rw [← Option.some.inj ho]
    | some name =>
      obtain ⟨hash, len, _, _, rfl⟩ := h_remove_some_key T name o ho
      rcases h_remove_step T name hash len hc with ⟨_, h2⟩ | ⟨_, h2, _⟩
      · rw [h2]
      · exact h2
  · intro name p ho
    cases name with
    | none =>
      rw [Y_h_pop_none_key] at ho
      rw [← Option.some.inj ho]
    | some name =>
      obtain ⟨hash, len, _, _, rfl⟩ := Y_h_pop_some_key T name p ho
      rcases Y_h_pop_step T name hash len hc with ⟨_, h2⟩ | ⟨h2, _⟩
      · rw [h2]
      · exact h2

/-- C24 (the code departs from the claim): after `h_new(0)` and the insertion of
`2^30` distinct keys the table has `size = 2^31`; the next insertion of a new
key grows the bucket array, and `table->new_size = 2*table->size` wraps around
to `0` as a `h_uint_t`: the table it leaves, reachable by `h_insert` calls alone,
has `new_size = 0` and `size = 2^31`, which are not equal, and `new_size` is not
a non-zero power of two. -/
theorem growth_at_capacity_breaks_sizes :
    ∃ T o, table_capacity = some T
      ∧ h_insert host0 true true [] T (some (capacity_key 1073741824)) (long_sym 0) = some o
      ∧ Reachable host0 o.table
      ∧ o.table.size = 2147483648
      ∧ o.table.new_size = 0
      ∧ o.table.new_size ≠ o.table.size := by
  obtain ⟨T, o, hT, hr, _, _, ho, _, h2, h3, _⟩ := capacity_insert (long_sym 0)
  refine ⟨T, o, hT, ho, Reachable.insert true true [] T _ _ o hr ho, h2, h3, ?_⟩
  rw [h2, h3]
  decide

/-- C25 (the code departs from the claim): the table obtained from `h_new(0)` by
inserting `2^30` distinct keys has `size = 2^31` and `number = 2^30`, so that
`(number + 1) * 2 > size`; the `h_insert` of one more new key creates an entry
(result 0) and leaves `size` at `2^31` instead of doubling it, because the
`h_uint_t` product `2*size` wraps around to `0`; afterwards
`2 * number = 2^31 + 2 > size`. -/
theorem growth_at_capacity_does_not_double :
    ∃ T o, table_capacity = some T
      ∧ Reachable host0 T
      ∧ (T.number + 1) * 2 > T.size
      ∧ h_insert host0 true true [] T (some (capacity_key 1073741824)) (long_sym 1) = some o
      ∧ o.result = 0
      ∧ o.table.size = T.size
      ∧ o.table.size ≠ 2 * T.size
      ∧ 2 * o.table.number > o.table.size := by
  obtain ⟨T, o, hT, hr, hnum, hsz, ho, h1, h2, _, h4⟩ := capacity_insert (long_sym 1)
  refine ⟨T, o, hT, hr, ?_, ho, h1, ?_, ?_, ?_⟩
  · rw [hnum, hsz]; decide
  · rw [h2, hsz]
  · rw [h2, hsz]; decide
  · rw [h2, h4]; decide

/-! ### Keys of `2^32 - 1` bytes -/

theorem strncmp_head_ne (s1 s2 : List Nat) (n : Nat) (hn : 0 < n)
    (h : s1.headD 0 ≠ s2.headD 0) : strncmp s1 s2 n ≠ 0 := by
  obtain ⟨m, rfl⟩ : ∃ m, n = m + 1 := ⟨n - 1, by omega⟩
  unfold strncmp
  rw [if_pos h]
  intro hc
  apply h
  omega

theorem key_huge_length : key_huge.length = 4294967295 := by
  unfold key_huge
  exact List.length_replicate _ _

theorem key_huge_no_zero : ∀ b ∈ key_huge, b ≠ 0 := by
  intro b hb
  unfold key_huge at hb
  rw [List.eq_of_mem_replicate hb]
  exact one_ne_zero

theorem key_huge_head : key_huge.headD 0 = 1 := by
  have h : (4294967295 : Nat) = 4294967294 + 1 := by norm_num
  unfold key_huge
  rw [h, List.replicate_succ]
  rfl

theorem key_huge_ne_nil : ([] : List Nat) ≠ key_huge := by
  intro h
  have := key_huge_length
  rw [← h] at this
  simp at this

theorem H_HASH_key_huge : H_HASH key_huge = some (spec_hash_fold key_huge, 4294967295) := by
  have h := H_HASH_of_no_zero key_huge key_huge_no_zero (by rw [key_huge_length]; norm_num)
  rw [key_huge_length] at h
  exact h

theorem stored_name_key_huge (junk : List Nat) :
    stored_name junk key_huge 4294967295 = junk := by
  unfold stored_name
  rw [if_pos (by decide)]

theorem H_MATCH_key_huge (e : h_entry) (hash : Nat) (h : e.name = []) :
    H_MATCH e hash key_huge 4294967295 = false := by
  unfold H_MATCH
  have hs : strncmp key_huge e.name 4294967295 ≠ 0 := by
    apply strncmp_head_ne _ _ _ (by norm_num)
    rw [key_huge_head, h]
    decide
  simp [hs]

theorem h_insert_created (host : Host) (junk : List Nat) (t : h_table) (name : List Nat)
    (hash len : Nat) (sym : Symbol) (hc : Consistent t)
    (hno : ∀ e ∈ entries t, H_MATCH e hash name len = false) :
    (h_insert_hashed host true true junk t name hash len sym).result = 0
      ∧ ((h_insert_hashed host true true junk t name hash len sym).table.bucket.getD
            (hash % (h_insert_hashed host true true junk t name hash len sym).table.size)
            []).head?
          = some ⟨(prepare_symbol host sym).ops, (prepare_symbol host sym).value, hash,
              stored_name junk name len⟩
      ∧ List.Perm (entries (h_insert_hashed host true true junk t name hash len sym).table)
          (⟨(prepare_symbol host sym).ops, (prepare_symbol host sym).value, hash,
              stored_name junk name len⟩ :: entries t) := by
  have hrt := rehash_of_not_pending t hc.1.2.2
  have hrep : replace_chain hash name len (prepare_symbol host sym)
      ((rehash t).bucket.getD (hash % (rehash t).size) []) = none := by
    rw [replace_chain_none, hrt, find_chain_none]
    intro e he
    exact hno e ((mem_entries t hc.1.2.1 e).2 ⟨_, Nat.mod_lt _ hc.1.1, he⟩)
  obtain ⟨g, hg, _⟩ := grow_true (rehash t)
  have hg1 : grow true t = some g := by rw [hrt] at hg; exact hg
  have hgc := Consistent_grow true t g hc hg1
  rw [h_insert_create host true junk t g name hash len sym hrep hg]
  refine ⟨rfl, ?_, ?_⟩
  · dsimp only
    rw [getD_set_self _ _ _ _ (lt_of_lt_of_le (Nat.mod_lt _ hgc.1.1) hgc.1.2.1)]
    rfl
  · refine ((Consistent_link g _ hash
      ⟨(prepare_symbol host sym).ops, (prepare_symbol host sym).value, hash,
        stored_name junk name len⟩ hgc ?_ ?_ ?_ ?_ ?_).2).trans
      (List.Perm.cons _ (grow_entries true t g hc.1 hg1)) <;> rfl

/-- The insertion of the key of `2^32 - 1` bytes in a table whose entries are
all named by the empty string, the block allocated for the entry holding the
empty string: no entry matches, and the entry created is named by the empty
string. -/
theorem huge_insert (t : h_table) (hr : Reachable host0 t) (sym : Symbol)
    (hnames : ∀ e ∈ entries t, e.name = []) :
    ∃ o, h_insert host0 true true [] t (some key_huge) sym = some o
      ∧ h_find t (some key_huge) = some (none, t)
      ∧ o.result = 0
      ∧ Reachable host0 o.table
      ∧ (o.table.bucket.getD (spec_hash_fold key_huge % o.table.size) []).head?
          = some ⟨(prepare_symbol host0 sym).ops, (prepare_symbol host0 sym).value,
              spec_hash_fold key_huge, []⟩
      ∧ List.Perm (entries o.table)
          (⟨(prepare_symbol host0 sym).ops, (prepare_symbol host0 sym).value,
              spec_hash_fold key_huge, []⟩ :: entries t) := by
  have hc := Reachable_Consistent host0 t hr
  have hno : ∀ e ∈ entries t, H_MATCH e (spec_hash_fold key_huge) key_huge 4294967295 = false :=
    fun e he => H_MATCH_key_huge e _ (hnames e he)
  have ho := h_insert_eq host0 true true [] t key_huge _ _ sym H_HASH_key_huge
    (Consistent_size_ne t hc).1
  obtain ⟨h1, h2, h3⟩ := h_insert_created host0 [] t key_huge (spec_hash_fold key_huge)
    4294967295 sym hc hno
  rw [stored_name_key_huge] at h2 h3
  exact ⟨_, ho, h_find_no_match t hc key_huge _ _ H_HASH_key_huge hno, h1,
    Reachable.insert true true [] t (some key_huge) sym _ hr ho, h2, h3⟩

theorem entries_table0 : entries table0 = [] := rfl

/-- C1 (the code departs from the claim): on the table of `h_new(0)`,
`h_insert` of the key of `2^32 - 1` bytes all equal to 1 succeeds (result 0),
and `h_find` of the same key on the table it leaves returns `NULL`.  The length
`LEN` of the key is `2^32 - 1`, so the count `len+1` of
`memcpy(entry->name, name, len+1)`, computed as a `h_uint_t`, is 0: no byte of
the key is copied and the entry is named by what the allocated block holds
(here the empty string), which `H_MATCH` does not accept for the key. -/
theorem h_find_misses_inserted_key :
    key_huge.length = 4294967295
      ∧ (∀ b ∈ key_huge, b ≠ 0)
      ∧ ∃ hash o, H_HASH key_huge = some (hash, 4294967295)
        ∧ h_insert host0 true true [] table0 (some key_huge) (long_sym 1) = some o
        ∧ o.result = 0
        ∧ entries o.table = [⟨OpTable.longScalar, 1, hash, []⟩]
        ∧ h_find o.table (some key_huge) = some (none, o.table) := by
  refine ⟨key_huge_length, key_huge_no_zero, spec_hash_fold key_huge, ?_⟩
  obtain ⟨o, ho, _, h0, hr, _, hp⟩ := huge_insert table0 Reachable_table0 (long_sym 1)
    (fun e he => by rw [entries_table0] at he; simp at he)
  rw [entries_table0] at hp
  have he : entries o.table = [⟨OpTable.longScalar, 1, spec_hash_fold key_huge, []⟩] :=
    List.perm_singleton.1 hp
  refine ⟨o, H_HASH_key_huge, ho, h0, he, ?_⟩
  apply h_find_no_match o.table (Reachable_Consistent host0 o.table hr) key_huge _ _
    H_HASH_key_huge
  intro e hmem
  rw [he] at hmem
  rw [List.mem_singleton.1 hmem]
  exact H_MATCH_key_huge _ _ rfl

/-- C9 (the code departs from the claim), on two inputs.  First, on the table of
`h_new(0)`, `h_find` locates no entry for the key of `2^32 - 1` bytes all equal
to 1 and `h_insert` of that key returns 0, but the entry at the head of bucket
`hash % size` is named by the empty string that the allocated block holds, not
by the key: the count `len+1` of `memcpy(entry->name, name, len+1)` is 0 as a
`h_uint_t`.  Second, on the table obtained from `h_new(0)` by inserting
`2^32 - 1` distinct keys, whose `number` is `2^32 - 1`, `h_find` locates no
entry for one more new key and `h_insert` of it returns 0, but `number` is then
0 and not `2^32`: `++table->number` wraps around. -/
theorem h_insert_result_fails :
    (∃ hash o, H_HASH key_huge = some (hash, 4294967295)
        ∧ h_find table0 (some key_huge) = some (none, table0)
        ∧ h_insert host0 true true [] table0 (some key_huge) (long_sym 1) = some o
        ∧ o.result = 0
        ∧ (o.table.bucket.getD (hash % o.table.size) []).head?
            = some ⟨OpTable.longScalar, 1, hash, []⟩
        ∧ ([] : List Nat) ≠ key_huge)
      ∧ ∃ T o, insert_all host0 table0 (wrap_calls 4294967295) = some T
        ∧ Reachable host0 T
        ∧ T.number = 4294967295
        ∧ h_find T (some (wrap_key 4294967295)) = some (none, T)
        ∧ h_insert host0 true true [] T (some (wrap_key 4294967295)) (long_sym 0) = some o
        ∧ o.result = 0
        ∧ o.table.number = 0 := by
  constructor
  · obtain ⟨o, ho, hf, h0, _, hh, _⟩ := huge_insert table0 Reachable_table0 (long_sym 1)
      (fun e he => by rw [entries_table0] at he; simp at he)
    exact ⟨spec_hash_fold key_huge, o, H_HASH_key_huge, hf, ho, h0, hh, key_huge_ne_nil⟩
  · obtain ⟨T, hT, hr, hnum, _, _, hfresh⟩ := insert_family_shape wrap_key 5 1078203909375
      4294967295 (by norm_num) wrap_key_inj wrap_key_no_zero wrap_key_length (by norm_num)
    have hnum1 : T.number = 4294967295 := by rw [hnum]; rfl
    obtain ⟨o, g, ho, hf, h0, hg, _, _, h4, _⟩ := h_insert_fresh host0 [] T hr
      (wrap_key 4294967295) (long_sym 0) (wrap_key_no_zero _)
      (by rw [wrap_key_length]; norm_num) hfresh
    refine ⟨T, o, hT, hr, hnum1, hf, ho, h0, ?_⟩
    rw [h4, grow_number true T g hg, hnum1]
    rfl

/-- C28 (the code departs from the claim): on the table of `h_new(0)`, two
successive `h_insert` calls of the same key, of `2^32 - 1` bytes all equal to 1,
both return 0: the second creates a second entry for the key, and the table they
leave, reachable by `h_insert` alone, holds two entries with the same name (the
empty string that the allocated blocks hold).  The count `len+1` of
`memcpy(entry->name, name, len+1)` is 0 as a `h_uint_t`, so the key is not
stored in the entry and `H_MATCH` does not recognise it. -/
theorem h_insert_same_key_twice :
    ∃ o1 o2, h_insert host0 true true [] table0 (some key_huge) (long_sym 1) = some o1
      ∧ h_insert host0 true true [] o1.table (some key_huge) (long_sym 2) = some o2
      ∧ o1.result = 0
      ∧ o2.result = 0
      ∧ Reachable host0 o2.table
      ∧ (entries o2.table).map h_entry.name = [[], []]
      ∧ ¬ ((entries o2.table).map h_entry.name).Nodup := by
  obtain ⟨o1, ho1, _, h1, hr1, _, hp1⟩ := huge_insert table0 Reachable_table0 (long_sym 1)
    (fun e he => by rw [entries_table0] at he; simp at he)
  rw [entries_table0] at hp1
  have he1 := List.perm_singleton.1 hp1
  obtain ⟨o2, ho2, _, h2, hr2, _, hp2⟩ := huge_insert o1.table hr1 (long_sym 2)
    (fun e he => by
      rw [he1] at he
      rw [List.mem_singleton.1 he])
  rw [he1] at hp2
  have hn : (entries o2.table).map h_entry.name = [[], []] := by
    have h := hp2.map h_entry.name
    have h3 : List.Perm ((entries o2.table).map h_entry.name) (List.replicate 2 []) := h
    exact List.perm_replicate.1 h3
  refine ⟨o1, o2, ho1, ho2, h1, h2, hr2, hn, ?_⟩
  rw [hn]
  decide

/-! ### Insert then find, for keys shorter than `2^32 - 1` bytes -/

theorem H_MATCH_new (ops : OpTable) (v : Nat) (junk name : List Nat) (hash len : Nat)
    (hw : (len + 1) % UINT ≠ 0) :
    H_MATCH ⟨ops, v, hash, stored_name junk name len⟩ hash name len = true := by
  unfold stored_name
  rw [if_neg hw]
  simp [H_MATCH, strncmp_take]

/-- When the count `len+1` of the `memcpy` does not wrap around (the key has
fewer than `2^32 - 1` bytes), `h_find` on the table left by an `h_insert` that
did not fail returns an entry with the tag and value stored. -/
theorem h_find_after_h_insert_short (host : Host) (t : h_table) (ht : Inv t)
    (bucket_ok entry_ok : Bool) (junk name : List Nat) (hash len : Nat) (sym : Symbol)
    (hw : (len + 1) % UINT ≠ 0)
    (hok : (h_insert_hashed host bucket_ok entry_ok junk t name hash len sym).result ≠ -1) :
    ∃ e, (h_find_hashed (h_insert_hashed host bucket_ok entry_ok junk t name hash len sym).table
            name hash len).1 = some e
      ∧ e.sym_ops = (prepare_symbol host sym).ops
      ∧ e.sym_value = (prepare_symbol host sym).value := by
  have hi := Inv_insert host bucket_ok entry_ok junk t name hash len sym ht
  rw [h_find_of_Inv _ name hash len hi.2.2]
  have hr := Inv_rehash t ht
  cases hrep : replace_chain hash name len (prepare_symbol host sym)
      ((rehash t).bucket.getD (hash % (rehash t).size) []) with
  | some r =>
    obtain ⟨chain, effects⟩ := r
    rw [h_insert_replace host bucket_ok entry_ok junk t name hash len sym chain effects hrep]
    dsimp only
    have hlt : hash % (rehash t).size < (rehash t).bucket.length :=
      lt_of_lt_of_le (Nat.mod_lt _ hr.1) hr.2.1
    rw [getD_set_self _ _ _ _ hlt]
    obtain ⟨pre, e, post, _, h2, h3, h4, _⟩ := replace_chain_some _ _ _ _ _ _ _ hrep
    refine ⟨{ e with sym_ops := (prepare_symbol host sym).ops,
                     sym_value := (prepare_symbol host sym).value }, ?_, rfl, rfl⟩
    rw [h4]
    exact find_chain_append _ _ _ pre _ post h2 (by rw [H_MATCH_update]; exact h3)
  | none =>
    cases hg : grow bucket_ok (rehash t) with
    | none =>
      rw [h_insert_no_bucket host bucket_ok entry_ok junk t name hash len sym hrep hg] at hok
      exact absurd rfl hok
    | some grown =>
      cases entry_ok with
      | false =>
        rw [h_insert_no_entry host bucket_ok junk t grown name hash len sym hrep hg] at hok
        exact absurd rfl hok
      | true =>
        have hgi := Inv_grow bucket_ok (rehash t) grown hr hg
        rw [h_insert_create host bucket_ok junk t grown name hash len sym hrep hg]
        dsimp only
        have hlt : hash % grown.size < grown.bucket.length :=
          lt_of_lt_of_le (Nat.mod_lt _ hgi.1) hgi.2.1
        rw [getD_set_self _ _ _ _ hlt]
        refine ⟨{ sym_ops := (prepare_symbol host sym).ops
                  sym_value := (prepare_symbol host sym).value
                  hash := hash
                  name := stored_name junk name len }, ?_, rfl, rfl⟩
        simp only [find_chain]
        rw [if_pos (H_MATCH_new _ _ junk name hash len hw)]

/-! ### The order of the effects of a replacement -/

theorem Reachable_table_block : Reachable host0 table_block :=
  Reachable.insert true true [] table0 (some key_d) (db_sym 7) ⟨0, table_block, [Effect.Ref 7]⟩
    Reachable_table0 (by decide)

/-- C26 (counterexample): replacing the data block 7 stored under `"d"` by the
data block 8, `h_insert` sets the tag of the entry to `intScalar`, releases the
old block (`Unref 7`), and only then acquires the new one (`Ref 8`): the old
resource is released before the new one has been acquired. -/
theorem replacement_releases_before_acquiring :
    h_insert host0 true true [] table0 (some key_d) (db_sym 7)
        = some ⟨0, table_block, [Effect.Ref 7]⟩
      ∧ (h_find table_block (some key_d)).map Prod.fst
        = some (some ⟨OpTable.dataBlockSym, 7, 100, key_d⟩)
      ∧ (h_insert host0 true true [] table_block (some key_d) (db_sym 8)).map Outcome.result
          = some 1
      ∧ (h_insert host0 true true [] table_block (some key_d) (db_sym 8)).map Outcome.effects
          = some [Effect.set_sym_ops OpTable.intScalar, Effect.Unref 7, Effect.Ref 8,
              Effect.set_sym_value 8, Effect.set_sym_ops OpTable.dataBlockSym] := by
  decide

/-- C26 (amended): when `h_insert` on a reachable table replaces the value of an
existing entry (result 1) and the old and the new values are both resources,
its effects are, in this order: the tag of the entry is set to the neutral
`intScalar`, the old resource is released (`Unref`), the new resource is
acquired (`Ref`) and stored, and the tag is committed to `dataBlockSym`.  The
entry replaced is the one `h_find` returns for the key. -/
theorem replacement_order (host : Host) (T : h_table) (hT : Reachable host T)
    (bucket_ok entry_ok : Bool) (junk : List Nat) (K : List Nat) (V : Symbol) (o : Outcome)
    (ho : h_insert host bucket_ok entry_ok junk T (some K) V = some o)
    (hres : o.result = 1) :
    ∃ entry, (h_find T (some K)).map Prod.fst = some (some entry)
      ∧ o.effects = replace_effects entry (prepare_symbol host V)
      ∧ (entry.sym_ops = OpTable.dataBlockSym →
          (prepare_symbol host V).ops = OpTable.dataBlockSym →
          o.effects
            = [Effect.set_sym_ops OpTable.intScalar, Effect.Unref entry.sym_value,
                Effect.Ref (prepare_symbol host V).value,
                Effect.set_sym_value (prepare_symbol host V).value,
                Effect.set_sym_ops OpTable.dataBlockSym]) := by
  have hc := Reachable_Consistent host T hT
  have hrt := rehash_of_not_pending T hc.1.2.2
  obtain ⟨hash, len, hh, hs, rfl⟩ := h_insert_some host bucket_ok entry_ok junk T K V o ho
  cases hrep : replace_chain hash K len (prepare_symbol host V)
      (T.bucket.getD (hash % T.size) []) with
  | some r =>
    obtain ⟨chain, effects⟩ := r
    have hrep1 := hrep
    rw [← hrt] at hrep1
    have hcr := Consistent_replace T
      { rehash T with
        bucket := (rehash T).bucket.set (hash % (rehash T).size) chain }
      K hash len _ chain effects hc hrep (by simp only [hrt]) (by simp only [hrt])
      (by simp only [hrt]) (by simp only [hrt])
    obtain ⟨_, e, hf, heff, _⟩ := hcr
    rw [h_insert_replace host bucket_ok entry_ok junk T K hash len V chain effects hrep1]
    refine ⟨e, ?_, heff, ?_⟩
    · rw [h_find_eq T K hash len hh hs, h_find_of_Inv T K hash len hc.1.2.2, hf]
      rfl
    · intro h1 h2
      show effects = _
      rw [heff]
      unfold replace_effects
      rw [if_pos h1, if_pos h2, h2]
      rfl
  | none =>
    exfalso
    rcases h_insert_step host bucket_ok entry_ok junk T K hash len V hc with
      ⟨_, _, _, _, e, he, hm, _⟩ | ⟨h1, _⟩ | ⟨h1, _⟩
    · have hno := no_match_entries T hc K hash len ((replace_chain_none _ _ _ _ _).1 hrep)
      rw [hno e he] at hm
      exact Bool.noConfusion hm
    · rw [h1] at hres; exact absurd hres (by decide)
    · rw [h1] at hres; exact absurd hres (by decide)

/-- Witness of C26 (amended): the replacement of data block 7 by data block 8
under the key `"d"`. -/
theorem replacement_order_witness :
    Reachable host0 table_block
      ∧ h_insert host0 true true [] table_block (some key_d) (db_sym 8)
          = some ⟨1, ⟨0, -1, 1, 2, 2, [[⟨OpTable.dataBlockSym, 8, 100, key_d⟩], []]⟩,
              [Effect.set_sym_ops OpTable.intScalar, Effect.Unref 7, Effect.Ref 8,
                Effect.set_sym_value 8, Effect.set_sym_ops OpTable.dataBlockSym]⟩
      ∧ ∃ entry, (h_find table_block (some key_d)).map Prod.fst = some (some entry)
        ∧ [Effect.set_sym_ops OpTable.intScalar, Effect.Unref 7, Effect.Ref 8,
              Effect.set_sym_value 8, Effect.set_sym_ops OpTable.dataBlockSym]
            = replace_effects entry (prepare_symbol host0 (db_sym 8))
        ∧ (entry.sym_ops = OpTable.dataBlockSym →
            (prepare_symbol host0 (db_sym 8)).ops = OpTable.dataBlockSym →
            [Effect.set_sym_ops OpTable.intScalar, Effect.Unref 7, Effect.Ref 8,
                Effect.set_sym_value 8, Effect.set_sym_ops OpTable.dataBlockSym]
              = [Effect.set_sym_ops OpTable.intScalar, Effect.Unref entry.sym_value,
                  Effect.Ref (prepare_symbol host0 (db_sym 8)).value,
                  Effect.set_sym_value (prepare_symbol host0 (db_sym 8)).value,
                  Effect.set_sym_ops OpTable.dataBlockSym]) :=
  ⟨Reachable_table_block, by decide,
    replacement_order host0 table_block Reachable_table_block true true [] key_d (db_sym 8)
      ⟨1, ⟨0, -1, 1, 2, 2, [[⟨OpTable.dataBlockSym, 8, 100, key_d⟩], []]⟩,
        [Effect.set_sym_ops OpTable.intScalar, Effect.Unref 7, Effect.Ref 8,
          Effect.set_sym_value 8, Effect.set_sym_ops OpTable.dataBlockSym]⟩
      (by decide) (by decide)⟩

/-! ### The order of enumeration -/

theorem flat_drop_take_succ (b : List (List h_entry)) (i n : Nat) :
    flat ((b.drop i).take (n + 1)) = b.getD i [] ++ flat ((b.drop (i + 1)).take n) := by
  by_cases h : i < b.length
  · rw [List.drop_eq_getElem_cons h, List.take_succ_cons, flat_cons]
    congr 1
    simp [List.getD_eq_getElem?_getD, List.getElem?_eq_getElem h]
  · rw [List.drop_eq_nil_of_le (by omega), List.drop_eq_nil_of_le (by omega),
      getD_of_length_le _ _ _ (by omega)]
    simp [flat]

theorem flat_take_split (b : List (List h_entry)) (i n : Nat) (h : i < n) :
    flat (b.take n)
      = flat (b.take i) ++ (b.getD i [] ++ flat ((b.drop (i + 1)).take (n - (i + 1)))) := by
  have hn : n = i + ((n - (i + 1)) + 1) := by omega
  conv_lhs => rw [hn, List.take_add, flat_append, flat_drop_take_succ]

theorem keys_chain_ok (number : Nat) :
    ∀ (c : List h_entry) (acc : List (List Nat)), acc.length + c.length ≤ number →
      keys_chain number c acc = Except.ok (acc ++ c.map h_entry.name) := by
  intro c
  induction c with
  | nil => intro acc _; simp [keys_chain]
  | cons e rest ih =>
    intro acc h
    rw [List.length_cons] at h
    unfold keys_chain
    rw [if_neg (by omega), ih (acc ++ [e.name]) (by rw [List.length_append]; simp; omega)]
    simp

theorem keys_loop_ok (number : Nat) (b : List (List h_entry)) :
    ∀ (n i : Nat) (acc : List (List Nat)),
      acc.length + (flat ((b.drop i).take n)).length ≤ number →
      keys_loop number b n i acc
        = Except.ok (acc ++ (flat ((b.drop i).take n)).map h_entry.name) := by
  intro n
  induction n with
  | zero => intro i acc _; simp [keys_loop, flat]
  | succ n ih =>
    intro i acc h
    rw [flat_drop_take_succ, List.length_append] at h
    unfold keys_loop
    rw [keys_chain_ok number (b.getD i []) acc (by omega)]
    dsimp only
    rw [ih (i + 1) _ (by rw [List.length_append, List.length_map]; omega),
      flat_drop_take_succ, List.map_append, List.append_assoc]

theorem Y_h_keys_entries (t : h_table) (h : Counted t) (hlt : (entries t).length < UINT) :
    Y_h_keys t
      = Except.ok (if t.number = 0 then none else some ((entries t).map h_entry.name)) := by
  have hn : t.number = (entries t).length := by
    rw [h]; exact Nat.mod_eq_of_lt hlt
  unfold Y_h_keys
  by_cases h0 : t.number = 0
  · rw [if_neg (by simpa using h0), if_pos h0]
  · rw [if_pos h0, if_neg h0,
      keys_loop_ok t.number t.bucket t.size 0 [] (by
        rw [List.drop_zero, ← entries_eq_flat, hn]; simp)]
    simp only [List.drop_zero, List.nil_append, entries_eq_flat]

theorem scan_bucket_eq (b : List (List h_entry)) :
    ∀ n j, scan_bucket b n j = ((flat ((b.drop j).take n)).map h_entry.name).head? := by
  intro n
  induction n with
  | zero => intro j; simp [scan_bucket, flat]
  | succ n ih =>
    intro j
    rw [flat_drop_take_succ]
    unfold scan_bucket
    cases hc : b.getD j [] with
    | nil =>
      simp only [List.nil_append]
      exact ih (j + 1)
    | cons e rest => simp

theorem Y_h_first_entries (t : h_table) :
    Y_h_first t = ((entries t).map h_entry.name).head? := by
  unfold Y_h_first
  rw [scan_bucket_eq, List.drop_zero, entries_eq_flat]

theorem strncmp_self : ∀ (n : Nat) (s : List Nat), strncmp s s n = 0 := by
  intro n
  induction n with
  | zero => intro s; rfl
  | succ n ih =>
    intro s
    unfold strncmp
    rw [if_neg (by simp)]
    split
    · rfl
    · exact ih s.tail

theorem H_MATCH_self (e : h_entry) (len : Nat) : H_MATCH e e.hash e.name len = true := by
  unfold H_MATCH
  rw [strncmp_self]
  simp

theorem first_match_unique {α : Type} (p : α → Bool) :
    ∀ (a a1 b b1 : List α) (x y : α), (∀ z ∈ a, p z = false) → p x = true →
      (∀ z ∈ a1, p z = false) → p y = true → a ++ x :: b = a1 ++ y :: b1 →
      a = a1 ∧ x = y ∧ b = b1 := by
  intro a
  induction a with
  | nil =>
    intro a1 b b1 x y _ hx ha1 _ h
    cases a1 with
    | nil =>
      simp only [List.nil_append, List.cons.injEq] at h
      exact ⟨rfl, h.1, h.2⟩
    | cons z a1 =>
      simp only [List.nil_append, List.cons_append, List.cons.injEq] at h
      exfalso
      have hz := ha1 z (List.mem_cons_self _ _)
      rw [← h.1, hx] at hz
      exact Bool.noConfusion hz
  | cons w a ih =>
    intro a1 b b1 x y ha hx ha1 hy h
    cases a1 with
    | nil =>
      simp only [List.nil_append, List.cons_append, List.cons.injEq] at h
      exfalso
      have hw := ha w (List.mem_cons_self _ _)
      rw [h.1, hy] at hw
      exact Bool.noConfusion hw
    | cons z a1 =>
      simp only [List.cons_append, List.cons.injEq] at h
      obtain ⟨h1, h2, h3⟩ := ih a1 b b1 x y (fun u hu => ha u (List.mem_cons_of_mem _ hu)) hx
        (fun u hu => ha1 u (List.mem_cons_of_mem _ hu)) hy h.2
      exact ⟨by rw [h.1, h1], h2, h3⟩

theorem exists_first_match {α : Type} (p : α → Bool) :
    ∀ l : List α, (∃ x ∈ l, p x = true) →
      ∃ c1 m c2, l = c1 ++ m :: c2 ∧ (∀ z ∈ c1, p z = false) ∧ p m = true := by
  intro l
  induction l with
  | nil => rintro ⟨x, hx, _⟩; simp at hx
  | cons w l ih =>
    rintro ⟨x, hx, hpx⟩
    cases hw : p w with
    | true => exact ⟨[], w, l, rfl, by simp, hw⟩
    | false =>
      rcases List.mem_cons.1 hx with h | h
      · rw [h, hw] at hpx
        exact Bool.noConfusion hpx
      · obtain ⟨c1, m, c2, h1, h2, h3⟩ := ih ⟨x, h, hpx⟩
        refine ⟨w :: c1, m, c2, by rw [h1]; rfl, ?_, h3⟩
        intro z hz
        rcases List.mem_cons.1 hz with hz | hz
        · rw [hz]; exact hw
        · exact h2 z hz

theorem next_chain_split (hash : Nat) (name : List Nat) (len : Nat) (e : h_entry)
    (c2 : List h_entry) (he : H_MATCH e hash name len = true) :
    ∀ c1 : List h_entry, (∀ x ∈ c1, H_MATCH x hash name len = false) →
      next_chain hash name len (c1 ++ e :: c2) = some c2.head? := by
  intro c1
  induction c1 with
  | nil =>
    intro _
    simp only [List.nil_append, next_chain, he, if_true]
  | cons x c1 ih =>
    intro h
    have hx := h x (List.mem_cons_self _ _)
    simp only [List.cons_append, next_chain, hx]
    exact ih (fun y hy => h y (List.mem_cons_of_mem _ hy))

theorem Y_h_next_entries (t : h_table) (hc : Consistent t)
    (pre post : List h_entry) (e : h_entry) (len : Nat) (hent : entries t = pre ++ e :: post)
    (hh : H_HASH e.name = some (e.hash, len))
    (hno : ∀ x ∈ pre, H_MATCH x e.hash e.name len = false) :
    Y_h_next t (some e.name) = some (Except.ok ((post.map h_entry.name).head?)) := by
  have he : e ∈ entries t := by rw [hent]; simp
  have hi : e.hash % t.size < t.size := Nat.mod_lt _ hc.1.1
  have hb : e ∈ t.bucket.getD (e.hash % t.size) [] := by
    obtain ⟨j, hj, hej⟩ := (mem_entries t hc.1.2.1 e).1 he
    have := hc.2.1 j hj e hej
    rw [this]
    exact hej
  have hme : H_MATCH e e.hash e.name len = true := H_MATCH_self e len
  obtain ⟨c1, m, c2, hsplit, hc1, hm⟩ :=
    exists_first_match (fun x => H_MATCH x e.hash e.name len) _ ⟨e, hb, hme⟩
  have hdec := flat_take_split t.bucket (e.hash % t.size) t.size hi
  rw [← entries_eq_flat, hsplit] at hdec
  have hent2 : entries t = (flat (t.bucket.take (e.hash % t.size)) ++ c1) ++ m ::
      (c2 ++ flat ((t.bucket.drop (e.hash % t.size + 1)).take
        (t.size - (e.hash % t.size + 1)))) := by
    rw [hdec]
    simp only [List.append_assoc, List.cons_append]
  have hbefore : ∀ z ∈ flat (t.bucket.take (e.hash % t.size)) ++ c1,
      H_MATCH z e.hash e.name len = false := by
    intro z hz
    rcases List.mem_append.1 hz with hz | hz
    · obtain ⟨i, hi1, hzi⟩ := (mem_flat _ z).1 hz
      have hi2 : i < e.hash % t.size := by
        rw [List.length_take] at hi1
        omega
      rw [getD_take _ _ _ hi2] at hzi
      have hp := hc.2.1 i (by omega) z hzi
      cases hmz : H_MATCH z e.hash e.name len with
      | false => rfl
      | true =>
        exfalso
        have := H_MATCH_hash z _ _ _ hmz
        rw [this] at hp
        omega
    · exact hc1 z hz
  obtain ⟨_, hem, hpost⟩ := first_match_unique (fun x => H_MATCH x e.hash e.name len)
    pre _ post _ e m hno hme hbefore hm (by rw [← hent, hent2])
  have hnext := next_chain_split e.hash e.name len m c2 hm c1 hc1
  rw [Y_h_next_eq t e.name e.hash len hh (Consistent_size_ne t hc).2]
  unfold Y_h_next_hashed
  simp only [hsplit, hnext]
  rw [hpost]
  cases c2 with
  | nil =>
    simp only [List.head?_nil, List.nil_append]
    rw [scan_bucket_eq]
  | cons x c2 => simp

/-! ### The name stored for a key -/

theorem H_HASH_loop_first_zero (temp : List Nat) :
    ∀ fuel hash l r, l < UINT → (∀ i, i < l → temp.getD i 0 ≠ 0) →
      H_HASH_loop temp fuel hash l = some r →
      (∀ i, i < r.2 → temp.getD i 0 ≠ 0) ∧ temp.getD r.2 0 = 0 ∧ r.2 < UINT := by
  intro fuel
  induction fuel with
  | zero => intro hash l r _ _ h; simp [H_HASH_loop] at h
  | succ fuel ih =>
    intro hash l r hl hz h
    simp only [H_HASH_loop] at h
    split at h
    · rename_i h0
      rw [← Option.some.inj h]
      exact ⟨hz, h0, hl⟩
    · rename_i h0
      refine ih _ _ r (Nat.mod_lt _ (by norm_num)) ?_ h
      intro i hi
      have hle : (l + 1) % UINT ≤ l + 1 := Nat.mod_le _ _
      by_cases hil : i < l
      · exact hz i hil
      · have : i = l := by omega
        rw [this]
        exact h0

/-- When `H_HASH` returns the length `len` for a key, the first `len` bytes of
the key, which `h_insert` copies when `len + 1` does not wrap around, are a
string with the same hash and the same length. -/
theorem H_HASH_take (name : List Nat) (hash len : Nat) (h : H_HASH name = some (hash, len)) :
    H_HASH (name.take len) = some (hash, len) := by
  obtain ⟨hz, h0, hlt⟩ := H_HASH_loop_first_zero name _ 0 0 (hash, len) (by norm_num)
    (fun i hi => absurd hi (by omega)) h
  have hle : len ≤ name.length := by
    by_contra hc
    exact hz name.length (by omega) (List.getD_eq_default _ _ (le_refl _))
  have hrun := H_HASH_loop_run name len hlt hz h0 len 0 0 (name.length + 1) (by omega)
    (by omega)
  rw [List.drop_zero] at hrun
  have hrun1 : H_HASH name = some (spec_hash_fold (name.take len), len) := hrun
  rw [h] at hrun1
  have hhash : hash = spec_hash_fold (name.take len) := by
    have := Option.some.inj hrun1
    exact (Prod.mk.inj this).1
  have hlen : (name.take len).length = len := by
    rw [List.length_take]; omega
  have hnz : ∀ b ∈ name.take len, b ≠ 0 := by
    intro b hb
    obtain ⟨i, hi, hbi⟩ := List.getElem_of_mem hb
    rw [hlen] at hi
    have hgi := hz i hi
    rw [List.getD_eq_getElem _ _ (by omega)] at hgi
    rw [← hbi, List.getElem_take]
    exact hgi
  have := H_HASH_of_no_zero (name.take len) hnz (by rw [hlen]; exact hlt)
  rw [hlen, ← hhash] at this
  exact this

/-! ### What `rehash` does to the order of a chain -/

theorem rehash_chain_exact (ns i : Nat) (hns : 0 < ns) (c : List h_entry) :
    ∀ b : List (List h_entry), ns ≤ b.length →
      (rehash_chain ns i c b).1 = c.filter (fun e => e.hash % ns = i)
        ∧ ∀ j, j ≠ i → (rehash_chain ns i c b).2.getD j []
            = (c.filter (fun e => e.hash % ns = j)).reverse ++ b.getD j [] := by
  induction c with
  | nil => intro b _; simp [rehash_chain]
  | cons e rest ih =>
    intro b hb
    by_cases h : e.hash % ns = i
    · obtain ⟨h1, h2⟩ := ih b hb
      simp only [rehash_chain, if_pos h]
      refine ⟨by rw [h1]; simp [List.filter_cons, h], ?_⟩
      intro j hj
      rw [h2 j hj]
      have hne : ¬ e.hash % ns = j := by omega
      simp [List.filter_cons, hne]
    · have hm : e.hash % ns < b.length := lt_of_lt_of_le (Nat.mod_lt _ hns) hb
      obtain ⟨h1, h2⟩ := ih (b.set (e.hash % ns) (e :: b.getD (e.hash % ns) []))
        (by rw [List.length_set]; exact hb)
      simp only [rehash_chain, if_neg h]
      refine ⟨by rw [h1]; simp [List.filter_cons, h], ?_⟩
      intro j hj
      rw [h2 j hj]
      by_cases hjm : e.hash % ns = j
      · subst hjm
        rw [getD_set_self _ _ _ _ hm]
        simp [List.filter_cons]
      · rw [getD_set_ne _ _ _ _ _ hjm]
        simp [List.filter_cons, hjm]

theorem filter_other_bucket (s i k : Nat) (c : List h_entry)
    (hc : ∀ e ∈ c, e.hash % s = i) (h1 : k ≠ i) (h2 : k ≠ i + s) :
    c.filter (fun e => e.hash % (2 * s) = k) = [] := by
  rw [List.filter_eq_nil_iff]
  intro e he
  have := hc e he
  rcases mod_double e.hash s with h | h
  · simp only [decide_eq_true_eq]; omega
  · simp only [decide_eq_true_eq]; omega

theorem rehash_loop_exact (s : Nat) (hs : 0 < s) (b0 : List (List h_entry))
    (hlen : 2 * s ≤ b0.length)
    (hpl : ∀ j, j < s → ∀ e ∈ b0.getD j [], e.hash % s = j) (n : Nat) :
    ∀ (i : Nat) (b : List (List h_entry)), i + n = s → b.length = b0.length →
      (∀ j, j < i →
        b.getD j [] = (b0.getD j []).filter (fun e => e.hash % (2 * s) = j)
          ∧ b.getD (j + s) []
            = ((b0.getD j []).filter (fun e => e.hash % (2 * s) = j + s)).reverse) →
      (∀ j, i ≤ j → j < s → b.getD j [] = b0.getD j [] ∧ b.getD (j + s) [] = []) →
      ∀ j, j < s →
        (rehash_loop (2 * s) n i b).getD j []
            = (b0.getD j []).filter (fun e => e.hash % (2 * s) = j)
          ∧ (rehash_loop (2 * s) n i b).getD (j + s) []
            = ((b0.getD j []).filter (fun e => e.hash % (2 * s) = j + s)).reverse := by
  induction n with
  | zero =>
    intro i b hi _ hdone _ j hj
    exact hdone j (by omega)
  | succ n ih =>
    intro i b hi hbl hdone hpend j hj
    have his : i < s := by omega
    have hci : b.getD i [] = b0.getD i [] := (hpend i (le_refl _) his).1
    have hcpl : ∀ e ∈ b.getD i [], e.hash % s = i := by
      rw [hci]; exact hpl i his
    obtain ⟨hx1, hx2⟩ := rehash_chain_exact (2 * s) i (by omega) (b.getD i []) b
      (by rw [hbl]; exact hlen)
    have hget : ∀ k, k ≠ i →
        ((rehash_chain (2 * s) i (b.getD i []) b).2.set i
          (rehash_chain (2 * s) i (b.getD i []) b).1).getD k []
          = ((b.getD i []).filter (fun e => e.hash % (2 * s) = k)).reverse ++ b.getD k [] := by
      intro k hk
      rw [getD_set_ne _ _ _ _ _ (Ne.symm hk), hx2 k hk]
    have hother : ∀ k, k ≠ i → k ≠ i + s →
        ((rehash_chain (2 * s) i (b.getD i []) b).2.set i
          (rehash_chain (2 * s) i (b.getD i []) b).1).getD k [] = b.getD k [] := by
      intro k hk1 hk2
      rw [hget k hk1, filter_other_bucket s i k _ hcpl hk1 hk2]
      rfl
    unfold rehash_loop
    refine ih (i + 1) _ (by omega) (by rw [List.length_set, rehash_chain_length]; exact hbl)
      ?_ ?_ j hj
    · intro k hk
      by_cases hki : k = i
      · subst hki
        refine ⟨?_, ?_⟩
        · rw [getD_set_self _ _ _ _ (by rw [rehash_chain_length, hbl]; omega), hx1, hci]
        · rw [hget (k + s) (by omega), (hpend k (le_refl _) his).2, hci, List.append_nil]
      · rw [hother k hki (by omega), hother (k + s) (by omega) (by omega)]
        exact hdone k (by omega)
    · intro k hk1 hk2
      rw [hother k (by omega) (by omega), hother (k + s) (by omega) (by omega)]
      exact hpend k (by omega) hk2

theorem rehash_exact (t : h_table) (hs : 0 < t.size) (hns : t.new_size = 2 * t.size)
    (hlen : t.new_size ≤ t.bucket.length)
    (hpl : ∀ i, i < t.size → ∀ e ∈ t.bucket.getD i [], e.hash % t.size = i)
    (hemp : ∀ j, t.size ≤ j → j < t.new_size → t.bucket.getD j [] = []) :
    ∀ i, i < t.size →
      (rehash t).bucket.getD i []
          = (t.bucket.getD i []).filter (fun e => e.hash % (2 * t.size) = i)
        ∧ (rehash t).bucket.getD (i + t.size) []
          = ((t.bucket.getD i []).filter (fun e => e.hash % (2 * t.size) = i + t.size)).reverse := by
  have hp : t.size < t.new_size := by omega
  have hr : rehash t = { t with
      bucket := rehash_loop t.new_size t.size 0 t.bucket
      size := t.new_size } := by
    unfold rehash
    rw [if_pos hp]
  rw [hr, hns]
  exact rehash_loop_exact t.size hs t.bucket (by omega) hpl t.size 0 t.bucket (by omega) rfl
    (fun j hj => by omega)
    (fun j _ hj => ⟨rfl, hemp (j + t.size) (by omega) (by omega)⟩)

/-! ### The chains after an insertion -/

theorem grow_buckets (b : Bool) (t g : h_table) (hc : Consistent t)
    (hg : grow b t = some g) :
    (g.size = t.size → ∀ i, i < t.size → g.bucket.getD i [] = t.bucket.getD i [])
      ∧ (g.size = 2 * t.size → ∀ i, i < t.size →
          g.bucket.getD i []
              = (t.bucket.getD i []).filter (fun e => e.hash % (2 * t.size) = i)
            ∧ g.bucket.getD (i + t.size) []
              = ((t.bucket.getD i []).filter
                  (fun e => e.hash % (2 * t.size) = i + t.size)).reverse) := by
  obtain ⟨⟨h0, hl, _⟩, hpl, _⟩ := hc
  have hlen : (t.bucket.take t.size ++ List.replicate t.size ([] : List h_entry)).length
      = 2 * t.size := by
    rw [List.length_append, List.length_take, List.length_replicate]; omega
  unfold grow at hg
  split at hg
  · split at hg
    · simp only [Option.some.injEq] at hg
      subst hg
      rcases rehash_cases { t with
          bucket := t.bucket.take t.size ++ List.replicate t.size []
          new_size := (2 * t.size) % UINT } with ⟨h1, h2, _⟩ | ⟨_, h2⟩
      · have hd := double_mod_gt t.size h1
        refine ⟨fun hs => ?_, fun _ i hi => ?_⟩
        · rw [h2] at hs
          simp only at hs
          omega
        · have hx := rehash_exact { t with
              bucket := t.bucket.take t.size ++ List.replicate t.size []
              new_size := (2 * t.size) % UINT } h0 hd (by simp only; rw [hlen, hd])
            (fun j hj e he => by
              simp only at he
              rw [getD_grown_lt _ _ _ hl hj] at he
              exact hpl j hj e he)
            (fun j hj _ => getD_grown _ _ _ hl hj) i hi
          simp only at hx
          rw [getD_grown_lt _ _ _ hl hi] at hx
          exact hx
      · rw [h2]
        refine ⟨fun _ i hi => getD_grown_lt _ _ _ hl hi, fun hs => ?_⟩
        simp only at hs
        omega
    · simp at hg
  · simp only [Option.some.injEq] at hg
    subst hg
    exact ⟨fun _ _ _ => rfl, fun hs => by omega⟩

theorem h_insert_created_buckets (host : Host) (bucket_ok entry_ok : Bool) (junk : List Nat)
    (t : h_table) (name : List Nat) (hash len : Nat) (sym : Symbol) (hc : Consistent t)
    (h0 : (h_insert_hashed host bucket_ok entry_ok junk t name hash len sym).result = 0) :
    ∃ g, grow bucket_ok t = some g
      ∧ (h_insert_hashed host bucket_ok entry_ok junk t name hash len sym).table.size = g.size
      ∧ ∀ j, (h_insert_hashed host bucket_ok entry_ok junk t name hash len sym).table.bucket.getD
            j []
          = (if hash % g.size = j then
              [⟨(prepare_symbol host sym).ops, (prepare_symbol host sym).value,
                hash, stored_name junk name len⟩] else [])
            ++ g.bucket.getD j [] := by
  have hrt := rehash_of_not_pending t hc.1.2.2
  cases hrep : replace_chain hash name len (prepare_symbol host sym)
      ((rehash t).bucket.getD (hash % (rehash t).size) []) with
  | some r =>
    obtain ⟨chain, effects⟩ := r
    rw [h_insert_replace host bucket_ok entry_ok junk t name hash len sym chain effects hrep]
      at h0
    simp at h0
  | none =>
    cases hg : grow bucket_ok (rehash t) with
    | none =>
      rw [h_insert_no_bucket host bucket_ok entry_ok junk t name hash len sym hrep hg] at h0
      simp at h0
    | some grown =>
      have hg1 : grow bucket_ok t = some grown := by rw [hrt] at hg; exact hg
      have hgi : Inv grown := Inv_grow bucket_ok t grown hc.1 hg1
      cases entry_ok with
      | false =>
        rw [h_insert_no_entry host bucket_ok junk t grown name hash len sym hrep hg] at h0
        simp at h0
      | true =>
        rw [h_insert_create host bucket_ok junk t grown name hash len sym hrep hg]
        refine ⟨grown, hg1, rfl, ?_⟩
        intro j
        by_cases hj : hash % grown.size = j
        · subst hj
          rw [if_pos rfl]
          show (grown.bucket.set _ _).getD _ [] = _
          rw [getD_set_self _ _ _ _ (lt_of_lt_of_le (Nat.mod_lt _ hgi.1) hgi.2.1)]
          rfl
        · rw [if_neg hj]
          show (grown.bucket.set _ _).getD _ [] = _
          rw [getD_set_ne _ _ _ _ _ hj]
          rfl

theorem Reachable_table_dl : Reachable host0 table_dl :=
  Reachable_insert_all host0 [(key_d, long_sym 1), (key_l, long_sym 2)] table0 table_dl
    Reachable_table0 (by decide)

theorem Reachable_table_dlx : Reachable host0 table_dlx :=
  Reachable_insert_all host0 [(key_d, long_sym 1), (key_l, long_sym 2), (key_x, long_sym 3)]
    table0 table_dlx Reachable_table0 (by decide)

/-- C27 (counterexample): after `h_new(0)` and the insertion of the distinct
keys `"d"`, `"l"`, `"x"` in this order, the table has grown twice; `"d"` and
`"l"` share bucket 4 of 8, where the second rehash has put `"d"` before the more
recently inserted `"l"`.  `Y_h_keys` lists `"x"`, `"d"`, `"l"`, and so does the
iteration by `Y_h_first` and `Y_h_next`: within bucket 4 the keys do not come
most-recently-inserted first. -/
theorem rehash_reverses_insertion_order :
    Reachable host0 table_dlx
      ∧ insert_all host0 table0 [(key_d, long_sym 1), (key_l, long_sym 2)] = some table_dl
      ∧ insert_all host0 table0 [(key_d, long_sym 1), (key_l, long_sym 2), (key_x, long_sym 3)]
          = some table_dlx
      ∧ table_dl.bucket
          = [[⟨OpTable.longScalar, 2, 108, key_l⟩, ⟨OpTable.longScalar, 1, 100, key_d⟩],
              [], [], []]
      ∧ table_dlx.bucket
          = [[⟨OpTable.longScalar, 3, 120, key_x⟩], [], [], [],
              [⟨OpTable.longScalar, 1, 100, key_d⟩, ⟨OpTable.longScalar, 2, 108, key_l⟩],
              [], [], []]
      ∧ table_dlx.size = 8
      ∧ Y_h_keys table_dlx = Except.ok (some [key_x, key_d, key_l])
      ∧ Y_h_first table_dlx = some key_x
      ∧ Y_h_next table_dlx (some key_x) = some (Except.ok (some key_d))
      ∧ Y_h_next table_dlx (some key_d) = some (Except.ok (some key_l))
      ∧ Y_h_next table_dlx (some key_l) = some (Except.ok none) :=
  ⟨Reachable_table_dlx, by decide, by decide, by decide, by decide, by decide, rfl, by decide,
    rfl, rfl, rfl⟩

/-- C27 (amended): in every table reachable from a successful `h_new`,
`Y_h_keys` (for fewer than `2^32` entries) lists the names of the entries in the
order of `entries T`, that is by increasing bucket index and, within one
bucket, in chain order; `Y_h_first` returns the first of these names; and
`Y_h_next`, called with the name of an entry whose cached hash is the hash of
that name and that no entry before it in that order matches, returns the name
that follows it (nil after the last).  As to the chain order: an `h_insert`
that creates an entry links it at the head of its chain; when it does not
change `size` the chains are otherwise unchanged, and when it doubles `size` the
entries of chain `i` that stay in bucket `i` keep their order, while those that
move to bucket `i + size` are in reverse order there.  The entry created is
named by the bytes that `memcpy` copies: the key up to its terminator, with the
same hash and length as the key, unless the count `len+1` wraps around. -/
theorem enumeration_order (host : Host) (T : h_table) (hT : Reachable host T) :
    ((entries T).length < UINT →
        Y_h_keys T
          = Except.ok (if T.number = 0 then none else some ((entries T).map h_entry.name)))
      ∧ Y_h_first T = ((entries T).map h_entry.name).head?
      ∧ (∀ (pre post : List h_entry) (e : h_entry) (len : Nat),
          entries T = pre ++ e :: post →
          H_HASH e.name = some (e.hash, len) →
          (∀ x ∈ pre, H_MATCH x e.hash e.name len = false) →
          Y_h_next T (some e.name) = some (Except.ok ((post.map h_entry.name).head?)))
      ∧ (∀ (bucket_ok entry_ok : Bool) (junk K : List Nat) (V : Symbol) (o : Outcome)
          (hash len : Nat),
          h_insert host bucket_ok entry_ok junk T (some K) V = some o →
          H_HASH K = some (hash, len) →
          o.result = 0 →
          (o.table.size = T.size →
              ∀ i, i < T.size →
                o.table.bucket.getD i []
                  = (if hash % T.size = i then
                      [⟨(prepare_symbol host V).ops, (prepare_symbol host V).value,
                        hash, stored_name junk K len⟩] else [])
                    ++ T.bucket.getD i [])
            ∧ (o.table.size = 2 * T.size →
              ∀ i, i < T.size →
                o.table.bucket.getD i []
                    = (if hash % (2 * T.size) = i then
                        [⟨(prepare_symbol host V).ops, (prepare_symbol host V).value,
                          hash, stored_name junk K len⟩] else [])
                      ++ (T.bucket.getD i []).filter (fun e => e.hash % (2 * T.size) = i)
                  ∧ o.table.bucket.getD (i + T.size) []
                    = (if hash % (2 * T.size) = i + T.size then
                        [⟨(prepare_symbol host V).ops, (prepare_symbol host V).value,
                          hash, stored_name junk K len⟩] else [])
                      ++ ((T.bucket.getD i []).filter
                          (fun e => e.hash % (2 * T.size) = i + T.size)).reverse))
      ∧ ∀ (junk K : List Nat) (hash len : Nat),
          H_HASH K = some (hash, len) → (len + 1) % UINT ≠ 0 →
          stored_name junk K len = K.take len ∧ H_HASH (K.take len) = some (hash, len) := by
  have hc := Reachable_Consistent host T hT
  refine ⟨fun hlt => Y_h_keys_entries T hc.2.2 hlt, Y_h_first_entries T,
    fun pre post e len hent hh hno => Y_h_next_entries T hc pre post e len hent hh hno, ?_, ?_⟩
  · intro bucket_ok entry_ok junk K V o hash len ho hh h0
    obtain ⟨hash1, len1, hh1, _, rfl⟩ := h_insert_some host bucket_ok entry_ok junk T K V o ho
    rw [hh] at hh1
    obtain ⟨rfl, rfl⟩ := Prod.mk.inj (Option.some.inj hh1)
    obtain ⟨g, hg, hs, hb⟩ :=
      h_insert_created_buckets host bucket_ok entry_ok junk T K hash len V hc h0
    obtain ⟨hg1, hg2⟩ := grow_buckets bucket_ok T g hc hg
    refine ⟨fun hsz i hi => ?_, fun hsz i hi => ?_⟩
    · rw [hb i, hg1 (by rw [← hs]; exact hsz) i hi, ← hsz, hs]
    · have hgs : g.size = 2 * T.size := by rw [← hs]; exact hsz
      rw [hb i, hb (i + T.size), (hg2 hgs i hi).1, (hg2 hgs i hi).2, hgs]
      exact ⟨rfl, rfl⟩
  · intro junk K hash len hh hw
    refine ⟨?_, H_HASH_take K hash len hh⟩
    unfold stored_name
    rw [if_neg hw]

/-- Witness of C27 (amended): the table holding `"d"`, `"l"`, `"x"`, where
`Y_h_next` of `"d"`, which follows `"x"`, returns `"l"`; and the insertion of
`"x"` in the table holding `"l"`, `"d"` in bucket 0 of 4, which doubles `size`:
both entries move to bucket 4, in reverse order. -/
theorem enumeration_order_witness :
    Y_h_keys table_dlx
        = Except.ok (if table_dlx.number = 0 then none
            else some ((entries table_dlx).map h_entry.name))
      ∧ Y_h_first table_dlx = ((entries table_dlx).map h_entry.name).head?
      ∧ entries table_dlx
          = [⟨OpTable.longScalar, 3, 120, key_x⟩] ++ ⟨OpTable.longScalar, 1, 100, key_d⟩
            :: [⟨OpTable.longScalar, 2, 108, key_l⟩]
      ∧ H_HASH key_d = some (100, 1)
      ∧ Y_h_next table_dlx (some key_d) = some (Except.ok (some key_l))
      ∧ h_insert host0 true true [] table_dl (some key_x) (long_sym 3)
          = some ⟨0, table_dlx, []⟩
      ∧ H_HASH key_x = some (120, 1)
      ∧ table_dlx.bucket.getD (0 + table_dl.size) []
          = (if 120 % (2 * table_dl.size) = 0 + table_dl.size then
              [⟨(prepare_symbol host0 (long_sym 3)).ops, (prepare_symbol host0 (long_sym 3)).value,
                120, stored_name [] key_x 1⟩] else [])
            ++ ((table_dl.bucket.getD 0 []).filter
                (fun e => e.hash % (2 * table_dl.size) = 0 + table_dl.size)).reverse
      ∧ stored_name [] key_x 1 = key_x.take 1
      ∧ H_HASH (key_x.take 1) = some (120, 1) :=
  ⟨(enumeration_order host0 table_dlx Reachable_table_dlx).1 (by decide),
    (enumeration_order host0 table_dlx Reachable_table_dlx).2.1,
    by decide, by decide,
    (enumeration_order host0 table_dlx Reachable_table_dlx).2.2.1
      [⟨OpTable.longScalar, 3, 120, key_x⟩] [⟨OpTable.longScalar, 2, 108, key_l⟩]
      ⟨OpTable.longScalar, 1, 100, key_d⟩ 1 (by decide) (by decide) (by decide),
    by decide, by decide,
    (((enumeration_order host0 table_dl Reachable_table_dl).2.2.2.1 true true [] key_x
      (long_sym 3) ⟨0, table_dlx, []⟩ 120 1 (by decide) (by decide) (by decide)).2
        (by decide) 0 (by decide)).2,
    (enumeration_order host0 table_dl Reachable_table_dl).2.2.2.2 [] key_x 120 1 (by decide)
      (by decide)⟩

end Yeti
